import Mathlib

set_option maxRecDepth 4000

/-!
Shallow embedding of the dyl compiler front-end parser
(src/dyl-compiler/src/parser.rs), a nom-6-style combinator parser.

Modelling conventions:
* `Input` models `LocatedSpan<&str, &ParsingContext>`: the remaining text
  plus a byte/line/column position.  The shared mutable diagnostic sink
  (`ParsingContext`, whose definition lives outside src/) is modelled as an
  explicit `Ctx := List String` threaded through every parser, including
  through failed alternatives, because in the source it is a shared
  reference whose mutations survive backtracking.
* A parser result is `PRes`: success (new input + value), a recoverable
  nom error (the error's stored input + an `ErrorKind` code), or `panic`,
  which models a Rust panic (the `.unwrap()` in `integer`).  The source
  never constructs `Err::Failure` or `Err::Incomplete`, so those variants
  are not needed for any reachable behaviour and are omitted from `PRes`;
  `Err`/`NomError` below model the error values handed to the caller.
* Character classes follow nom's ASCII definitions (`digit1`, `alpha1`,
  `alphanumeric1`, `multispace0`); `char::is_alphabetic` in `keyword` is
  modelled by `Char.isAlpha` (they agree on all ASCII text).
* The mutually recursive grammar rules are tied together with a fuel
  parameter (`mkRules`); fuel is only consumed when a rule re-enters the
  expression grammar after consuming at least one character (inside
  `if_else` and `block`), so `length input + 2` fuel can never run out
  and the `panic` fuel-exhaustion branch is unreachable.
-/

namespace Dyl

/-- Byte offset / line / column, as tracked by `nom_locate::LocatedSpan`
(offset 0-based, line and column 1-based). -/
structure Pos where
  offset : Nat
  line : Nat
  col : Nat
  deriving DecidableEq, Repr

def Pos.advance (p : Pos) (c : Char) : Pos :=
  if c = '\n' then ⟨p.offset + 1, p.line + 1, 1⟩
  else ⟨p.offset + 1, p.line, p.col + 1⟩

/-- The parser input: remaining text plus current position
(`LocatedSpan<&str, &ParsingContext>` minus the diagnostic sink, which is
threaded separately as mutable state). -/
structure Input where
  rem : List Char
  pos : Pos
  deriving DecidableEq, Repr

/-- The diagnostic sink owned by `ParsingContext`: an append-only list of
messages. -/
abbrev Ctx := List String

/-- nom `ErrorKind` codes actually produced by the source grammar. -/
inductive ErrorKind where
  | Tag
  | Digit
  | Alpha
  | AlphaNumeric
  | Many0
  | Many1
  deriving DecidableEq, Repr

/-- Outcome of running one parser: `ok` and `err` mirror
`Ok((tail, value))` and `Err(Err::Error(NomError { input, code }))`;
`panic` models a Rust panic unwinding out of the parser. -/
inductive PRes (α : Type) where
  | ok (i : Input) (a : α)
  | err (i : Input) (k : ErrorKind)
  | panic
  deriving DecidableEq, Repr

/-- `nom::error::Error` (the default error type): failing input + code. -/
structure NomError (α : Type) where
  input : α
  code : ErrorKind
  deriving DecidableEq, Repr

/-- `nom::Err` restricted to the variants the source can produce
(`Incomplete` never arises with complete parsers). -/
inductive Err (ε : Type) where
  | error (e : ε)
  | failure (e : ε)
  deriving DecidableEq, Repr

def Parser (α : Type) : Type := Input → Ctx → PRes α × Ctx

/-- AST nodes (`ExprKind`). Modelled from the spec: `ast.rs` is not under
src/; the spec fixes the closed variant set — integer literal (signed
32-bit), identifier reference, addition, subtraction, multiplication,
conditional, bindings block — and the constructor helpers used by
parser.rs (`ExprKind::integer`, `::ident`, `::addition`, `::subtraction`,
`::multiplication`, `::if_`, `::bindings`, `Binding::new`). -/
inductive ExprKind where
  | integer (value : Int)
  | ident (name : String)
  | addition (lhs rhs : ExprKind)
  | subtraction (lhs rhs : ExprKind)
  | multiplication (lhs rhs : ExprKind)
  | if_ (condition consequent alternative : ExprKind)
  | bindings (bs : List (String × ExprKind)) (ending : ExprKind)

/-- `Binding`: a name paired with its value expression. Modelled from the
spec (`ast.rs` is not under src/). -/
abbrev Binding := String × ExprKind

def Binding.new (name : String) (value : ExprKind) : Binding := (name, value)

/-! ## Primitive matchers -/

/-- Characters matched by nom `multispace0`: space, tab, CR, LF. -/
def isMultispace (c : Char) : Bool :=
  c = ' ' || c = '\t' || c = '\r' || c = '\n'

def skipSpaces : List Char → Pos → Input
  | [], p => ⟨[], p⟩
  | c :: rest, p =>
    if isMultispace c then skipSpaces rest (p.advance c) else ⟨c :: rest, p⟩

/-- nom `multispace0`: consumes any leading whitespace, never fails. -/
def multispace0 : Parser Unit := fun i c => (.ok (skipSpaces i.rem i.pos) (), c)

/-- Longest prefix of characters satisfying `f`, with the advanced input. -/
def take1Loop (f : Char → Bool) : List Char → Pos → List Char × Input
  | [], p => ([], ⟨[], p⟩)
  | c :: rest, p =>
    if f c then
      let r := take1Loop f rest (p.advance c)
      (c :: r.1, r.2)
    else ([], ⟨c :: rest, p⟩)

/-- nom one-or-more character class matcher (complete variant): fails with
`k` at the unchanged input when no character matches. -/
def takeWhile1P (f : Char → Bool) (k : ErrorKind) : Parser (List Char) := fun i c =>
  match take1Loop f i.rem i.pos with
  | ([], _) => (.err i k, c)
  | (ds, i2) => (.ok i2 ds, c)

def digit1 : Parser (List Char) := takeWhile1P Char.isDigit ErrorKind.Digit

def alpha1 : Parser (List Char) := takeWhile1P Char.isAlpha ErrorKind.Alpha

def alphanumeric1 : Parser (List Char) :=
  takeWhile1P Char.isAlphanum ErrorKind.AlphaNumeric

def tagLoop : List Char → Input → Option Input
  | [], i => some i
  | t :: ts, ⟨c :: rest, p⟩ =>
    if c = t then tagLoop ts ⟨rest, p.advance c⟩ else none
  | _ :: _, ⟨[], _⟩ => none

/-- The source's `tag` wrapper around `nom::bytes::complete::tag`: matches
the literal `t`, yielding the matched fragment. -/
def tag (t : List Char) : Parser (List Char) := fun i c =>
  match tagLoop t i with
  | some i2 => (.ok i2 t, c)
  | none => (.err i ErrorKind.Tag, c)

/-! ## Combinators (nom 6 semantics with the default error type) -/

def pmap {α β : Type} (p : Parser α) (f : α → β) : Parser β := fun i c =>
  match p i c with
  | (.ok i2 a, c2) => (.ok i2 (f a), c2)
  | (.err ie k, c2) => (.err ie k, c2)
  | (.panic, c2) => (.panic, c2)

def pbind {α β : Type} (p : Parser α) (f : α → Parser β) : Parser β := fun i c =>
  match p i c with
  | (.ok i2 a, c2) => f a i2 c2
  | (.err ie k, c2) => (.err ie k, c2)
  | (.panic, c2) => (.panic, c2)

/-- nom `alt` over two alternatives: with the default error type the
second alternative's error wins (`Error::or` keeps the later error, the
final `append` is the identity).  Diagnostics recorded by a failed branch
persist, because the sink is shared by reference. -/
def alt2 {α : Type} (p q : Parser α) : Parser α := fun i c =>
  match p i c with
  | (.ok i2 a, c2) => (.ok i2 a, c2)
  | (.err _ _, c2) => q i c2
  | (.panic, c2) => (.panic, c2)

def opt {α : Type} (p : Parser α) : Parser (Option α) := fun i c =>
  match p i c with
  | (.ok i2 a, c2) => (.ok i2 (some a), c2)
  | (.err _ _, c2) => (.ok i none, c2)
  | (.panic, c2) => (.panic, c2)

def preceded {α β : Type} (p : Parser α) (q : Parser β) : Parser β :=
  pbind p fun _ => q

def terminated {α β : Type} (p : Parser α) (q : Parser β) : Parser α :=
  pbind p fun a => pmap q fun _ => a

def delimited {α β γ : Type} (p : Parser α) (q : Parser β) (r : Parser γ) :
    Parser β :=
  pbind p fun _ => pbind q fun b => pmap r fun _ => b

def pairP {α β : Type} (p : Parser α) (q : Parser β) : Parser (α × β) :=
  pbind p fun a => pmap q fun b => (a, b)

/-- nom `recognize`: run `p` and yield the consumed fragment. -/
def recognize {α : Type} (p : Parser α) : Parser (List Char) := fun i c =>
  match p i c with
  | (.ok i2 _, c2) => (.ok i2 (i.rem.take (i.rem.length - i2.rem.length)), c2)
  | (.err ie k, c2) => (.err ie k, c2)
  | (.panic, c2) => (.panic, c2)

/-- Iteration shared by `many0`/`many1`: stop (keeping the accumulator) on
a recoverable error, guard against zero-length progress with error `k`.
The fuel-exhaustion branch is unreachable with fuel > remaining length,
since every kept iteration strictly consumes. -/
def manyLoop {α : Type} (k : ErrorKind) (p : Parser α) :
    Nat → List α → Parser (List α)
  | 0, _ => fun _ c => (.panic, c)
  | fuel + 1, acc => fun i c =>
    match p i c with
    | (.err _ _, c2) => (.ok i acc, c2)
    | (.panic, c2) => (.panic, c2)
    | (.ok i2 a, c2) =>
      if i2.rem.length = i.rem.length then (.err i2 k, c2)
      else manyLoop k p fuel (acc ++ [a]) i2 c2

def many0 {α : Type} (p : Parser α) : Parser (List α) := fun i c =>
  manyLoop ErrorKind.Many0 p (i.rem.length + 1) [] i c

/-- nom `many1`: the first iteration's error propagates unchanged (the
default error type's `append` keeps the inner error). -/
def many1 {α : Type} (p : Parser α) : Parser (List α) := fun i c =>
  match p i c with
  | (.err ie k, c2) => (.err ie k, c2)
  | (.panic, c2) => (.panic, c2)
  | (.ok i2 a, c2) => manyLoop ErrorKind.Many1 p (i2.rem.length + 1) [a] i2 c2

/-- Loop of nom 6 `fold_many1` after the mandatory first iteration. -/
def foldMany1Loop {α β : Type} (p : Parser α) (g : β → α → β) :
    Nat → β → Parser β
  | 0, _ => fun _ c => (.panic, c)
  | fuel + 1, acc => fun i c =>
    match p i c with
    | (.err _ _, c2) => (.ok i acc, c2)
    | (.panic, c2) => (.panic, c2)
    | (.ok i2 a, c2) =>
      if i2.rem.length = i.rem.length then (.err i2 ErrorKind.Many1, c2)
      else foldMany1Loop p g fuel (g acc a) i2 c2

/-- nom 6 `fold_many1`: at least one application of `p` is required; if
the first application fails recoverably the whole fold fails with
`ErrorKind::Many1` at the fold's input. -/
def fold_many1 {α β : Type} (p : Parser α) (init : β) (g : β → α → β) :
    Parser β := fun i c =>
  match p i c with
  | (.err _ _, c2) => (.err i ErrorKind.Many1, c2)
  | (.panic, c2) => (.panic, c2)
  | (.ok i2 a, c2) => foldMany1Loop p g (i2.rem.length + 1) (g init a) i2 c2

/-- `space_insignificant`: strips whitespace on both sides of `parser`. -/
def space_insignificant {α : Type} (parser : Parser α) : Parser α :=
  delimited multispace0 parser multispace0

/-- `expect`: error-recovery wrapper.  On success, wraps the value in
`Some`.  On a recoverable error it hands the error's stored input and code
to `recovery`; the parse continues with `None` at the recovered input (or
at the error input when recovery declines). -/
def expect {α : Type} (parser : Parser α)
    (recovery : Input → ErrorKind → Ctx → Option Input × Ctx) :
    Parser (Option α) := fun i c =>
  match parser i c with
  | (.ok i2 a, c2) => (.ok i2 (some a), c2)
  | (.err ie k, c2) =>
    match recovery ie k c2 with
    | (some tail, c3) => (.ok tail none, c3)
    | (none, c3) => (.ok ie none, c3)
  | (.panic, c2) => (.panic, c2)

/-- `epsilon_recovery`: appends the diagnostic `"Excepted token"` to the
shared sink and resumes at the very input where the expected token was
missing. -/
def epsilon_recovery (i : Input) (_ : ErrorKind) (c : Ctx) :
    Option Input × Ctx :=
  (some i, c ++ ["Excepted token"])

/-! ## Tokens -/

def lbrace : Char := '\x7b'

def rbrace : Char := '\x7d'

/-- `keyword`: literal keyword, then the next character must not be
alphabetic; consumes surrounding whitespace.  The rejection error carries
the input as of the start of the keyword attempt. -/
def keyword (kw : List Char) : Parser Unit := fun i c =>
  match (preceded multispace0 (tag kw)) i c with
  | (.ok tail _, c2) =>
    let nextIsAlphabetic :=
      match tail.rem with
      | [] => false
      | ch :: _ => ch.isAlpha
    if nextIsAlphabetic then (.err i ErrorKind.Tag, c2)
    else (.ok (skipSpaces tail.rem tail.pos) (), c2)
  | (.err ie k, c2) => (.err ie k, c2)
  | (.panic, c2) => (.panic, c2)

def if_ : Parser Unit := keyword "if".data

def else_ : Parser Unit := keyword "else".data

def let_ : Parser Unit := keyword "let".data

def equal : Parser Unit := pmap (space_insignificant (tag "=".data)) fun _ => ()

def semicolon : Parser Unit :=
  pmap (space_insignificant (tag ";".data)) fun _ => ()

def star : Parser Unit := pmap (space_insignificant (tag "*".data)) fun _ => ()

def left_curly : Parser Unit :=
  pmap (space_insignificant (tag [lbrace])) fun _ => ()

def right_curly : Parser Unit :=
  pmap (space_insignificant (tag [rbrace])) fun _ => ()

/-! ## Leaf grammar rules -/

def digitsVal (ds : List Char) : Nat :=
  ds.foldl (fun a ch => a * 10 + (ch.toNat - 48)) 0

/-- Rust `str::parse::<i32>` restricted to the `(-)?digits` fragments that
`integer` recognizes: `none` exactly when the value overflows i32. -/
def parseI32 (s : List Char) : Option Int :=
  match s with
  | '-' :: ds =>
    if -(digitsVal ds : Int) < -(2 ^ 31) then none
    else some (-(digitsVal ds : Int))
  | ds =>
    if (2 ^ 31 - 1 : Int) < (digitsVal ds : Int) then none
    else some ((digitsVal ds : Int))

/-- `integer`: optional minus then digits, whitespace-insignificant; the
source converts with `.parse().unwrap()`, which panics when the literal
overflows the 32-bit signed range. -/
def integer : Parser ExprKind := fun i c =>
  match (space_insignificant (recognize (pairP (opt (tag "-".data)) digit1))) i c with
  | (.ok i2 frag, c2) =>
    match parseI32 frag with
    | some v => (.ok i2 (ExprKind.integer v), c2)
    | none => (.panic, c2)
  | (.err ie k, c2) => (.err ie k, c2)
  | (.panic, c2) => (.panic, c2)

/-- `ident`: one alphabetic-or-underscore character then any number of
alphanumeric-or-underscore characters, whitespace-insignificant. -/
def ident : Parser String := fun i c =>
  match (space_insignificant (recognize (pairP (alt2 alpha1 (tag "_".data))
      (many0 (alt2 alphanumeric1 (tag "_".data)))))) i c with
  | (.ok i2 frag, c2) => (.ok i2 (String.mk frag), c2)
  | (.err ie k, c2) => (.err ie k, c2)
  | (.panic, c2) => (.panic, c2)

def ident_expr : Parser ExprKind := pmap ident fun name => ExprKind.ident name

inductive Level0Operator where
  | Plus
  | Minus
  deriving DecidableEq, Repr

def Level0Operator.make_expr :
    Level0Operator → ExprKind → ExprKind → ExprKind
  | .Plus, lhs, rhs => ExprKind.addition lhs rhs
  | .Minus, lhs, rhs => ExprKind.subtraction lhs rhs

def level_0_operator : Parser Level0Operator :=
  pmap (alt2 (tag "+".data) (tag "-".data)) fun operator =>
    if operator = "+".data then .Plus else .Minus

/-! ## The mutually recursive grammar, tied with fuel -/

/-- One snapshot of every recursive grammar rule. -/
structure Rules where
  program : Parser ExprKind
  expr : Parser ExprKind
  level_0_expression : Parser ExprKind
  level_1_expression : Parser ExprKind
  atomic_expr : Parser ExprKind
  block : Parser ExprKind
  if_else : Parser ExprKind
  binding : Parser Binding
  bindings : Parser ExprKind

def failRules : Rules where
  program := fun _ c => (.panic, c)
  expr := fun _ c => (.panic, c)
  level_0_expression := fun _ c => (.panic, c)
  level_1_expression := fun _ c => (.panic, c)
  atomic_expr := fun _ c => (.panic, c)
  block := fun _ c => (.panic, c)
  if_else := fun _ c => (.panic, c)
  binding := fun _ c => (.panic, c)
  bindings := fun _ c => (.panic, c)

/-- `block`: `{` bindings-or-expression `}`; the recursive re-entry (after
`{` is consumed) goes through `prev`. -/
def blockStep (prev : Rules) : Parser ExprKind :=
  delimited left_curly (alt2 prev.bindings prev.expr) right_curly

/-- `if_else`: `if <expr> <block> else <block>`; the condition (parsed
after `if` is consumed) goes through `prev`. -/
def if_elseStep (prev : Rules) : Parser ExprKind :=
  pbind if_ fun _ =>
    pbind prev.expr fun condition =>
      pbind (blockStep prev) fun consequent =>
        pbind else_ fun _ =>
          pmap (blockStep prev) fun alternative =>
            ExprKind.if_ condition consequent alternative

/-- `atomic_expr`: `alt((integer, if_else, block, ident_expr))`. -/
def atomic_exprStep (prev : Rules) : Parser ExprKind :=
  alt2 integer (alt2 (if_elseStep prev) (alt2 (blockStep prev) ident_expr))

/-- `level_1_expression`: one atomic term then `fold_many1` over
`(star, atomic_expr)` pairs, folding into multiplications. -/
def level_1_expressionStep (prev : Rules) : Parser ExprKind :=
  pbind (atomic_exprStep prev) fun first =>
    fold_many1 (pairP star (atomic_exprStep prev)) first fun lhs a =>
      ExprKind.multiplication lhs a.2

/-- `level_0_expression`: one multiplicative-or-atomic term then
`fold_many1` over `(level_0_operator, term)` pairs. -/
def level_0_expressionStep (prev : Rules) : Parser ExprKind :=
  pbind (alt2 (level_1_expressionStep prev) (atomic_exprStep prev)) fun first =>
    fold_many1
      (pairP level_0_operator
        (alt2 (level_1_expressionStep prev) (atomic_exprStep prev)))
      first fun left a => a.1.make_expr left a.2

/-- `expr`: `alt((level_0_expression, level_1_expression, atomic_expr))`. -/
def exprStep (prev : Rules) : Parser ExprKind :=
  alt2 (level_0_expressionStep prev)
    (alt2 (level_1_expressionStep prev) (atomic_exprStep prev))

/-- `binding`: `let <ident> = <expr> ;` with `=` and `;` going through the
`expect`/`epsilon_recovery` wrapper. -/
def bindingStep (prev : Rules) : Parser Binding :=
  pbind (delimited let_ ident (expect equal epsilon_recovery)) fun name =>
    pmap (terminated (exprStep prev) (expect semicolon epsilon_recovery))
      fun value => Binding.new name value

/-- `bindings`: one-or-more binding clauses then a trailing expression. -/
def bindingsStep (prev : Rules) : Parser ExprKind :=
  pbind (many1 (bindingStep prev)) fun bs =>
    pmap (exprStep prev) fun ending => ExprKind.bindings bs ending

/-- `program`: `alt((bindings, expr))`. -/
def programStep (prev : Rules) : Parser ExprKind :=
  alt2 (bindingsStep prev) (exprStep prev)

/-- One unfolding of the grammar: each rule is built exactly as in the
source, with the recursive re-entries inside `block` and `if_else`
(which both first consume at least one character) taken from `prev`. -/
def mkRulesStep (prev : Rules) : Rules :=
  ⟨programStep prev, exprStep prev, level_0_expressionStep prev,
    level_1_expressionStep prev, atomic_exprStep prev, blockStep prev,
    if_elseStep prev, bindingStep prev, bindingsStep prev⟩

def mkRules : Nat → Rules
  | 0 => failRules
  | n + 1 => mkRulesStep (mkRules n)

/-- Fuel that can never be exhausted: every fuel decrement follows the
consumption of at least one character. -/
def ruleFuel (i : Input) : Nat := i.rem.length + 2

def program : Parser ExprKind := fun i c => (mkRules (ruleFuel i)).program i c

def expr : Parser ExprKind := fun i c => (mkRules (ruleFuel i)).expr i c

def level_0_expression : Parser ExprKind := fun i c =>
  (mkRules (ruleFuel i)).level_0_expression i c

def level_1_expression : Parser ExprKind := fun i c =>
  (mkRules (ruleFuel i)).level_1_expression i c

def atomic_expr : Parser ExprKind := fun i c =>
  (mkRules (ruleFuel i)).atomic_expr i c

def block : Parser ExprKind := fun i c => (mkRules (ruleFuel i)).block i c

def if_else : Parser ExprKind := fun i c => (mkRules (ruleFuel i)).if_else i c

def binding : Parser Binding := fun i c => (mkRules (ruleFuel i)).binding i c

def bindings : Parser ExprKind := fun i c => (mkRules (ruleFuel i)).bindings i c

/-! ## Top-level entry -/

def own_nom_error (err : NomError Input) : NomError Unit :=
  ⟨(), err.code⟩

def own_nom_err : Err (NomError Input) → Err (NomError Unit)
  | .error e => .error (own_nom_error e)
  | .failure f => .failure (own_nom_error f)

/-- The terminal failure handed back by `parse_input`: either an owned nom
error (position already discarded) or the `ensure!` "did not consume the
whole program" error, whose message interpolates the remaining tail. -/
inductive Failure where
  | nomErr (e : Err (NomError Unit))
  | trailing (tail : List Char)
  deriving DecidableEq, Repr

/-- Joint result of `parse_input`: `(AnyResult<ExprKind>, ParsingContext)`,
or a panic unwinding out of the call. -/
inductive ParseOutcome where
  | ok (e : ExprKind) (ctx : Ctx)
  | fail (f : Failure) (ctx : Ctx)
  | panicked

/-- Fresh `LocatedSpan` over `s`: offset 0, line 1, column 1. -/
def mkInput (s : List Char) : Input := ⟨s, ⟨0, 1, 1⟩⟩

/-- `parse_input`: runs `program` on a fresh context, owns any nom error
(discarding its position), then requires the whole input consumed. -/
def parse_input (s : List Char) : ParseOutcome :=
  match program (mkInput s) [] with
  | (.ok tail e, c) =>
    if tail.rem = [] then .ok e c else .fail (.trailing tail.rem) c
  | (.err ie k, c) => .fail (.nomErr (own_nom_err (.error ⟨ie, k⟩))) c
  | (.panic, _) => .panicked

/-! ## Statement helpers for the `integer` characterization -/

/-- The `(-)?digits` fragment that `integer` recognizes at the front of
`r` (after leading whitespace has been stripped), if any. -/
def intFragOf (r : List Char) : Option (List Char) :=
  match r with
  | [] => none
  | ch :: rest =>
    if ch = '-' then
      if rest.takeWhile Char.isDigit = [] then none
      else some ('-' :: rest.takeWhile Char.isDigit)
    else
      if (ch :: rest).takeWhile Char.isDigit = [] then none
      else some ((ch :: rest).takeWhile Char.isDigit)

/-- `integer` after its leading `multispace0` has run: `integer i c`
definitionally equals `integerCore (skipSpaces i.rem i.pos) c`. -/
def integerCore : Parser ExprKind := fun j c =>
  match (pbind (recognize (pairP (opt (tag "-".data)) digit1)) fun frag =>
      pmap multispace0 fun _ => frag) j c with
  | (.ok i2 frag, c2) =>
    match parseI32 frag with
    | some v => (.ok i2 (ExprKind.integer v), c2)
    | none => (.panic, c2)
  | (.err ie k, c2) => (.err ie k, c2)
  | (.panic, c2) => (.panic, c2)

/-- The conditional program `if 0 { 1 } else { 42 }` with arbitrary
inter-token whitespace in each of the eight gaps between its tokens. -/
def conditionalSkeleton (w1 w2 w3 w4 w5 w6 w7 w8 : List Char) : List Char :=
  "if".data ++ (w1 ++ ("0".data ++ (w2 ++ (lbrace ::
    (w3 ++ ("1".data ++ (w4 ++ (rbrace ::
      (w5 ++ ("else".data ++ (w6 ++ (lbrace ::
        (w7 ++ ("42".data ++ (w8 ++ (rbrace :: []))))))))))))))))

/-! ## Predicates used by the whitespace-insensitivity statements -/

/-- Every character of `l` is whitespace (in nom's `multispace0` sense). -/
def allWs (l : List Char) : Prop := ∀ ch ∈ l, isMultispace ch = true

/-- The first character of `l` (if any) is not whitespace. -/
def headNotWs (l : List Char) : Prop :=
  ∀ ch, l.head? = some ch → isMultispace ch = false

/-- The first character of `l` (if any) is not a decimal digit. -/
def headNotDigit (l : List Char) : Prop :=
  ∀ ch, l.head? = some ch → ch.isDigit = false

/-- The first character of `l` (if any) is not alphabetic. -/
def headNotAlpha (l : List Char) : Prop :=
  ∀ ch, l.head? = some ch → ch.isAlpha = false

/-- The first character of `l` (if any) differs from `a`. -/
def headNot (a : Char) (l : List Char) : Prop :=
  ∀ ch, l.head? = some ch → ch ≠ a

/-! ## Token sequences and whitespace renderings

The whitespace-insensitivity claim quantifies over programs presented as
token sequences with whitespace in the gaps between consecutive tokens.
`Token` is the surface token alphabet of the grammar, `render` interleaves
token texts with per-gap whitespace, and `WfRender` states the syntactic
side conditions under which a gap assignment presents the same token
sequence: gaps are whitespace-only, a gap is non-empty whenever dropping
it would fuse the two adjacent tokens into one maximal-munch token (or
let the integer matcher absorb a free-standing minus as a sign), and a
word is never a keyword followed directly by a digit or underscore (the
keyword matcher would split such a word). -/

/-- A surface token: a word (identifier or keyword — the grammar is
scannerless, so which one it is depends on the parse), an integer literal
with optional sign, or one of the single-character symbols. -/
inductive Token where
  | word (s : List Char)
  | num (neg : Bool) (ds : List Char)
  | plus
  | minus
  | star
  | eq
  | semi
  | lb
  | rb
  deriving DecidableEq, Repr

/-- The characters a token is rendered as. -/
def tokText : Token → List Char
  | .word s => s
  | .num neg ds => (if neg then ['-'] else []) ++ ds
  | .plus => ['+']
  | .minus => ['-']
  | .star => ['*']
  | .eq => ['=']
  | .semi => [';']
  | .lb => [lbrace]
  | .rb => [rbrace]

/-- First character of an identifier: alphabetic or underscore. -/
def identStartC (c : Char) : Bool := c.isAlpha || c = '_'

/-- Continuation character of an identifier: alphanumeric or underscore. -/
def identContC (c : Char) : Bool := c.isAlphanum || c = '_'

/-- `kw` is a proper prefix of `s` whose next character is not
alphabetic — the keyword matcher would then match `kw` inside `s`. -/
def keywordSplit : List Char → List Char → Bool
  | [], [] => false
  | [], c :: _ => !c.isAlpha
  | _ :: _, [] => false
  | k :: kt, c :: st => if c = k then keywordSplit kt st else false

/-- Well-formedness of one token: words are non-empty identifiers that no
keyword splits, number literals are non-empty digit strings. -/
def wfToken : Token → Bool
  | .word s =>
    match s with
    | [] => false
    | h :: t =>
      identStartC h && !h.isDigit && !isMultispace h &&
        (h :: t).all identContC &&
        !keywordSplit "if".data (h :: t) &&
        !keywordSplit "let".data (h :: t) &&
        !keywordSplit "else".data (h :: t)
  | .num _ ds => !ds.isEmpty && ds.all Char.isDigit
  | _ => true

/-- Dropping the gap between `t` and `t'` would change the token
structure: identifier/number munching would absorb the start of `t'`,
or the integer matcher would absorb a free-standing minus as a sign. -/
def needSep : Token → Token → Bool
  | .minus, .num false _ => true
  | .word _, .word _ => true
  | .word _, .num false _ => true
  | .num _ _, .num false _ => true
  | _, _ => false

/-- Gap list aligned with the token list, whitespace-only gaps, and a
non-empty gap wherever the adjacent tokens would otherwise fuse. -/
def wfGaps : List Token → List (List Char) → Bool
  | [], [] => true
  | [], _ :: _ => false
  | _ :: _, [] => false
  | t :: ts, g :: gs =>
    g.all isMultispace &&
      (match ts with
       | [] => true
       | t' :: _ => !g.isEmpty || !needSep t t') &&
      wfGaps ts gs

/-- A well-formed rendering: well-formed tokens and a well-formed gap
assignment. -/
def WfRender (ts : List Token) (gs : List (List Char)) : Bool :=
  ts.all wfToken && wfGaps ts gs

/-- Interleaves each token's text with the whitespace gap after it. -/
def render : List Token → List (List Char) → List Char
  | [], _ => []
  | t :: ts, [] => tokText t ++ render ts []
  | t :: ts, g :: gs => tokText t ++ (g ++ render ts gs)

/-! ## The token-level interpreter

A token-level mirror of the grammar, used to show that the parse outcome
of a well-formed rendering depends only on the token sequence.  It is
proof infrastructure: the refinement theorems below tie every rule of the
character-level parser (the model of parser.rs) to its token-level
counterpart. -/

/-- Outcome of a token-level run: success with the remaining token
suffix, a recoverable error, or a panic. -/
inductive TRes (α : Type) where
  | ok (ts : List Token) (a : α)
  | err
  | panic

def TParser (α : Type) : Type := List Token → Ctx → TRes α × Ctx

def tmap {α β : Type} (p : TParser α) (f : α → β) : TParser β := fun ts c =>
  match p ts c with
  | (.ok ts2 a, c2) => (.ok ts2 (f a), c2)
  | (.err, c2) => (.err, c2)
  | (.panic, c2) => (.panic, c2)

def tbind {α β : Type} (p : TParser α) (f : α → TParser β) : TParser β :=
  fun ts c =>
  match p ts c with
  | (.ok ts2 a, c2) => f a ts2 c2
  | (.err, c2) => (.err, c2)
  | (.panic, c2) => (.panic, c2)

def talt2 {α : Type} (p q : TParser α) : TParser α := fun ts c =>
  match p ts c with
  | (.ok ts2 a, c2) => (.ok ts2 a, c2)
  | (.err, c2) => q ts c2
  | (.panic, c2) => (.panic, c2)

def tpairP {α β : Type} (p : TParser α) (q : TParser β) : TParser (α × β) :=
  tbind p fun a => tmap q fun b => (a, b)

def tterminated {α β : Type} (p : TParser α) (q : TParser β) : TParser α :=
  tbind p fun a => tmap q fun _ => a

def tdelimited {α β γ : Type} (p : TParser α) (q : TParser β)
    (r : TParser γ) : TParser β :=
  tbind p fun _ => tbind q fun b => tmap r fun _ => b

/-- Token-level `expect … epsilon_recovery`: never fails, records the
diagnostic and resumes at the same token position when the wrapped
parser fails. -/
def texpect {α : Type} (p : TParser α) : TParser (Option α) := fun ts c =>
  match p ts c with
  | (.ok ts2 a, c2) => (.ok ts2 (some a), c2)
  | (.err, c2) => (.ok ts none, c2 ++ ["Excepted token"])
  | (.panic, c2) => (.panic, c2)

def tmanyLoop {α : Type} (p : TParser α) : Nat → List α → TParser (List α)
  | 0, _ => fun _ c => (.panic, c)
  | fuel + 1, acc => fun ts c =>
    match p ts c with
    | (.err, c2) => (.ok ts acc, c2)
    | (.panic, c2) => (.panic, c2)
    | (.ok ts2 a, c2) =>
      if ts2.length = ts.length then (.err, c2)
      else tmanyLoop p fuel (acc ++ [a]) ts2 c2

def tmany1 {α : Type} (p : TParser α) : TParser (List α) := fun ts c =>
  match p ts c with
  | (.err, c2) => (.err, c2)
  | (.panic, c2) => (.panic, c2)
  | (.ok ts2 a, c2) => tmanyLoop p (ts2.length + 1) [a] ts2 c2

def tfoldLoop {α β : Type} (p : TParser α) (g : β → α → β) :
    Nat → β → TParser β
  | 0, _ => fun _ c => (.panic, c)
  | fuel + 1, acc => fun ts c =>
    match p ts c with
    | (.err, c2) => (.ok ts acc, c2)
    | (.panic, c2) => (.panic, c2)
    | (.ok ts2 a, c2) =>
      if ts2.length = ts.length then (.err, c2)
      else tfoldLoop p g fuel (g acc a) ts2 c2

def tfold_many1 {α β : Type} (p : TParser α) (init : β) (g : β → α → β) :
    TParser β := fun ts c =>
  match p ts c with
  | (.err, c2) => (.err, c2)
  | (.panic, c2) => (.panic, c2)
  | (.ok ts2 a, c2) => tfoldLoop p g (ts2.length + 1) (g init a) ts2 c2

/-- Token-level keyword matcher: under `WfRender`, the character-level
keyword matcher succeeds exactly on the word token equal to `kw`. -/
def tokKeyword (kw : List Char) : TParser Unit := fun ts c =>
  match ts with
  | .word s :: rest => if s = kw then (.ok rest (), c) else (.err, c)
  | _ => (.err, c)

def tokIdent : TParser String := fun ts c =>
  match ts with
  | .word s :: rest => (.ok rest (String.mk s), c)
  | _ => (.err, c)

def tokIdentExpr : TParser ExprKind :=
  tmap tokIdent fun name => ExprKind.ident name

def tokInteger : TParser ExprKind := fun ts c =>
  match ts with
  | .num neg ds :: rest =>
    match parseI32 (if neg then '-' :: ds else ds) with
    | some v => (.ok rest (ExprKind.integer v), c)
    | none => (.panic, c)
  | _ => (.err, c)

/-- Token-level matcher for a single-character symbol token. -/
def tokSingle (t : Token) : TParser Unit := fun ts c =>
  match ts with
  | t0 :: rest => if t0 = t then (.ok rest (), c) else (.err, c)
  | [] => (.err, c)

/-- Token-level additive operator: `+`, a free-standing `-`, or the sign
of a negative literal (the character-level `tag("-")` consumes exactly
that sign, leaving the digits as an unsigned literal). -/
def tokLevel0Op : TParser Level0Operator := fun ts c =>
  match ts with
  | .plus :: rest => (.ok rest .Plus, c)
  | .minus :: rest => (.ok rest .Minus, c)
  | .num true ds :: rest => (.ok (.num false ds :: rest) .Minus, c)
  | _ => (.err, c)

/-- Token-level snapshot of every recursive grammar rule. -/
structure TokRules where
  program : TParser ExprKind
  expr : TParser ExprKind
  level_0_expression : TParser ExprKind
  level_1_expression : TParser ExprKind
  atomic_expr : TParser ExprKind
  block : TParser ExprKind
  if_else : TParser ExprKind
  binding : TParser Binding
  bindings : TParser ExprKind

def tokFailRules : TokRules where
  program := fun _ c => (.panic, c)
  expr := fun _ c => (.panic, c)
  level_0_expression := fun _ c => (.panic, c)
  level_1_expression := fun _ c => (.panic, c)
  atomic_expr := fun _ c => (.panic, c)
  block := fun _ c => (.panic, c)
  if_else := fun _ c => (.panic, c)
  binding := fun _ c => (.panic, c)
  bindings := fun _ c => (.panic, c)

def tblockStep (prev : TokRules) : TParser ExprKind :=
  tdelimited (tokSingle .lb) (talt2 prev.bindings prev.expr) (tokSingle .rb)

def tif_elseStep (prev : TokRules) : TParser ExprKind :=
  tbind (tokKeyword "if".data) fun _ =>
    tbind prev.expr fun condition =>
      tbind (tblockStep prev) fun consequent =>
        tbind (tokKeyword "else".data) fun _ =>
          tmap (tblockStep prev) fun alternative =>
            ExprKind.if_ condition consequent alternative

def tatomic_exprStep (prev : TokRules) : TParser ExprKind :=
  talt2 tokInteger
    (talt2 (tif_elseStep prev) (talt2 (tblockStep prev) tokIdentExpr))

def tlevel_1_expressionStep (prev : TokRules) : TParser ExprKind :=
  tbind (tatomic_exprStep prev) fun first =>
    tfold_many1 (tpairP (tokSingle .star) (tatomic_exprStep prev)) first
      fun lhs a => ExprKind.multiplication lhs a.2

def tlevel_0_expressionStep (prev : TokRules) : TParser ExprKind :=
  tbind (talt2 (tlevel_1_expressionStep prev) (tatomic_exprStep prev))
    fun first =>
    tfold_many1
      (tpairP tokLevel0Op
        (talt2 (tlevel_1_expressionStep prev) (tatomic_exprStep prev)))
      first fun left a => a.1.make_expr left a.2

def texprStep (prev : TokRules) : TParser ExprKind :=
  talt2 (tlevel_0_expressionStep prev)
    (talt2 (tlevel_1_expressionStep prev) (tatomic_exprStep prev))

def tbindingStep (prev : TokRules) : TParser Binding :=
  tbind (tdelimited (tokKeyword "let".data) tokIdent
      (texpect (tokSingle .eq))) fun name =>
    tmap (tterminated (texprStep prev) (texpect (tokSingle .semi)))
      fun value => Binding.new name value

def tbindingsStep (prev : TokRules) : TParser ExprKind :=
  tbind (tmany1 (tbindingStep prev)) fun bs =>
    tmap (texprStep prev) fun ending => ExprKind.bindings bs ending

def tprogramStep (prev : TokRules) : TParser ExprKind :=
  talt2 (tbindingsStep prev) (texprStep prev)

def mkTokRulesStep (prev : TokRules) : TokRules :=
  ⟨tprogramStep prev, texprStep prev, tlevel_0_expressionStep prev,
    tlevel_1_expressionStep prev, tatomic_exprStep prev, tblockStep prev,
    tif_elseStep prev, tbindingStep prev, tbindingsStep prev⟩

def mkTokRules : Nat → TokRules
  | 0 => tokFailRules
  | n + 1 => mkTokRulesStep (mkTokRules n)

/-! ## The refinement relation between the two levels -/

/-- The character-level input `i` is exactly a well-formed rendering of
the token suffix `ts`, with no pending leading whitespace. -/
def CleanAt (i : Input) (ts : List Token) : Prop :=
  ∃ gs p, i = ⟨render ts gs, p⟩ ∧ WfRender ts gs = true

/-- Correspondence between a character-level outcome and a token-level
outcome: equal diagnostic sinks; on success equal values, a clean
remaining input, and the progress predicate `okP`; errors and panics
correspond. -/
def PRel {α : Type} (okP : Input → List Token → Prop)
    (out : PRes α × Ctx) (tout : TRes α × Ctx) : Prop :=
  out.2 = tout.2 ∧
  ((∃ i2 ts2 a, out.1 = .ok i2 a ∧ tout.1 = .ok ts2 a ∧ CleanAt i2 ts2 ∧
      okP i2 ts2) ∨
   ((∃ ie k, out.1 = .err ie k) ∧ tout.1 = .err) ∨
   (out.1 = .panic ∧ tout.1 = .panic))

/-- `PRel` with strict progress on both levels. -/
def MRel {α : Type} (iLen tsLen : Nat) (out : PRes α × Ctx)
    (tout : TRes α × Ctx) : Prop :=
  PRel (fun i2 ts2 => i2.rem.length < iLen ∧ ts2.length < tsLen) out tout

/-- `PRel` with weak progress (used for the iteration loops, which may
succeed without consuming anything). -/
def MRelW {α : Type} (iLen tsLen : Nat) (out : PRes α × Ctx)
    (tout : TRes α × Ctx) : Prop :=
  PRel (fun i2 ts2 => i2.rem.length ≤ iLen ∧ ts2.length ≤ tsLen) out tout

/-- One character-level rule refines its token-level counterpart on every
well-formed rendering (with arbitrary pending leading whitespace) of
every token suffix shorter than `bound`. -/
def RuleRef {α : Type} (P : Parser α) (T : TParser α) (bound : Nat) :
    Prop :=
  ∀ ts gs ws p c, ts.length < bound → WfRender ts gs = true → allWs ws →
    MRel (ws ++ render ts gs).length ts.length
      (P ⟨ws ++ render ts gs, p⟩ c) (T ts c)

/-- All nine grammar rules refine their token-level counterparts. -/
def ExprRef (m : Nat) (R : Rules) (T : TokRules) : Prop :=
  RuleRef R.program T.program m ∧
  RuleRef R.expr T.expr m ∧
  RuleRef R.level_0_expression T.level_0_expression m ∧
  RuleRef R.level_1_expression T.level_1_expression m ∧
  RuleRef R.atomic_expr T.atomic_expr m ∧
  RuleRef R.block T.block m ∧
  RuleRef R.if_else T.if_else m ∧
  RuleRef R.binding T.binding m ∧
  RuleRef R.bindings T.bindings m

/-! ## Helper lemmas about the `fold_many1` loops -/

theorem foldMany1Loop_ok_foldl {α β : Type} (p : Parser α) (g : β → α → β) :
    ∀ (fuel : Nat) (acc : β) (i : Input) (c : Ctx) (i2 : Input) (v : β)
      (c2 : Ctx), foldMany1Loop p g fuel acc i c = (.ok i2 v, c2) →
      ∃ xs : List α, v = xs.foldl g acc := by
  intro fuel
  induction fuel with
  | zero =>
    intro acc i c i2 v c2 h
    rw [foldMany1Loop] at h
    exact absurd (congrArg Prod.fst h) (by simp)
  | succ n ih =>
    intro acc i c i2 v c2 h
    rw [foldMany1Loop] at h
    dsimp only at h
    cases hp : p i c with
    | mk r c3 =>
      rw [hp] at h
      cases r with
      | ok i3 a =>
        dsimp only at h
        split at h
        · exact absurd (congrArg Prod.fst h) (by simp)
        · obtain ⟨xs, hxs⟩ := ih (g acc a) i3 c3 i2 v c2 h
          exact ⟨a :: xs, by simpa using hxs⟩
      | err ie k =>
        dsimp only at h
        injection h with h1 h2
        injection h1 with hi hv
        exact ⟨[], hv.symm⟩
      | panic =>
        exact absurd (congrArg Prod.fst h) (by simp)

theorem fold_many1_ok_head {α β : Type} (p : Parser α) (init : β)
    (g : β → α → β) (i : Input) (c : Ctx) (i2 : Input) (v : β) (c2 : Ctx)
    (h : fold_many1 p init g i c = (.ok i2 v, c2)) :
    ∃ (a : α) (xs : List α), v = xs.foldl g (g init a) := by
  unfold fold_many1 at h
  cases hp : p i c with
  | mk r c3 =>
    rw [hp] at h
    cases r with
    | ok i3 a => exact ⟨a, foldMany1Loop_ok_foldl p g _ _ _ _ _ _ _ h⟩
    | err ie k => exact absurd (congrArg Prod.fst h) (by simp)
    | panic => exact absurd (congrArg Prod.fst h) (by simp)

theorem foldl_shape {α β : Type} (g : β → α → β) (P : β → Prop)
    (hg : ∀ acc x, P (g acc x)) :
    ∀ (xs : List α) (z : β), P z → P (xs.foldl g z) := by
  intro xs
  induction xs with
  | nil => intro z hz; exact hz
  | cons x xs ih => intro z _; exact ih (g z x) (hg z x)

/-! ## Claim C1: what the terminal failure value carries -/

/-- C1 counterexample.  The claim says every terminal parse failure
carries the byte/line/column failure position together with an error
classification tag.  In fact `own_nom_error` replaces the
position-carrying input by `()`: the inputs `"%"` and `"\n %"` make the
grammar fail at different positions (offset 0, line 1, column 1 versus
offset 2, line 2, column 2), yet `parse_input` returns the very same
failure value for both, so the returned failure cannot carry the
position. -/
theorem parse_failure_same_value_at_distinct_positions :
    parse_input "%".data =
      .fail (.nomErr (.error ⟨(), ErrorKind.Tag⟩)) [] ∧
    parse_input "\n %".data =
      .fail (.nomErr (.error ⟨(), ErrorKind.Tag⟩)) [] ∧
    program (mkInput "%".data) [] =
      (.err ⟨"%".data, ⟨0, 1, 1⟩⟩ ErrorKind.Tag, []) ∧
    program (mkInput "\n %".data) [] =
      (.err ⟨"%".data, ⟨2, 2, 2⟩⟩ ErrorKind.Tag, []) ∧
    (⟨0, 1, 1⟩ : Pos) ≠ ⟨2, 2, 2⟩ :=
  ⟨rfl, rfl, rfl, rfl, by decide⟩

/-- C1 amended: the terminal parse failure returned to the caller carries
an error classification tag but no position — `own_nom_error` discards
the located input, so any two inputs on which the grammar fails with the
same error code produce identical failure values, whatever the failure
positions were. -/
theorem parse_failure_carries_only_code (s t : List Char)
    (is it : Input) (k : ErrorKind) (cs ct : Ctx)
    (hs : program (mkInput s) [] = (.err is k, cs))
    (ht : program (mkInput t) [] = (.err it k, ct)) :
    parse_input s = .fail (.nomErr (.error ⟨(), k⟩)) cs ∧
    parse_input t = .fail (.nomErr (.error ⟨(), k⟩)) ct := by
  unfold parse_input
  rw [hs, ht]
  exact ⟨rfl, rfl⟩

/-- Witness for the C1 amended theorem at the two concrete inputs. -/
theorem parse_failure_carries_only_code_witness :
    parse_input "%".data = .fail (.nomErr (.error ⟨(), ErrorKind.Tag⟩)) [] ∧
    parse_input "\n %".data =
      .fail (.nomErr (.error ⟨(), ErrorKind.Tag⟩)) [] :=
  parse_failure_carries_only_code "%".data "\n %".data
    ⟨"%".data, ⟨0, 1, 1⟩⟩ ⟨"%".data, ⟨2, 2, 2⟩⟩ .Tag [] [] rfl rfl

/-! ## Claim C2: missing `=` / `;` recovery in a binding clause -/

/-- C2: when the expected token is missing, `expect` with
`epsilon_recovery` never fails: it appends the diagnostic to the shared
sink and resumes exactly at the input stored in the error (where the
expected token would have started); consequently `"let x 42;"` (missing
`=`) and `"let x = 42"` (missing `;`) both parse as the binding of `x` to
the integer 42, each with one recorded diagnostic. -/
theorem binding_recovers_missing_tokens :
    (∀ (α : Type) (p : Parser α) (i : Input) (c : Ctx) (ie : Input)
        (k : ErrorKind) (c2 : Ctx), p i c = (.err ie k, c2) →
        expect p epsilon_recovery i c =
          (.ok ie none, c2 ++ ["Excepted token"])) ∧
    binding (mkInput "let x 42;".data) [] =
      (.ok ⟨[], ⟨9, 1, 10⟩⟩ (Binding.new "x" (.integer 42)),
        ["Excepted token"]) ∧
    binding (mkInput "let x = 42".data) [] =
      (.ok ⟨[], ⟨10, 1, 11⟩⟩ (Binding.new "x" (.integer 42)),
        ["Excepted token"]) := by
  refine ⟨?_, rfl, rfl⟩
  intro α p i c ie k c2 h
  unfold expect
  rw [h]
  exact rfl

/-- Witness for the C2 theorem's recovery clause: a missing `=` in front
of `"42;"`. -/
theorem binding_recovers_missing_tokens_witness :
    expect equal epsilon_recovery (mkInput "42;".data) [] =
      (.ok (mkInput "42;".data) none, ["Excepted token"]) :=
  binding_recovers_missing_tokens.1 Unit equal (mkInput "42;".data) []
    (mkInput "42;".data) .Tag [] rfl

/-! ## Claim C3: unconsumed trailing input fails the whole parse -/

/-- C3: whenever the `program` rule succeeds but leaves a non-empty tail,
`parse_input` returns the terminal trailing-input failure (no AST is
surfaced); in particular `"let a = 1; a extra"` fails overall while
`"let a = 1; a"` succeeds. -/
theorem trailing_input_fails_parse :
    (∀ (s : List Char) (i2 : Input) (e : ExprKind) (c : Ctx),
        program (mkInput s) [] = (.ok i2 e, c) → i2.rem ≠ [] →
        parse_input s = .fail (.trailing i2.rem) c) ∧
    parse_input "let a = 1; a extra".data =
      .fail (.trailing "extra".data) [] ∧
    parse_input "let a = 1; a".data =
      .ok (.bindings [("a", .integer 1)] (.ident "a")) [] := by
  refine ⟨?_, rfl, rfl⟩
  intro s i2 e c h hne
  unfold parse_input
  rw [h]
  exact if_neg hne

/-- Witness for the C3 theorem's trailing-input clause at
`"let a = 1; a extra"`. -/
theorem trailing_input_fails_parse_witness :
    parse_input "let a = 1; a extra".data =
      .fail (.trailing "extra".data) [] :=
  trailing_input_fails_parse.1 "let a = 1; a extra".data
    ⟨"extra".data, ⟨13, 1, 14⟩⟩
    (.bindings [("a", .integer 1)] (.ident "a")) [] rfl (by decide)

/-! ## Claim C4: additive chains fold left-associatively -/

/-- C4: whenever the additive rule succeeds, its value is a left fold of
operator applications over the parsed operands — the leftmost application
is innermost — and in particular `"1+2+2"` parses to `add(add(1,2),2)`,
which differs from the right-nested `add(1,add(2,2))`. -/
theorem additive_chain_folds_left :
    (∀ (prev : Rules) (i : Input) (c : Ctx) (i2 : Input) (v : ExprKind)
        (c2 : Ctx),
        level_0_expressionStep prev i c = (.ok i2 v, c2) →
        ∃ (first : ExprKind) (hd : Level0Operator × ExprKind)
          (rest : List (Level0Operator × ExprKind)),
          v = rest.foldl (fun left x => x.1.make_expr left x.2)
                (hd.1.make_expr first hd.2)) ∧
    parse_input "1+2+2".data =
      .ok (.addition (.addition (.integer 1) (.integer 2)) (.integer 2))
        [] ∧
    level_0_expression (mkInput "1+2+2".data) [] =
      (.ok ⟨[], ⟨5, 1, 6⟩⟩
        (.addition (.addition (.integer 1) (.integer 2)) (.integer 2)),
        []) ∧
    ExprKind.addition (.addition (.integer 1) (.integer 2)) (.integer 2) ≠
      ExprKind.addition (.integer 1)
        (.addition (.integer 2) (.integer 2)) := by
  refine ⟨?_, rfl, rfl, ?_⟩
  · intro prev i c i2 v c2 h
    unfold level_0_expressionStep pbind at h
    cases hf : alt2 (level_1_expressionStep prev) (atomic_exprStep prev) i c with
    | mk r c3 =>
      rw [hf] at h
      cases r with
      | ok i3 first =>
        dsimp only at h
        obtain ⟨hd, rest, hv⟩ := fold_many1_ok_head _ _ _ _ _ _ _ _ h
        exact ⟨first, hd, rest, hv⟩
      | err ie k => exact absurd (congrArg Prod.fst h) (by simp)
      | panic => exact absurd (congrArg Prod.fst h) (by simp)
  · intro h
    injection h with h1 h2
    injection h1

/-- Witness for the C4 fold clause at `"1+1"`. -/
theorem additive_chain_folds_left_witness :
    ∃ (first : ExprKind) (hd : Level0Operator × ExprKind)
      (rest : List (Level0Operator × ExprKind)),
      ExprKind.addition (.integer 1) (.integer 1) =
        rest.foldl (fun left x => x.1.make_expr left x.2)
          (hd.1.make_expr first hd.2) :=
  additive_chain_folds_left.1 (mkRules 4) (mkInput "1+1".data) []
    ⟨[], ⟨3, 1, 4⟩⟩ (.addition (.integer 1) (.integer 1)) [] rfl

/-! ## Claim C5: multiplication binds tighter than addition -/

/-- C5: `"10 * 4 + 2"` parses to `add(mul(10,4), 2)`, both through the
top-level entry and through the additive rule itself. -/
theorem precedence_mul_over_add :
    parse_input "10 * 4 + 2".data =
      .ok (.addition (.multiplication (.integer 10) (.integer 4))
        (.integer 2)) [] ∧
    level_0_expression (mkInput "10 * 4 + 2".data) [] =
      (.ok ⟨[], ⟨10, 1, 11⟩⟩
        (.addition (.multiplication (.integer 10) (.integer 4))
          (.integer 2)), []) ∧
    expr (mkInput "10 * 4 + 2".data) [] =
      (.ok ⟨[], ⟨10, 1, 11⟩⟩
        (.addition (.multiplication (.integer 10) (.integer 4))
          (.integer 2)), []) :=
  ⟨rfl, rfl, rfl⟩

/-! ## Claim C6: operator levels require at least one operator -/

/-- C6: the additive and multiplicative rules only succeed when their
fold applied at least one operator — a successful additive parse is
rooted in an addition or subtraction, a successful multiplicative parse
in a multiplication — so the single term `"42"` is rejected at both
levels (with `Many1` errors) and matches only through the atomic tier of
the general expression rule. -/
theorem operator_levels_reject_single_term :
    (∀ (prev : Rules) (i : Input) (c : Ctx) (i2 : Input) (v : ExprKind)
        (c2 : Ctx),
        level_0_expressionStep prev i c = (.ok i2 v, c2) →
        (∃ a b, v = .addition a b) ∨ (∃ a b, v = .subtraction a b)) ∧
    (∀ (prev : Rules) (i : Input) (c : Ctx) (i2 : Input) (v : ExprKind)
        (c2 : Ctx),
        level_1_expressionStep prev i c = (.ok i2 v, c2) →
        ∃ a b, v = .multiplication a b) ∧
    level_0_expression (mkInput "42".data) [] =
      (.err ⟨[], ⟨2, 1, 3⟩⟩ .Many1, []) ∧
    level_1_expression (mkInput "42".data) [] =
      (.err ⟨[], ⟨2, 1, 3⟩⟩ .Many1, []) ∧
    expr (mkInput "42".data) [] = (.ok ⟨[], ⟨2, 1, 3⟩⟩ (.integer 42), []) := by
  refine ⟨?_, ?_, rfl, rfl, rfl⟩
  · intro prev i c i2 v c2 h
    unfold level_0_expressionStep pbind at h
    cases hf : alt2 (level_1_expressionStep prev) (atomic_exprStep prev) i c with
    | mk r c3 =>
      rw [hf] at h
      cases r with
      | ok i3 first =>
        dsimp only at h
        obtain ⟨hd, rest, hv⟩ := fold_many1_ok_head _ _ _ _ _ _ _ _ h
        subst hv
        refine foldl_shape _
          (fun v => (∃ a b, v = ExprKind.addition a b) ∨
            (∃ a b, v = ExprKind.subtraction a b)) ?_ rest _ ?_
        · intro acc x
          cases hx : x.1 with
          | Plus => exact Or.inl ⟨acc, x.2, rfl⟩
          | Minus => exact Or.inr ⟨acc, x.2, rfl⟩
        · cases hh : hd.1 with
          | Plus => exact Or.inl ⟨first, hd.2, rfl⟩
          | Minus => exact Or.inr ⟨first, hd.2, rfl⟩
      | err ie k => exact absurd (congrArg Prod.fst h) (by simp)
      | panic => exact absurd (congrArg Prod.fst h) (by simp)
  · intro prev i c i2 v c2 h
    unfold level_1_expressionStep pbind at h
    cases hf : atomic_exprStep prev i c with
    | mk r c3 =>
      rw [hf] at h
      cases r with
      | ok i3 first =>
        dsimp only at h
        obtain ⟨hd, rest, hv⟩ := fold_many1_ok_head _ _ _ _ _ _ _ _ h
        subst hv
        refine foldl_shape _
          (fun v => ∃ a b, v = ExprKind.multiplication a b) ?_ rest _ ?_
        · intro acc x; exact ⟨acc, x.2, rfl⟩
        · exact ⟨first, hd.2, rfl⟩
      | err ie k => exact absurd (congrArg Prod.fst h) (by simp)
      | panic => exact absurd (congrArg Prod.fst h) (by simp)

/-- Witness for the C6 shape clauses at `"1+1"` and `"7*6"`. -/
theorem operator_levels_reject_single_term_witness :
    ((∃ a b, ExprKind.addition (.integer 1) (.integer 1) =
        ExprKind.addition a b) ∨
      (∃ a b, ExprKind.addition (.integer 1) (.integer 1) =
        ExprKind.subtraction a b)) ∧
    (∃ a b, ExprKind.multiplication (.integer 7) (.integer 6) =
      ExprKind.multiplication a b) :=
  ⟨operator_levels_reject_single_term.1 (mkRules 4) (mkInput "1+1".data)
      [] ⟨[], ⟨3, 1, 4⟩⟩ (.addition (.integer 1) (.integer 1)) [] rfl,
    operator_levels_reject_single_term.2.1 (mkRules 4)
      (mkInput "7*6".data) [] ⟨[], ⟨3, 1, 4⟩⟩
      (.multiplication (.integer 7) (.integer 6)) [] rfl⟩

/-! ## Helper lemmas for the `integer` characterization -/

theorem take1Loop_eq (f : Char → Bool) :
    ∀ (l : List Char) (p : Pos),
      (take1Loop f l p).1 = l.takeWhile f ∧
      (take1Loop f l p).2.rem = l.dropWhile f := by
  intro l
  induction l with
  | nil => intro p; exact ⟨rfl, rfl⟩
  | cons ch rest ih =>
    intro p
    by_cases hc : f ch
    · obtain ⟨h1, h2⟩ := ih (p.advance ch)
      simp [take1Loop, hc, List.takeWhile_cons, List.dropWhile_cons, h1, h2]
    · simp [take1Loop, hc, List.takeWhile_cons, List.dropWhile_cons]

theorem digit1_err (j : Input) (c : Ctx)
    (h : j.rem.takeWhile Char.isDigit = []) :
    digit1 j c = (.err j ErrorKind.Digit, c) := by
  unfold digit1 takeWhile1P
  obtain ⟨h1, h2⟩ := take1Loop_eq Char.isDigit j.rem j.pos
  cases ht : take1Loop Char.isDigit j.rem j.pos with
  | mk ds i2 =>
    rw [ht] at h1
    dsimp only at h1
    rw [h] at h1
    subst h1
    rfl

theorem digit1_ok (j : Input) (c : Ctx)
    (h : j.rem.takeWhile Char.isDigit ≠ []) :
    ∃ p2, digit1 j c =
      (.ok ⟨j.rem.dropWhile Char.isDigit, p2⟩
        (j.rem.takeWhile Char.isDigit), c) := by
  unfold digit1 takeWhile1P
  obtain ⟨h1, h2⟩ := take1Loop_eq Char.isDigit j.rem j.pos
  cases ht : take1Loop Char.isDigit j.rem j.pos with
  | mk ds i2 =>
    cases i2 with
    | mk r2 p2 =>
      rw [ht] at h1 h2
      dsimp only at h1 h2
      cases ds with
      | nil => exact absurd h1.symm h
      | cons d ds2 =>
        refine ⟨p2, ?_⟩
        rw [← h1, ← h2]

theorem length_sub_dropWhile (f : Char → Bool) (l : List Char) :
    l.length - (l.dropWhile f).length = (l.takeWhile f).length := by
  have h3 := congrArg List.length (List.takeWhile_append_dropWhile f l)
  simp only [List.length_append] at h3
  omega

theorem take_eq_takeWhile (f : Char → Bool) (l : List Char) :
    l.take ((l.takeWhile f).length) = l.takeWhile f := by
  induction l with
  | nil => rfl
  | cons ch t ih =>
    by_cases hf : f ch
    · simp [List.takeWhile_cons, hf, List.take_succ_cons, ih]
    · simp [List.takeWhile_cons, hf]

theorem int_if_bounds_neg (n : Nat) (v : Int)
    (h : (if -(n : Int) < -(2 ^ 31) then none
      else some (-(n : Int))) = some v) :
    -(2 ^ 31) ≤ v ∧ v ≤ 2 ^ 31 - 1 := by
  have hnn : (0 : Int) ≤ (n : Int) := Int.natCast_nonneg _
  have hpow : (2 : Int) ^ 31 = 2147483648 := by norm_num
  rw [hpow] at h ⊢
  split at h
  · exact absurd h (by simp)
  · next hlt =>
    injection h with hv
    subst hv
    omega

theorem int_if_bounds_pos (n : Nat) (v : Int)
    (h : (if (2 ^ 31 - 1 : Int) < (n : Int) then none
      else some ((n : Int))) = some v) :
    -(2 ^ 31) ≤ v ∧ v ≤ 2 ^ 31 - 1 := by
  have hnn : (0 : Int) ≤ (n : Int) := Int.natCast_nonneg _
  have hpow : (2 : Int) ^ 31 = 2147483648 := by norm_num
  rw [hpow] at h ⊢
  split at h
  · exact absurd h (by simp)
  · next hlt =>
    injection h with hv
    subst hv
    omega

theorem parseI32_bounds (s : List Char) (v : Int) (h : parseI32 s = some v) :
    -(2 ^ 31) ≤ v ∧ v ≤ 2 ^ 31 - 1 := by
  unfold parseI32 at h
  split at h
  · exact int_if_bounds_neg _ _ h
  · exact int_if_bounds_pos _ _ h

/-- Full outcome analysis of `integerCore` (that is, of `integer` once
its leading whitespace has been stripped): a recoverable `Digit` error
when no `(-)?digits` fragment is present, a success carrying the parsed
value when the fragment fits in i32, and a panic when it overflows. -/
theorem integerCore_spec (j : Input) (c : Ctx) :
    (intFragOf j.rem = none ∧
      ∃ ie, integerCore j c = (.err ie ErrorKind.Digit, c)) ∨
    (∃ frag v, intFragOf j.rem = some frag ∧ parseI32 frag = some v ∧
      ∃ i2, integerCore j c = (.ok i2 (ExprKind.integer v), c)) ∨
    (∃ frag, intFragOf j.rem = some frag ∧ parseI32 frag = none ∧
      integerCore j c = (.panic, c)) := by
  have hdm : "-".data = ['-'] := rfl
  cases j with
  | mk rem pos =>
    cases rem with
    | nil => exact Or.inl ⟨rfl, ⟨[], pos⟩, rfl⟩
    | cons ch rest =>
      by_cases hminus : ch = '-'
      · subst hminus
        by_cases hds : rest.takeWhile Char.isDigit = []
        · have hfrag : intFragOf ('-' :: rest) = none := by
            simp [intFragOf, hds]
          have hd1 := digit1_err ⟨rest, Pos.advance pos '-'⟩ c hds
          refine Or.inl ⟨hfrag, ⟨rest, Pos.advance pos '-'⟩, ?_⟩
          unfold integerCore
          simp [pbind, pmap, recognize, opt, pairP, tag, tagLoop, hdm, hd1]
        · have hfrag : intFragOf ('-' :: rest) =
              some ('-' :: rest.takeWhile Char.isDigit) := by
            simp [intFragOf, hds]
          obtain ⟨p2, hd1⟩ := digit1_ok ⟨rest, Pos.advance pos '-'⟩ c hds
          have hpair : pairP (opt (tag "-".data)) digit1 ⟨'-' :: rest, pos⟩ c =
              (.ok ⟨rest.dropWhile Char.isDigit, p2⟩
                (some ['-'], rest.takeWhile Char.isDigit), c) := by
            simp [pairP, pbind, pmap, opt, tag, tagLoop, hdm, hd1]
          have hkey : ('-' :: rest).take
              (('-' :: rest).length - (rest.dropWhile Char.isDigit).length) =
              '-' :: rest.takeWhile Char.isDigit := by
            have h3 := congrArg List.length
              (List.takeWhile_append_dropWhile Char.isDigit rest)
            simp only [List.length_append] at h3
            have hl : ('-' :: rest).length -
                (rest.dropWhile Char.isDigit).length =
                (rest.takeWhile Char.isDigit).length + 1 := by
              simp only [List.length_cons]
              omega
            rw [hl, List.take_succ_cons, take_eq_takeWhile Char.isDigit rest]
          have hrec : recognize (pairP (opt (tag "-".data)) digit1)
              ⟨'-' :: rest, pos⟩ c =
              (.ok ⟨rest.dropWhile Char.isDigit, p2⟩
                ('-' :: rest.takeWhile Char.isDigit), c) := by
            unfold recognize
            rw [hpair]
            dsimp only
            rw [hkey]
          cases hpi : parseI32 ('-' :: rest.takeWhile Char.isDigit) with
          | some v =>
            refine Or.inr (Or.inl ⟨_, v, hfrag, hpi,
              skipSpaces (rest.dropWhile Char.isDigit) p2, ?_⟩)
            unfold integerCore
            simp [pbind, pmap, multispace0, hrec, hpi]
          | none =>
            refine Or.inr (Or.inr ⟨_, hfrag, hpi, ?_⟩)
            unfold integerCore
            simp [pbind, pmap, multispace0, hrec, hpi]
      · by_cases hds : (ch :: rest).takeWhile Char.isDigit = []
        · have hfrag : intFragOf (ch :: rest) = none := by
            simp [intFragOf, hminus, hds]
          have hd1 := digit1_err ⟨ch :: rest, pos⟩ c hds
          refine Or.inl ⟨hfrag, ⟨ch :: rest, pos⟩, ?_⟩
          unfold integerCore
          simp [pbind, pmap, recognize, opt, pairP, tag, tagLoop, hdm,
            hminus, hd1]
        · have hfrag : intFragOf (ch :: rest) =
              some ((ch :: rest).takeWhile Char.isDigit) := by
            simp [intFragOf, hminus, hds]
          obtain ⟨p2, hd1⟩ := digit1_ok ⟨ch :: rest, pos⟩ c hds
          have hpair : pairP (opt (tag "-".data)) digit1 ⟨ch :: rest, pos⟩ c =
              (.ok ⟨(ch :: rest).dropWhile Char.isDigit, p2⟩
                (none, (ch :: rest).takeWhile Char.isDigit), c) := by
            simp [pairP, pbind, pmap, opt, tag, tagLoop, hdm, hminus, hd1]
          have hkey : (ch :: rest).take
              ((ch :: rest).length -
                ((ch :: rest).dropWhile Char.isDigit).length) =
              (ch :: rest).takeWhile Char.isDigit := by
            rw [length_sub_dropWhile Char.isDigit (ch :: rest),
              take_eq_takeWhile Char.isDigit (ch :: rest)]
          have hrec : recognize (pairP (opt (tag "-".data)) digit1)
              ⟨ch :: rest, pos⟩ c =
              (.ok ⟨(ch :: rest).dropWhile Char.isDigit, p2⟩
                ((ch :: rest).takeWhile Char.isDigit), c) := by
            unfold recognize
            rw [hpair]
            dsimp only
            rw [hkey]
          cases hpi : parseI32 ((ch :: rest).takeWhile Char.isDigit) with
          | some v =>
            refine Or.inr (Or.inl ⟨_, v, hfrag, hpi,
              skipSpaces ((ch :: rest).dropWhile Char.isDigit) p2, ?_⟩)
            unfold integerCore
            simp [pbind, pmap, multispace0, hrec, hpi]
          | none =>
            refine Or.inr (Or.inr ⟨_, hfrag, hpi, ?_⟩)
            unfold integerCore
            simp [pbind, pmap, multispace0, hrec, hpi]

/-! ## Claim C7: totality of the integer matcher -/

/-- C7 counterexample.  The claim says the integer matcher never
terminates abnormally, but the source converts the matched literal with
`.parse().unwrap()`: on `"2147483648"` (one past `i32::MAX`) the
conversion fails and the `unwrap` panics, both in the matcher itself and
through the whole `parse_input` call. -/
theorem integer_panics_on_overflow :
    integer (mkInput "2147483648".data) [] = (.panic, []) ∧
    parse_input "2147483648".data = .panicked :=
  ⟨rfl, rfl⟩

/-- C7 amended: for every input, the integer matcher either succeeds —
matching optional minus then one or more decimal digits around
whitespace, yielding the corresponding signed value, which then lies
within the 32-bit range — or fails with a recoverable `Digit` error (as
on `"abc"` and `""`), or, exactly when the matched literal's value falls
outside the 32-bit signed range, terminates abnormally (the `unwrap`
panic). -/
theorem integer_characterization :
    (∀ (i : Input) (c : Ctx),
      (intFragOf (skipSpaces i.rem i.pos).rem = none ∧
        ∃ ie, integer i c = (.err ie ErrorKind.Digit, c)) ∨
      (∃ frag v, intFragOf (skipSpaces i.rem i.pos).rem = some frag ∧
        parseI32 frag = some v ∧
        (-(2 ^ 31) ≤ v ∧ v ≤ 2 ^ 31 - 1) ∧
        ∃ i2, integer i c = (.ok i2 (.integer v), c)) ∨
      (∃ frag, intFragOf (skipSpaces i.rem i.pos).rem = some frag ∧
        parseI32 frag = none ∧ integer i c = (.panic, c))) ∧
    integer (mkInput "-101".data) [] =
      (.ok ⟨[], ⟨4, 1, 5⟩⟩ (.integer (-101)), []) ∧
    integer (mkInput "abc".data) [] =
      (.err (mkInput "abc".data) .Digit, []) ∧
    integer (mkInput "".data) [] = (.err (mkInput "".data) .Digit, []) := by
  refine ⟨?_, rfl, rfl, rfl⟩
  intro i c
  rcases integerCore_spec (skipSpaces i.rem i.pos) c with
    ⟨h1, ie, h2⟩ | ⟨frag, v, h1, h2, i2, h3⟩ | ⟨frag, h1, h2, h3⟩
  · exact Or.inl ⟨h1, ie, h2⟩
  · exact Or.inr (Or.inl ⟨frag, v, h1, h2, parseI32_bounds frag v h2,
      i2, h3⟩)
  · exact Or.inr (Or.inr ⟨frag, h1, h2, h3⟩)

/-! ## Claim C8: keyword boundary -/

/-- C8: the keyword matcher for `"if"` rejects `"iff"` (the rejection
error sits at the start of the attempt), accepts `"if42"` leaving
`"42"`, and accepts `"if "` consuming the trailing whitespace. -/
theorem keyword_if_boundary :
    keyword "if".data (mkInput "iff".data) [] =
      (.err (mkInput "iff".data) .Tag, []) ∧
    keyword "if".data (mkInput "if42".data) [] =
      (.ok ⟨"42".data, ⟨2, 1, 3⟩⟩ (), []) ∧
    keyword "if".data (mkInput "if ".data) [] =
      (.ok ⟨[], ⟨3, 1, 4⟩⟩ (), []) :=
  ⟨rfl, rfl, rfl⟩

/-! ## Run-equation lemmas for the combinators -/

theorem pbind_ok {α β : Type} (p : Parser α) (f : α → Parser β)
    (i i2 : Input) (a : α) (c c2 : Ctx) (h : p i c = (.ok i2 a, c2)) :
    pbind p f i c = f a i2 c2 := by
  unfold pbind
  rw [h]

theorem pbind_err {α β : Type} (p : Parser α) (f : α → Parser β)
    (i ie : Input) (k : ErrorKind) (c c2 : Ctx)
    (h : p i c = (.err ie k, c2)) : pbind p f i c = (.err ie k, c2) := by
  unfold pbind
  rw [h]

theorem pmap_ok {α β : Type} (p : Parser α) (f : α → β) (i i2 : Input)
    (a : α) (c c2 : Ctx) (h : p i c = (.ok i2 a, c2)) :
    pmap p f i c = (.ok i2 (f a), c2) := by
  unfold pmap
  rw [h]

theorem pmap_err {α β : Type} (p : Parser α) (f : α → β) (i ie : Input)
    (k : ErrorKind) (c c2 : Ctx) (h : p i c = (.err ie k, c2)) :
    pmap p f i c = (.err ie k, c2) := by
  unfold pmap
  rw [h]

theorem alt2_fst {α : Type} (p q : Parser α) (i i2 : Input) (a : α)
    (c c2 : Ctx) (h : p i c = (.ok i2 a, c2)) :
    alt2 p q i c = (.ok i2 a, c2) := by
  unfold alt2
  rw [h]

theorem alt2_snd {α : Type} (p q : Parser α) (i ie : Input) (k : ErrorKind)
    (c c2 : Ctx) (h : p i c = (.err ie k, c2)) : alt2 p q i c = q i c2 := by
  unfold alt2
  rw [h]

theorem opt_some {α : Type} (p : Parser α) (i i2 : Input) (a : α)
    (c c2 : Ctx) (h : p i c = (.ok i2 a, c2)) :
    opt p i c = (.ok i2 (some a), c2) := by
  unfold opt
  rw [h]

theorem opt_none {α : Type} (p : Parser α) (i ie : Input) (k : ErrorKind)
    (c c2 : Ctx) (h : p i c = (.err ie k, c2)) :
    opt p i c = (.ok i none, c2) := by
  unfold opt
  rw [h]

theorem many1_err {α : Type} (p : Parser α) (i ie : Input) (k : ErrorKind)
    (c c2 : Ctx) (h : p i c = (.err ie k, c2)) :
    many1 p i c = (.err ie k, c2) := by
  unfold many1
  rw [h]

theorem fold_many1_first_err {α β : Type} (p : Parser α) (init : β)
    (g : β → α → β) (i ie : Input) (k : ErrorKind) (c c2 : Ctx)
    (h : p i c = (.err ie k, c2)) :
    fold_many1 p init g i c = (.err i ErrorKind.Many1, c2) := by
  unfold fold_many1
  rw [h]

theorem ms0_run (rem : List Char) (p : Pos) (c : Ctx) :
    multispace0 ⟨rem, p⟩ c = (.ok (skipSpaces rem p) (), c) := rfl

theorem tag_none (t : List Char) (i : Input) (c : Ctx)
    (h : tagLoop t i = none) : tag t i c = (.err i ErrorKind.Tag, c) := by
  unfold tag
  rw [h]

theorem tag_match (t : List Char) (i i2 : Input) (c : Ctx)
    (h : tagLoop t i = some i2) : tag t i c = (.ok i2 t, c) := by
  unfold tag
  rw [h]

/-! ## Whitespace-skipping and tag lemmas -/

theorem skipSpaces_no_ws (l : List Char) (p : Pos) (h : headNotWs l) :
    skipSpaces l p = ⟨l, p⟩ := by
  cases l with
  | nil => rfl
  | cons ch t =>
    rw [skipSpaces, if_neg]
    rw [h ch rfl]
    exact Bool.false_ne_true

theorem skipSpaces_ws_append (w : List Char) (hw : allWs w) :
    ∀ (l : List Char) (p : Pos), headNotWs l →
      skipSpaces (w ++ l) p = ⟨l, w.foldl Pos.advance p⟩ := by
  induction w with
  | nil =>
    intro l p hl
    exact skipSpaces_no_ws l p hl
  | cons ch t ih =>
    intro l p hl
    have hc : isMultispace ch = true := hw ch (List.mem_cons_self ch t)
    have ht : allWs t := fun x hx => hw x (List.mem_cons_of_mem ch hx)
    show skipSpaces (ch :: (t ++ l)) p = _
    rw [skipSpaces, if_pos hc]
    exact ih ht l (p.advance ch) hl

theorem tagLoop_self (t : List Char) :
    ∀ (rest : List Char) (p : Pos),
      tagLoop t ⟨t ++ rest, p⟩ = some ⟨rest, t.foldl Pos.advance p⟩ := by
  induction t with
  | nil => intro rest p; rfl
  | cons ch t ih =>
    intro rest p
    show tagLoop (ch :: t) ⟨ch :: (t ++ rest), p⟩ = _
    rw [tagLoop, if_pos rfl]
    exact ih rest (p.advance ch)

theorem tagLoop_head_ne (t1 : Char) (ts l : List Char) (p : Pos)
    (h : headNot t1 l) : tagLoop (t1 :: ts) ⟨l, p⟩ = none := by
  cases l with
  | nil => rfl
  | cons ch rest =>
    rw [tagLoop, if_neg]
    exact h ch rfl

/-! ## Character-class facts and head-predicate builders -/

theorem ws_not_digit (ch : Char) (h : isMultispace ch = true) :
    ch.isDigit = false := by
  have hd : ch = ' ' ∨ ch = '\t' ∨ ch = '\r' ∨ ch = '\n' := by
    simpa [isMultispace, or_assoc] using h
  rcases hd with h | h | h | h <;> subst h <;> decide

theorem ws_not_alpha (ch : Char) (h : isMultispace ch = true) :
    ch.isAlpha = false := by
  have hd : ch = ' ' ∨ ch = '\t' ∨ ch = '\r' ∨ ch = '\n' := by
    simpa [isMultispace, or_assoc] using h
  rcases hd with h | h | h | h <;> subst h <;> decide

theorem digit_not_ws (ch : Char) (h : ch.isDigit = true) :
    isMultispace ch = false := by
  by_contra hx
  have := ws_not_digit ch (by revert hx; cases isMultispace ch <;> simp)
  rw [h] at this
  exact Bool.noConfusion this

theorem digit_ne (d c0 : Char) (hd : d.isDigit = true)
    (hc : c0.isDigit = false) : d ≠ c0 := by
  intro h
  subst h
  rw [hd] at hc
  exact Bool.noConfusion hc

theorem headNotWs_nil : headNotWs [] := fun _ h => nomatch h

theorem headNot_nil (a : Char) : headNot a [] := fun _ h => nomatch h

theorem headNotWs_cons (ch : Char) (t : List Char)
    (h : isMultispace ch = false) : headNotWs (ch :: t) := by
  intro x hx
  injection hx with hx
  subst hx
  exact h

theorem headNotDigit_cons (ch : Char) (t : List Char)
    (h : ch.isDigit = false) : headNotDigit (ch :: t) := by
  intro x hx
  injection hx with hx
  subst hx
  exact h

theorem headNotAlpha_cons (ch : Char) (t : List Char)
    (h : ch.isAlpha = false) : headNotAlpha (ch :: t) := by
  intro x hx
  injection hx with hx
  subst hx
  exact h

theorem headNot_cons (a ch : Char) (t : List Char) (h : ch ≠ a) :
    headNot a (ch :: t) := by
  intro x hx
  injection hx with hx
  subst hx
  exact h

theorem headNotAlpha_ws_append (w l : List Char) (hw : allWs w)
    (hl : headNotAlpha l) : headNotAlpha (w ++ l) := by
  cases w with
  | nil => exact hl
  | cons ch t =>
    intro x hx
    injection hx with hx
    subst hx
    exact ws_not_alpha _ (hw _ (List.mem_cons_self _ _))

theorem headNotDigit_ws_append (w l : List Char) (hw : allWs w)
    (hl : headNotDigit l) : headNotDigit (w ++ l) := by
  cases w with
  | nil => exact hl
  | cons ch t =>
    intro x hx
    injection hx with hx
    subst hx
    exact ws_not_digit _ (hw _ (List.mem_cons_self _ _))

theorem headNotWs_append_left (a l : List Char) (hne : a ≠ [])
    (ha : headNotWs a) : headNotWs (a ++ l) := by
  cases a with
  | nil => exact absurd rfl hne
  | cons ch t =>
    intro x hx
    injection hx with hx
    exact ha x (by rw [hx]; rfl)

theorem takeWhile_all_append (f : Char → Bool) :
    ∀ (a b : List Char), (∀ ch ∈ a, f ch = true) →
      (∀ ch, b.head? = some ch → f ch = false) →
      (a ++ b).takeWhile f = a ∧ (a ++ b).dropWhile f = b := by
  intro a
  induction a with
  | nil =>
    intro b _ hb
    cases b with
    | nil => exact ⟨rfl, rfl⟩
    | cons ch t =>
      have hf := hb ch rfl
      constructor
      · simp only [List.nil_append]
        simp [List.takeWhile_cons, hf]
      · simp only [List.nil_append]
        simp [List.dropWhile_cons, hf]
  | cons ch t ih =>
    intro b ha hb
    have hc : f ch = true := ha ch (List.mem_cons_self ch t)
    have ht : ∀ x ∈ t, f x = true := fun x hx =>
      ha x (List.mem_cons_of_mem ch hx)
    obtain ⟨h1, h2⟩ := ih b ht hb
    constructor
    · show (ch :: (t ++ b)).takeWhile f = ch :: t
      simp [List.takeWhile_cons, hc, h1]
    · show (ch :: (t ++ b)).dropWhile f = b
      simp [List.dropWhile_cons, hc, h2]

theorem take_append_self_sub (T D : List Char) :
    (T ++ D).take ((T ++ D).length - D.length) = T := by
  have hlen : (T ++ D).length - D.length = T.length := by
    simp [List.length_append]
  rw [hlen]
  exact List.take_left T D

/-! ## Symbolic runs of the token-level rules -/

theorem keyword_ws (kw w l : List Char) (p : Pos) (c : Ctx)
    (hkwne : kw ≠ []) (hkw : headNotWs kw) (hw : allWs w)
    (hla : headNotAlpha l) (hlw : headNotWs l) :
    ∃ p2, keyword kw ⟨kw ++ (w ++ l), p⟩ c = (.ok ⟨l, p2⟩ (), c) := by
  have hms : multispace0 ⟨kw ++ (w ++ l), p⟩ c =
      (.ok ⟨kw ++ (w ++ l), p⟩ (), c) := by
    rw [ms0_run, skipSpaces_no_ws _ _ (headNotWs_append_left kw _ hkwne hkw)]
  have hpre : preceded multispace0 (tag kw) ⟨kw ++ (w ++ l), p⟩ c =
      (.ok ⟨w ++ l, kw.foldl Pos.advance p⟩ kw, c) := by
    unfold preceded
    rw [pbind_ok _ _ _ _ _ _ _ hms]
    exact tag_match _ _ _ _ (tagLoop_self kw (w ++ l) p)
  have hna : (match (⟨w ++ l, kw.foldl Pos.advance p⟩ : Input).rem with
      | [] => false
      | ch :: _ => ch.isAlpha) = false := by
    cases hwl : w ++ l with
    | nil => rfl
    | cons ch t =>
      exact headNotAlpha_ws_append w l hw hla ch (by rw [hwl]; rfl)
  refine ⟨w.foldl Pos.advance (kw.foldl Pos.advance p), ?_⟩
  unfold keyword
  rw [hpre]
  dsimp only at hna ⊢
  rw [hna]
  simp only [Bool.false_eq_true, if_false]
  rw [skipSpaces_ws_append w hw l _ hlw]

theorem keyword_notag (kw l : List Char) (p : Pos) (c : Ctx)
    (hlw : headNotWs l) (htl : tagLoop kw ⟨l, p⟩ = none) :
    keyword kw ⟨l, p⟩ c = (.err ⟨l, p⟩ ErrorKind.Tag, c) := by
  have hms : multispace0 ⟨l, p⟩ c = (.ok ⟨l, p⟩ (), c) := by
    rw [ms0_run, skipSpaces_no_ws l p hlw]
  have hpre : preceded multispace0 (tag kw) ⟨l, p⟩ c =
      (.err ⟨l, p⟩ ErrorKind.Tag, c) := by
    unfold preceded
    rw [pbind_ok _ _ _ _ _ _ _ hms]
    exact tag_none _ _ _ htl
  unfold keyword
  rw [hpre]

theorem integer_err_nondigit (l : List Char) (p : Pos) (c : Ctx)
    (hlw : headNotWs l) (hld : headNotDigit l) (hlm : headNot '-' l) :
    ∃ ie, integer ⟨l, p⟩ c = (.err ie ErrorKind.Digit, c) := by
  have heq : integer ⟨l, p⟩ c = integerCore (skipSpaces l p) c := rfl
  rw [heq, skipSpaces_no_ws l p hlw]
  have hfrag : intFragOf l = none := by
    cases l with
    | nil => rfl
    | cons ch t =>
      have hne : ch ≠ '-' := hlm ch rfl
      have hdg : ch.isDigit = false := hld ch rfl
      simp [intFragOf, hne, List.takeWhile_cons, hdg]
  rcases integerCore_spec ⟨l, p⟩ c with
    ⟨_, ie, h2⟩ | ⟨frag, v, h1, -, -⟩ | ⟨frag, h1, -, -⟩
  · exact ⟨ie, h2⟩
  · rw [hfrag] at h1
    exact absurd h1 (by simp)
  · rw [hfrag] at h1
    exact absurd h1 (by simp)

theorem parseI32_pos_digits (d : Char) (ds2 : List Char) (hd : d ≠ '-')
    (hb : ¬((2 ^ 31 - 1 : Int) < (digitsVal (d :: ds2) : Int))) :
    parseI32 (d :: ds2) = some ((digitsVal (d :: ds2) : Int)) := by
  unfold parseI32
  split
  · next ds3 heq =>
    injection heq with heq1 heq2
    exact absurd heq1 hd
  · exact if_neg hb

theorem integer_digits (ds w l : List Char) (p : Pos) (c : Ctx)
    (hne : ds ≠ []) (hdig : ∀ ch ∈ ds, ch.isDigit = true) (hw : allWs w)
    (hlw : headNotWs l) (hld : headNotDigit l)
    (hbound : ¬((2 ^ 31 - 1 : Int) < (digitsVal ds : Int))) :
    ∃ p2, integer ⟨ds ++ (w ++ l), p⟩ c =
      (.ok ⟨l, p2⟩ (.integer (digitsVal ds)), c) := by
  cases ds with
  | nil => exact absurd rfl hne
  | cons d ds2 =>
    have hd : d.isDigit = true := hdig d (List.mem_cons_self d ds2)
    have hA : headNotWs ((d :: ds2) ++ (w ++ l)) :=
      headNotWs_cons _ _ (digit_not_ws d hd)
    have heq : integer ⟨(d :: ds2) ++ (w ++ l), p⟩ c =
        integerCore (skipSpaces ((d :: ds2) ++ (w ++ l)) p) c := rfl
    have htagl : tagLoop "-".data ⟨(d :: ds2) ++ (w ++ l), p⟩ = none := by
      show tagLoop ('-' :: []) ⟨d :: (ds2 ++ (w ++ l)), p⟩ = none
      exact tagLoop_head_ne '-' [] _ p
        (headNot_cons _ _ _ (digit_ne d '-' hd (by decide)))
    have hopt : opt (tag "-".data) ⟨(d :: ds2) ++ (w ++ l), p⟩ c =
        (.ok ⟨(d :: ds2) ++ (w ++ l), p⟩ none, c) :=
      opt_none _ _ _ _ _ _ (tag_none _ _ _ htagl)
    obtain ⟨htw1, htw2⟩ := takeWhile_all_append Char.isDigit (d :: ds2)
      (w ++ l) hdig (headNotDigit_ws_append w l hw hld)
    obtain ⟨p2, hd1⟩ := digit1_ok ⟨(d :: ds2) ++ (w ++ l), p⟩ c
      (by rw [show (⟨(d :: ds2) ++ (w ++ l), p⟩ : Input).rem =
          (d :: ds2) ++ (w ++ l) from rfl, htw1]; simp)
    rw [show (⟨(d :: ds2) ++ (w ++ l), p⟩ : Input).rem =
        (d :: ds2) ++ (w ++ l) from rfl, htw1, htw2] at hd1
    have hpair : pairP (opt (tag "-".data)) digit1
        ⟨(d :: ds2) ++ (w ++ l), p⟩ c =
        (.ok ⟨w ++ l, p2⟩ ((none : Option (List Char)), d :: ds2), c) := by
      unfold pairP
      rw [pbind_ok _ _ _ _ _ _ _ hopt]
      exact pmap_ok _ _ _ _ _ _ _ hd1
    have hrec : recognize (pairP (opt (tag "-".data)) digit1)
        ⟨(d :: ds2) ++ (w ++ l), p⟩ c =
        (.ok ⟨w ++ l, p2⟩ (d :: ds2), c) := by
      unfold recognize
      rw [hpair]
      dsimp only
      rw [take_append_self_sub (d :: ds2) (w ++ l)]
    have hpi := parseI32_pos_digits d ds2 (digit_ne d '-' hd (by decide))
      hbound
    refine ⟨w.foldl Pos.advance p2, ?_⟩
    rw [heq, skipSpaces_no_ws _ _ hA]
    unfold integerCore
    rw [pbind_ok _ _ _ _ _ _ _ hrec]
    rw [pmap_ok _ _ _ _ _ _ _
      (by rw [ms0_run, skipSpaces_ws_append w hw l p2 hlw])]
    simp only [hpi]

/-! ## Symbolic runs of the expression grammar -/

theorem star_err (l : List Char) (p : Pos) (c : Ctx) (hlw : headNotWs l)
    (hstar : headNot '*' l) :
    star ⟨l, p⟩ c = (.err ⟨l, p⟩ ErrorKind.Tag, c) := by
  have hms : multispace0 ⟨l, p⟩ c = (.ok ⟨l, p⟩ (), c) := by
    rw [ms0_run, skipSpaces_no_ws l p hlw]
  have htl : tagLoop "*".data ⟨l, p⟩ = none := by
    show tagLoop ('*' :: []) ⟨l, p⟩ = none
    exact tagLoop_head_ne '*' [] l p hstar
  unfold star space_insignificant delimited
  refine pmap_err _ _ _ _ _ _ _ ?_
  rw [pbind_ok _ _ _ _ _ _ _ hms]
  exact pbind_err _ _ _ _ _ _ _ (tag_none _ _ _ htl)

theorem level_0_operator_err (l : List Char) (p : Pos) (c : Ctx)
    (hplus : headNot '+' l) (hminus : headNot '-' l) :
    level_0_operator ⟨l, p⟩ c = (.err ⟨l, p⟩ ErrorKind.Tag, c) := by
  have h1 : tagLoop "+".data ⟨l, p⟩ = none := by
    show tagLoop ('+' :: []) ⟨l, p⟩ = none
    exact tagLoop_head_ne '+' [] l p hplus
  have h2 : tagLoop "-".data ⟨l, p⟩ = none := by
    show tagLoop ('-' :: []) ⟨l, p⟩ = none
    exact tagLoop_head_ne '-' [] l p hminus
  unfold level_0_operator
  refine pmap_err _ _ _ _ _ _ _ ?_
  rw [alt2_snd _ _ _ _ _ _ _ (tag_none _ _ _ h1)]
  exact tag_none _ _ _ h2

theorem binding_err_head (prev : Rules) (l : List Char) (p : Pos) (c : Ctx)
    (hlw : headNotWs l) (htl : tagLoop "let".data ⟨l, p⟩ = none) :
    bindingStep prev ⟨l, p⟩ c = (.err ⟨l, p⟩ ErrorKind.Tag, c) := by
  unfold bindingStep delimited
  refine pbind_err _ _ _ _ _ _ _ ?_
  refine pbind_err _ _ _ _ _ _ _ ?_
  show keyword "let".data ⟨l, p⟩ c = _
  exact keyword_notag _ _ _ _ hlw htl

theorem bindings_err_head (prev : Rules) (l : List Char) (p : Pos) (c : Ctx)
    (hlw : headNotWs l) (htl : tagLoop "let".data ⟨l, p⟩ = none) :
    bindingsStep prev ⟨l, p⟩ c = (.err ⟨l, p⟩ ErrorKind.Tag, c) := by
  unfold bindingsStep
  refine pbind_err _ _ _ _ _ _ _ ?_
  exact many1_err _ _ _ _ _ _ (binding_err_head prev l p c hlw htl)

/-- Lifts a successful atomic parse to the general expression rule: with
no operator following, the additive and multiplicative levels fail with
`Many1` and `expr` falls back to the atomic result. -/
theorem expr_of_atomic (prev : Rules) (i : Input) (l : List Char)
    (p2 : Pos) (v : ExprKind) (c : Ctx)
    (hatom : atomic_exprStep prev i c = (.ok ⟨l, p2⟩ v, c))
    (hlw : headNotWs l) (hstar : headNot '*' l) (hplus : headNot '+' l)
    (hminus : headNot '-' l) :
    exprStep prev i c = (.ok ⟨l, p2⟩ v, c) := by
  have hstar2 : star ⟨l, p2⟩ c = (.err ⟨l, p2⟩ ErrorKind.Tag, c) :=
    star_err l p2 c hlw hstar
  have hl1 : level_1_expressionStep prev i c =
      (.err ⟨l, p2⟩ ErrorKind.Many1, c) := by
    unfold level_1_expressionStep
    rw [pbind_ok _ _ _ _ _ _ _ hatom]
    refine fold_many1_first_err _ _ _ _ ⟨l, p2⟩ ErrorKind.Tag _ _ ?_
    unfold pairP
    exact pbind_err _ _ _ _ _ _ _ hstar2
  have hop : level_0_operator ⟨l, p2⟩ c = (.err ⟨l, p2⟩ ErrorKind.Tag, c) :=
    level_0_operator_err l p2 c hplus hminus
  have hl0 : level_0_expressionStep prev i c =
      (.err ⟨l, p2⟩ ErrorKind.Many1, c) := by
    unfold level_0_expressionStep
    rw [pbind_ok _ _ _ _ _ _ _
      (by rw [alt2_snd _ _ _ _ _ _ _ hl1]; exact hatom)]
    refine fold_many1_first_err _ _ _ _ ⟨l, p2⟩ ErrorKind.Tag _ _ ?_
    unfold pairP
    exact pbind_err _ _ _ _ _ _ _ hop
  unfold exprStep
  rw [alt2_snd _ _ _ _ _ _ _ hl0, alt2_snd _ _ _ _ _ _ _ hl1]
  exact hatom

theorem expr_digits (prev : Rules) (ds w l : List Char) (p : Pos) (c : Ctx)
    (hne : ds ≠ []) (hdig : ∀ ch ∈ ds, ch.isDigit = true) (hw : allWs w)
    (hlw : headNotWs l) (hld : headNotDigit l) (hstar : headNot '*' l)
    (hplus : headNot '+' l) (hminus : headNot '-' l)
    (hbound : ¬((2 ^ 31 - 1 : Int) < (digitsVal ds : Int))) :
    ∃ p2, exprStep prev ⟨ds ++ (w ++ l), p⟩ c =
      (.ok ⟨l, p2⟩ (.integer (digitsVal ds)), c) := by
  obtain ⟨p2, hint⟩ := integer_digits ds w l p c hne hdig hw hlw hld hbound
  have hatom : atomic_exprStep prev ⟨ds ++ (w ++ l), p⟩ c =
      (.ok ⟨l, p2⟩ (.integer (digitsVal ds)), c) := by
    unfold atomic_exprStep
    exact alt2_fst _ _ _ _ _ _ _ hint
  exact ⟨p2, expr_of_atomic prev _ l p2 _ c hatom hlw hstar hplus hminus⟩

theorem block_digits (m : Nat) (w1 ds w2 w3 l : List Char) (p : Pos)
    (c : Ctx) (hw1 : allWs w1) (hw2 : allWs w2) (hw3 : allWs w3)
    (hne : ds ≠ []) (hdig : ∀ ch ∈ ds, ch.isDigit = true)
    (hbound : ¬((2 ^ 31 - 1 : Int) < (digitsVal ds : Int)))
    (hlw : headNotWs l) :
    ∃ p2, blockStep (mkRules (m + 1))
        ⟨lbrace :: (w1 ++ (ds ++ (w2 ++ (rbrace :: (w3 ++ l))))), p⟩ c =
      (.ok ⟨l, p2⟩ (.integer (digitsVal ds)), c) := by
  cases ds with
  | nil => exact absurd rfl hne
  | cons d ds2 =>
    have hd : d.isDigit = true := hdig d (List.mem_cons_self d ds2)
    have hdsw : headNotWs ((d :: ds2) ++ (w2 ++ (rbrace :: (w3 ++ l)))) :=
      headNotWs_cons _ _ (digit_not_ws d hd)
    -- the opening curly brace, with its trailing whitespace
    have hlc : left_curly
        ⟨lbrace :: (w1 ++ ((d :: ds2) ++ (w2 ++ (rbrace :: (w3 ++ l))))),
          p⟩ c =
        (.ok ⟨(d :: ds2) ++ (w2 ++ (rbrace :: (w3 ++ l))),
          w1.foldl Pos.advance (Pos.advance p lbrace)⟩ (), c) := by
      have htl : tagLoop [lbrace]
          ⟨lbrace :: (w1 ++ ((d :: ds2) ++ (w2 ++ (rbrace :: (w3 ++ l))))),
            p⟩ =
          some ⟨w1 ++ ((d :: ds2) ++ (w2 ++ (rbrace :: (w3 ++ l)))),
            Pos.advance p lbrace⟩ :=
        tagLoop_self [lbrace] _ p
      have hms : multispace0
          ⟨lbrace :: (w1 ++ ((d :: ds2) ++ (w2 ++ (rbrace :: (w3 ++ l))))),
            p⟩ c =
          (.ok ⟨lbrace :: (w1 ++ ((d :: ds2) ++
            (w2 ++ (rbrace :: (w3 ++ l))))), p⟩ (), c) := by
        rw [ms0_run, skipSpaces_no_ws _ _ (headNotWs_cons _ _ (by decide))]
      have hin : space_insignificant (tag [lbrace])
          ⟨lbrace :: (w1 ++ ((d :: ds2) ++ (w2 ++ (rbrace :: (w3 ++ l))))),
            p⟩ c =
          (.ok ⟨(d :: ds2) ++ (w2 ++ (rbrace :: (w3 ++ l))),
            w1.foldl Pos.advance (Pos.advance p lbrace)⟩ [lbrace], c) := by
        unfold space_insignificant delimited
        rw [pbind_ok _ _ _ _ _ _ _ hms]
        rw [pbind_ok _ _ _ _ _ _ _ (tag_match _ _ _ _ htl)]
        exact pmap_ok _ _ _ _ _ _ _
          (by rw [ms0_run, skipSpaces_ws_append w1 hw1 _ _ hdsw])
      unfold left_curly
      exact pmap_ok _ _ _ _ _ _ _ hin
    -- the inner bindings alternative fails at the digit
    have hbnd : bindingsStep (mkRules m)
        ⟨(d :: ds2) ++ (w2 ++ (rbrace :: (w3 ++ l))),
          w1.foldl Pos.advance (Pos.advance p lbrace)⟩ c =
        (.err ⟨(d :: ds2) ++ (w2 ++ (rbrace :: (w3 ++ l))),
          w1.foldl Pos.advance (Pos.advance p lbrace)⟩ ErrorKind.Tag, c) := by
      refine bindings_err_head _ _ _ _ hdsw ?_
      show tagLoop ('l' :: 'e' :: 't' :: []) ⟨d :: (ds2 ++ _), _⟩ = none
      exact tagLoop_head_ne 'l' _ _ _
        (headNot_cons _ _ _ (digit_ne d 'l' hd (by decide)))
    -- the inner expression succeeds with the integer
    obtain ⟨p2, hexp⟩ := expr_digits (mkRules m) (d :: ds2) w2
      (rbrace :: (w3 ++ l)) (w1.foldl Pos.advance (Pos.advance p lbrace)) c
      (by simp) hdig hw2 (headNotWs_cons _ _ (by decide))
      (headNotDigit_cons _ _ (by decide)) (headNot_cons _ _ _ (by decide))
      (headNot_cons _ _ _ (by decide)) (headNot_cons _ _ _ (by decide))
      hbound
    -- the closing curly brace, with its trailing whitespace
    have hrc : right_curly ⟨rbrace :: (w3 ++ l), p2⟩ c =
        (.ok ⟨l, w3.foldl Pos.advance (Pos.advance p2 rbrace)⟩ (), c) := by
      have htl : tagLoop [rbrace] ⟨rbrace :: (w3 ++ l), p2⟩ =
          some ⟨w3 ++ l, Pos.advance p2 rbrace⟩ :=
        tagLoop_self [rbrace] _ p2
      have hms : multispace0 ⟨rbrace :: (w3 ++ l), p2⟩ c =
          (.ok ⟨rbrace :: (w3 ++ l), p2⟩ (), c) := by
        rw [ms0_run, skipSpaces_no_ws _ _ (headNotWs_cons _ _ (by decide))]
      have hin : space_insignificant (tag [rbrace])
          ⟨rbrace :: (w3 ++ l), p2⟩ c =
          (.ok ⟨l, w3.foldl Pos.advance (Pos.advance p2 rbrace)⟩
            [rbrace], c) := by
        unfold space_insignificant delimited
        rw [pbind_ok _ _ _ _ _ _ _ hms]
        rw [pbind_ok _ _ _ _ _ _ _ (tag_match _ _ _ _ htl)]
        exact pmap_ok _ _ _ _ _ _ _
          (by rw [ms0_run, skipSpaces_ws_append w3 hw3 _ _ hlw])
      unfold right_curly
      exact pmap_ok _ _ _ _ _ _ _ hin
    refine ⟨w3.foldl Pos.advance (Pos.advance p2 rbrace), ?_⟩
    unfold blockStep delimited
    rw [pbind_ok _ _ _ _ _ _ _ hlc]
    rw [pbind_ok _ _ _ _ _ _ _
      (by
        rw [show (mkRules (m + 1)).bindings = bindingsStep (mkRules m)
            from rfl,
          show (mkRules (m + 1)).expr = exprStep (mkRules m) from rfl]
        rw [alt2_snd _ _ _ _ _ _ _ hbnd]
        exact hexp)]
    exact pmap_ok _ _ _ _ _ _ _ hrc

/-! ## Symbolic run of the whole conditional skeleton -/

theorem mkRules_succ (n : Nat) : mkRules (n + 1) = mkRulesStep (mkRules n) :=
  rfl

theorem allWs_nil : allWs [] := by
  intro ch h
  exact absurd h (List.not_mem_nil ch)

theorem if_else_ws (m : Nat) (w1 w2 w3 w4 w5 w6 w7 w8 : List Char)
    (hw1 : allWs w1) (hw2 : allWs w2) (hw3 : allWs w3) (hw4 : allWs w4)
    (hw5 : allWs w5) (hw6 : allWs w6) (hw7 : allWs w7) (hw8 : allWs w8)
    (p : Pos) (c : Ctx) :
    ∃ p2, if_elseStep (mkRules (m + 1))
        ⟨"if".data ++ (w1 ++ ("0".data ++ (w2 ++ (lbrace ::
          (w3 ++ ("1".data ++ (w4 ++ (rbrace ::
            (w5 ++ ("else".data ++ (w6 ++ (lbrace ::
              (w7 ++ ("42".data ++ (w8 ++ (rbrace :: [])))))))))))))))), p⟩
        c =
      (.ok ⟨[], p2⟩ (.if_ (.integer 0) (.integer 1) (.integer 42)), c) := by
  obtain ⟨p1, hif⟩ := keyword_ws "if".data w1
    ("0".data ++ (w2 ++ (lbrace :: (w3 ++ ("1".data ++ (w4 ++ (rbrace ::
      (w5 ++ ("else".data ++ (w6 ++ (lbrace :: (w7 ++ ("42".data ++
        (w8 ++ (rbrace :: [])))))))))))))))
    p c (by decide) (headNotWs_cons _ _ (by decide)) hw1
    (headNotAlpha_cons _ _ (by decide)) (headNotWs_cons _ _ (by decide))
  obtain ⟨p2c, hcond⟩ := expr_digits (mkRules m) "0".data w2
    (lbrace :: (w3 ++ ("1".data ++ (w4 ++ (rbrace :: (w5 ++ ("else".data ++
      (w6 ++ (lbrace :: (w7 ++ ("42".data ++ (w8 ++ (rbrace :: [])))))))))))))
    p1 c (by decide) (by decide) hw2
    (headNotWs_cons _ _ (by decide)) (headNotDigit_cons _ _ (by decide))
    (headNot_cons _ _ _ (by decide)) (headNot_cons _ _ _ (by decide))
    (headNot_cons _ _ _ (by decide)) (by decide)
  obtain ⟨p3, hcons⟩ := block_digits m w3 "1".data w4 w5
    ("else".data ++ (w6 ++ (lbrace :: (w7 ++ ("42".data ++
      (w8 ++ (rbrace :: [])))))))
    p2c c hw3 hw4 hw5 (by decide) (by decide) (by decide)
    (headNotWs_cons _ _ (by decide))
  obtain ⟨p4, helse⟩ := keyword_ws "else".data w6
    (lbrace :: (w7 ++ ("42".data ++ (w8 ++ (rbrace :: [])))))
    p3 c (by decide) (headNotWs_cons _ _ (by decide)) hw6
    (headNotAlpha_cons _ _ (by decide)) (headNotWs_cons _ _ (by decide))
  obtain ⟨p5, halt0⟩ := block_digits m w7 "42".data w8 [] [] p4 c hw7 hw8
    allWs_nil (by decide) (by decide) (by decide) headNotWs_nil
  have halt : blockStep (mkRules (m + 1))
      ⟨lbrace :: (w7 ++ ("42".data ++ (w8 ++ (rbrace :: [])))), p4⟩ c =
      (.ok ⟨[], p5⟩ (.integer (digitsVal "42".data)), c) := halt0
  have hcond2 : (mkRules (m + 1)).expr
      ⟨"0".data ++ (w2 ++ (lbrace :: (w3 ++ ("1".data ++ (w4 ++ (rbrace ::
        (w5 ++ ("else".data ++ (w6 ++ (lbrace :: (w7 ++ ("42".data ++
          (w8 ++ (rbrace :: [])))))))))))))), p1⟩ c =
      (.ok ⟨lbrace :: (w3 ++ ("1".data ++ (w4 ++ (rbrace :: (w5 ++
        ("else".data ++ (w6 ++ (lbrace :: (w7 ++ ("42".data ++
          (w8 ++ (rbrace :: [])))))))))))), p2c⟩
        (.integer (digitsVal "0".data)), c) := hcond
  refine ⟨p5, ?_⟩
  unfold if_elseStep if_ else_
  rw [pbind_ok _ _ _ _ _ _ _ hif]
  dsimp only
  rw [pbind_ok _ _ _ _ _ _ _ hcond2]
  dsimp only
  rw [pbind_ok _ _ _ _ _ _ _ hcons]
  dsimp only
  rw [pbind_ok _ _ _ _ _ _ _ helse]
  dsimp only
  rw [pmap_ok _ _ _ _ _ _ _ halt]
  rfl

theorem expr_ws_conditional (m : Nat) (w1 w2 w3 w4 w5 w6 w7 w8 : List Char)
    (hw1 : allWs w1) (hw2 : allWs w2) (hw3 : allWs w3) (hw4 : allWs w4)
    (hw5 : allWs w5) (hw6 : allWs w6) (hw7 : allWs w7) (hw8 : allWs w8)
    (p : Pos) (c : Ctx) :
    ∃ p2, exprStep (mkRules (m + 1))
        ⟨"if".data ++ (w1 ++ ("0".data ++ (w2 ++ (lbrace ::
          (w3 ++ ("1".data ++ (w4 ++ (rbrace ::
            (w5 ++ ("else".data ++ (w6 ++ (lbrace ::
              (w7 ++ ("42".data ++ (w8 ++ (rbrace :: [])))))))))))))))), p⟩
        c =
      (.ok ⟨[], p2⟩ (.if_ (.integer 0) (.integer 1) (.integer 42)), c) := by
  obtain ⟨ie, hint⟩ := integer_err_nondigit
    ("if".data ++ (w1 ++ ("0".data ++ (w2 ++ (lbrace ::
      (w3 ++ ("1".data ++ (w4 ++ (rbrace ::
        (w5 ++ ("else".data ++ (w6 ++ (lbrace ::
          (w7 ++ ("42".data ++ (w8 ++ (rbrace :: [])))))))))))))))))
    p c (headNotWs_cons _ _ (by decide)) (headNotDigit_cons _ _ (by decide))
    (headNot_cons _ _ _ (by decide))
  obtain ⟨p2, hife⟩ := if_else_ws m w1 w2 w3 w4 w5 w6 w7 w8 hw1 hw2 hw3 hw4
    hw5 hw6 hw7 hw8 p c
  have hatom : atomic_exprStep (mkRules (m + 1))
      ⟨"if".data ++ (w1 ++ ("0".data ++ (w2 ++ (lbrace ::
        (w3 ++ ("1".data ++ (w4 ++ (rbrace ::
          (w5 ++ ("else".data ++ (w6 ++ (lbrace ::
            (w7 ++ ("42".data ++ (w8 ++ (rbrace :: [])))))))))))))))), p⟩
      c =
      (.ok ⟨[], p2⟩ (.if_ (.integer 0) (.integer 1) (.integer 42)), c) := by
    unfold atomic_exprStep
    rw [alt2_snd _ _ _ _ _ _ _ hint]
    exact alt2_fst _ _ _ _ _ _ _ hife
  exact ⟨p2, expr_of_atomic _ _ _ _ _ _ hatom headNotWs_nil (headNot_nil _)
    (headNot_nil _) (headNot_nil _)⟩

/-! ## Character-class facts for the token refinement -/

theorem alpha_not_digit (c : Char) (h : c.isAlpha = true) :
    c.isDigit = false := by
  simp only [Char.isAlpha, Char.isUpper, Char.isLower, Bool.or_eq_true,
    Bool.and_eq_true, decide_eq_true_eq] at h
  by_contra hx
  have hd : c.isDigit = true := by revert hx; cases c.isDigit <;> simp
  simp only [Char.isDigit, Bool.and_eq_true, decide_eq_true_eq] at hd
  obtain ⟨hd1, hd2⟩ := hd
  have hd1n : ('0' : Char).toNat ≤ c.toNat := hd1
  have hd2n : c.toNat ≤ ('9' : Char).toNat := hd2
  have e0 : ('0' : Char).toNat = 48 := rfl
  have e9 : ('9' : Char).toNat = 57 := rfl
  rw [e0] at hd1n
  rw [e9] at hd2n
  rcases h with ⟨h1, h2⟩ | ⟨h1, h2⟩
  · have h1n : ('A' : Char).toNat ≤ c.toNat := h1
    have h2n : c.toNat ≤ ('Z' : Char).toNat := h2
    have eA : ('A' : Char).toNat = 65 := rfl
    have eZ : ('Z' : Char).toNat = 90 := rfl
    rw [eA] at h1n
    rw [eZ] at h2n
    omega
  · have h1n : ('a' : Char).toNat ≤ c.toNat := h1
    have h2n : c.toNat ≤ ('z' : Char).toNat := h2
    have ea : ('a' : Char).toNat = 97 := rfl
    have ez : ('z' : Char).toNat = 122 := rfl
    rw [ea] at h1n
    rw [ez] at h2n
    omega

theorem digit_not_alpha (c : Char) (h : c.isDigit = true) :
    c.isAlpha = false := by
  by_contra hx
  have hd : c.isAlpha = true := by revert hx; cases c.isAlpha <;> simp
  have h2 := alpha_not_digit c hd
  rw [h] at h2
  exact Bool.noConfusion h2

theorem alpha_ne (a c0 : Char) (ha : a.isAlpha = true)
    (hc : c0.isAlpha = false) : a ≠ c0 := by
  intro h
  subst h
  rw [ha] at hc
  exact Bool.noConfusion hc

theorem ws_ne_underscore (ch : Char) (h : isMultispace ch = true) :
    ch ≠ '_' := by
  have hd : ch = ' ' ∨ ch = '\t' ∨ ch = '\r' ∨ ch = '\n' := by
    simpa [isMultispace, or_assoc] using h
  rcases hd with h | h | h | h <;> subst h <;> decide

theorem isAlphanum_split (c : Char) :
    c.isAlphanum = (c.isAlpha || c.isDigit) := rfl

theorem ws_not_alphanum (ch : Char) (h : isMultispace ch = true) :
    ch.isAlphanum = false := by
  rw [isAlphanum_split, ws_not_alpha ch h, ws_not_digit ch h]
  rfl

theorem identStart_cases (h : Char) (hh : identStartC h = true) :
    h.isAlpha = true ∨ h = '_' := by
  unfold identStartC at hh
  rcases Bool.or_eq_true_iff.mp hh with h1 | h1
  · exact Or.inl h1
  · exact Or.inr (by simpa using h1)

/-- A word's head character differs from any non-alphabetic,
non-underscore character. -/
theorem word_head_ne (h : Char) (hh : identStartC h = true) (ch : Char)
    (hA : ch.isAlpha = false) (hU : ch ≠ '_') : h ≠ ch := by
  rcases identStart_cases h hh with h1 | h1
  · exact alpha_ne h ch h1 hA
  · subst h1
    exact fun hx => hU hx.symm

theorem identStart_not_ws (h : Char) (hh : identStartC h = true) :
    isMultispace h = false := by
  rcases identStart_cases h hh with h1 | h1
  · by_contra hc
    have hw : isMultispace h = true := by
      revert hc
      cases isMultispace h <;> simp
    have h2 := ws_not_alpha h hw
    rw [h1] at h2
    exact Bool.noConfusion h2
  · subst h1
    decide

theorem identCont_ne (a c0 : Char) (ha : identContC a = true)
    (hc : identContC c0 = false) : a ≠ c0 := by
  intro h
  subst h
  rw [ha] at hc
  exact Bool.noConfusion hc

theorem dropWhile_head_not (f : Char → Bool) :
    ∀ (l : List Char) (ch : Char), (l.dropWhile f).head? = some ch →
      f ch = false := by
  intro l
  induction l with
  | nil => intro ch h; exact absurd h (by simp)
  | cons c t ih =>
    intro ch h
    by_cases hc : f c
    · rw [List.dropWhile_cons, if_pos hc] at h
      exact ih ch h
    · rw [List.dropWhile_cons, if_neg hc] at h
      injection h with h
      subst h
      exact Bool.eq_false_iff.mpr hc

theorem headNot_append_left (ch : Char) (a l : List Char) (hne : a ≠ [])
    (ha : headNot ch a) : headNot ch (a ++ l) := by
  cases a with
  | nil => exact absurd rfl hne
  | cons c t =>
    intro x hx
    injection hx with hx
    exact ha x (by rw [hx]; rfl)

/-! ## Structure of well-formed renderings -/

theorem allWs_of_all (l : List Char) (h : l.all isMultispace = true) :
    allWs l := by
  intro ch hch
  exact List.all_eq_true.mp h ch hch

theorem wfRender_cons (t : Token) (ts : List Token) (g : List Char)
    (gs : List (List Char)) (h : WfRender (t :: ts) (g :: gs) = true) :
    wfToken t = true ∧ allWs g ∧
      (∀ t' rest, ts = t' :: rest → g = [] → needSep t t' = false) ∧
      WfRender ts gs = true := by
  unfold WfRender at h
  rcases Bool.and_eq_true_iff.mp h with ⟨hall, hgaps⟩
  rw [List.all_cons] at hall
  rcases Bool.and_eq_true_iff.mp hall with ⟨ht, hts⟩
  cases ts with
  | nil =>
    simp only [wfGaps, Bool.and_eq_true] at hgaps
    refine ⟨ht, allWs_of_all g hgaps.1.1, ?_, ?_⟩
    · intro t' rest hts2 hge
      exact absurd hts2 (by simp)
    · show ([].all wfToken && wfGaps [] gs) = true
      rw [hgaps.2]
      rfl
  | cons t' rest =>
    simp only [wfGaps, Bool.and_eq_true] at hgaps
    obtain ⟨⟨hg, hsep⟩, hgs⟩ := hgaps
    refine ⟨ht, allWs_of_all g hg, ?_, ?_⟩
    · intro t2 rest2 hts2 hge
      injection hts2 with h1 h2
      subst h1
      subst hge
      simp only [List.isEmpty_nil, Bool.not_true, Bool.false_or,
        Bool.not_eq_true'] at hsep
      exact hsep
    · show ((t' :: rest).all wfToken && wfGaps (t' :: rest) gs) = true
      rw [hts, hgs]
      rfl

theorem wfRender_shape (ts : List Token) (gs : List (List Char))
    (h : WfRender ts gs = true) :
    (ts = [] ∧ gs = []) ∨
      ∃ t rest g gsr, ts = t :: rest ∧ gs = g :: gsr := by
  cases ts with
  | nil =>
    cases gs with
    | nil => exact Or.inl ⟨rfl, rfl⟩
    | cons g gsr =>
      unfold WfRender wfGaps at h
      simp at h
  | cons t rest =>
    cases gs with
    | nil =>
      unfold WfRender wfGaps at h
      simp at h
    | cons g gsr => exact Or.inr ⟨t, rest, g, gsr, rfl, rfl⟩

theorem wfWord_parts (s : List Char) (h : wfToken (.word s) = true) :
    ∃ hd tl, s = hd :: tl ∧ identStartC hd = true ∧ hd.isDigit = false ∧
      isMultispace hd = false ∧ (∀ ch ∈ s, identContC ch = true) ∧
      keywordSplit "if".data s = false ∧
      keywordSplit "let".data s = false ∧
      keywordSplit "else".data s = false := by
  cases s with
  | nil => exact absurd h (by rw [wfToken]; simp)
  | cons hd tl =>
    rw [wfToken] at h
    simp only [Bool.and_eq_true, Bool.not_eq_true', List.all_eq_true] at h
    obtain ⟨⟨⟨⟨⟨⟨h1, h2⟩, h3⟩, h4⟩, h5⟩, h6⟩, h7⟩ := h
    exact ⟨hd, tl, rfl, h1, h2, h3, h4, h5, h6, h7⟩

theorem wfNum_parts (neg : Bool) (ds : List Char)
    (h : wfToken (.num neg ds) = true) :
    ds ≠ [] ∧ ∀ ch ∈ ds, ch.isDigit = true := by
  rw [wfToken] at h
  simp only [Bool.and_eq_true, List.all_eq_true, Bool.not_eq_true'] at h
  obtain ⟨h1, h2⟩ := h
  refine ⟨?_, h2⟩
  intro he
  subst he
  exact Bool.noConfusion h1

theorem tokText_ne_nil (t : Token) (ht : wfToken t = true) :
    tokText t ≠ [] := by
  cases t with
  | word s =>
    obtain ⟨hd, tl, hs, -⟩ := wfWord_parts s ht
    subst hs
    exact fun hx => List.noConfusion hx
  | num neg ds =>
    obtain ⟨h1, -⟩ := wfNum_parts neg ds ht
    cases neg with
    | false => exact h1
    | true => exact fun hx => List.noConfusion hx
  | plus => exact fun hx => List.noConfusion hx
  | minus => exact fun hx => List.noConfusion hx
  | star => exact fun hx => List.noConfusion hx
  | eq => exact fun hx => List.noConfusion hx
  | semi => exact fun hx => List.noConfusion hx
  | lb => exact fun hx => List.noConfusion hx
  | rb => exact fun hx => List.noConfusion hx

theorem tokText_headNotWs (t : Token) (ht : wfToken t = true) :
    headNotWs (tokText t) := by
  cases t with
  | word s =>
    obtain ⟨hd, tl, hs, h1, -, h3, -⟩ := wfWord_parts s ht
    subst hs
    exact headNotWs_cons _ _ h3
  | num neg ds =>
    obtain ⟨h1, h2⟩ := wfNum_parts neg ds ht
    cases neg with
    | false =>
      cases ds with
      | nil => exact absurd rfl h1
      | cons d dt =>
        exact headNotWs_cons _ _
          (digit_not_ws d (h2 d (List.mem_cons_self d dt)))
    | true => exact headNotWs_cons _ _ (by decide)
  | plus => exact headNotWs_cons _ _ (by decide)
  | minus => exact headNotWs_cons _ _ (by decide)
  | star => exact headNotWs_cons _ _ (by decide)
  | eq => exact headNotWs_cons _ _ (by decide)
  | semi => exact headNotWs_cons _ _ (by decide)
  | lb => exact headNotWs_cons _ _ (by decide)
  | rb => exact headNotWs_cons _ _ (by decide)

theorem render_cons (t : Token) (ts : List Token) (g : List Char)
    (gs : List (List Char)) :
    render (t :: ts) (g :: gs) = tokText t ++ (g ++ render ts gs) := rfl

theorem render_headNotWs (ts : List Token) (gs : List (List Char))
    (hwf : WfRender ts gs = true) : headNotWs (render ts gs) := by
  rcases wfRender_shape ts gs hwf with ⟨h1, h2⟩ | ⟨t, rest, g, gsr, h1, h2⟩
  · subst h1; subst h2; exact headNotWs_nil
  · subst h1; subst h2
    obtain ⟨ht, -, -, -⟩ := wfRender_cons _ _ _ _ hwf
    rw [render_cons]
    exact headNotWs_append_left _ _ (tokText_ne_nil t ht)
      (tokText_headNotWs t ht)

theorem render_nil_iff (ts : List Token) (gs : List (List Char))
    (hwf : WfRender ts gs = true) : render ts gs = [] ↔ ts = [] := by
  rcases wfRender_shape ts gs hwf with ⟨h1, h2⟩ | ⟨t, rest, g, gsr, h1, h2⟩
  · subst h1; subst h2; exact ⟨fun _ => rfl, fun _ => rfl⟩
  · subst h1; subst h2
    obtain ⟨ht, -, -, -⟩ := wfRender_cons _ _ _ _ hwf
    rw [render_cons]
    constructor
    · intro hx
      exact absurd (List.append_eq_nil.mp hx).1 (tokText_ne_nil t ht)
    · intro hx
      exact absurd hx (by simp)

/-! ## Generic refinement lemmas for the parser combinators -/

theorem prel_mono {α : Type} (okP okQ : Input → List Token → Prop)
    (h : ∀ i ts, okP i ts → okQ i ts) (out : PRes α × Ctx)
    (tout : TRes α × Ctx) (hp : PRel okP out tout) : PRel okQ out tout := by
  obtain ⟨hctx, hcase⟩ := hp
  refine ⟨hctx, ?_⟩
  rcases hcase with ⟨i2, ts2, a, h1, h2, h3, h4⟩ | h1 | h1
  · exact Or.inl ⟨i2, ts2, a, h1, h2, h3, h i2 ts2 h4⟩
  · exact Or.inr (Or.inl h1)
  · exact Or.inr (Or.inr h1)

theorem mrel_to_w {α : Type} (iL tsL : Nat) (out : PRes α × Ctx)
    (tout : TRes α × Ctx) (hp : MRel iL tsL out tout) :
    MRelW iL tsL out tout :=
  prel_mono _ _ (fun _ _ h => ⟨Nat.le_of_lt h.1, Nat.le_of_lt h.2⟩) out
    tout hp

theorem prel_err_intro {α : Type} (okP : Input → List Token → Prop)
    (ie : Input) (k : ErrorKind) (c2 : Ctx) :
    PRel okP ((.err ie k : PRes α), c2) (.err, c2) :=
  ⟨rfl, Or.inr (Or.inl ⟨⟨ie, k, rfl⟩, rfl⟩)⟩

theorem prel_panic_intro {α : Type} (okP : Input → List Token → Prop)
    (c2 : Ctx) : PRel okP ((.panic : PRes α), c2) (.panic, c2) :=
  ⟨rfl, Or.inr (Or.inr ⟨rfl, rfl⟩)⟩

theorem prel_ok_intro {α : Type} (okP : Input → List Token → Prop)
    (i2 : Input) (ts2 : List Token) (a : α) (c2 : Ctx)
    (hclean : CleanAt i2 ts2) (hok : okP i2 ts2) :
    PRel okP ((.ok i2 a : PRes α), c2) (.ok ts2 a, c2) :=
  ⟨rfl, Or.inl ⟨i2, ts2, a, rfl, rfl, hclean, hok⟩⟩

theorem bind_rr {α β : Type} (p : Parser α) (tp : TParser α)
    (f : α → Parser β) (tf : α → TParser β) (i : Input) (ts : List Token)
    (c : Ctx) (iL tsL : Nat)
    (hp : MRel iL tsL (p i c) (tp ts c))
    (hf : ∀ a i2 ts2 c2, CleanAt i2 ts2 → i2.rem.length < iL →
      ts2.length < tsL →
      MRelW i2.rem.length ts2.length (f a i2 c2) (tf a ts2 c2)) :
    MRel iL tsL (pbind p f i c) (tbind tp tf ts c) := by
  obtain ⟨hctx, hcase⟩ := hp
  cases hpi : p i c with
  | mk r c2 =>
  cases hti : tp ts c with
  | mk tr tc2 =>
    simp only [hpi, hti] at hctx hcase
    subst hctx
    unfold pbind tbind
    rw [hpi, hti]
    rcases hcase with ⟨i2, ts2, a, ho, hto, hclean2, hlt1, hlt2⟩ |
      ⟨⟨ie, k, ho⟩, hto⟩ | ⟨ho, hto⟩
    · subst ho
      subst hto
      exact prel_mono _ _
        (fun i3 ts3 h => ⟨Nat.lt_of_le_of_lt h.1 hlt1,
          Nat.lt_of_le_of_lt h.2 hlt2⟩) _ _
        (hf a i2 ts2 c2 hclean2 hlt1 hlt2)
    · subst ho
      subst hto
      exact prel_err_intro _ ie k c2
    · subst ho
      subst hto
      exact prel_panic_intro _ c2

theorem bind_wr {α β : Type} (p : Parser α) (tp : TParser α)
    (f : α → Parser β) (tf : α → TParser β) (i : Input) (ts : List Token)
    (c : Ctx) (iL tsL : Nat)
    (hp : MRelW iL tsL (p i c) (tp ts c))
    (hf : ∀ a i2 ts2 c2, CleanAt i2 ts2 → i2.rem.length ≤ iL →
      ts2.length ≤ tsL →
      MRel i2.rem.length ts2.length (f a i2 c2) (tf a ts2 c2)) :
    MRel iL tsL (pbind p f i c) (tbind tp tf ts c) := by
  obtain ⟨hctx, hcase⟩ := hp
  cases hpi : p i c with
  | mk r c2 =>
  cases hti : tp ts c with
  | mk tr tc2 =>
    simp only [hpi, hti] at hctx hcase
    subst hctx
    unfold pbind tbind
    rw [hpi, hti]
    rcases hcase with ⟨i2, ts2, a, ho, hto, hclean2, hle1, hle2⟩ |
      ⟨⟨ie, k, ho⟩, hto⟩ | ⟨ho, hto⟩
    · subst ho
      subst hto
      exact prel_mono _ _
        (fun i3 ts3 h => ⟨Nat.lt_of_lt_of_le h.1 hle1,
          Nat.lt_of_lt_of_le h.2 hle2⟩) _ _
        (hf a i2 ts2 c2 hclean2 hle1 hle2)
    · subst ho
      subst hto
      exact prel_err_intro _ ie k c2
    · subst ho
      subst hto
      exact prel_panic_intro _ c2

theorem map_rel {α β : Type} (p : Parser α) (tp : TParser α) (f : α → β)
    (i : Input) (ts : List Token) (c : Ctx)
    (okP : Input → List Token → Prop)
    (hp : PRel okP (p i c) (tp ts c)) :
    PRel okP (pmap p f i c) (tmap tp f ts c) := by
  obtain ⟨hctx, hcase⟩ := hp
  cases hpi : p i c with
  | mk r c2 =>
  cases hti : tp ts c with
  | mk tr tc2 =>
    simp only [hpi, hti] at hctx hcase
    subst hctx
    unfold pmap tmap
    rw [hpi, hti]
    rcases hcase with ⟨i2, ts2, a, ho, hto, hclean2, hok⟩ |
      ⟨⟨ie, k, ho⟩, hto⟩ | ⟨ho, hto⟩
    · subst ho
      subst hto
      exact prel_ok_intro _ i2 ts2 (f a) c2 hclean2 hok
    · subst ho
      subst hto
      exact prel_err_intro _ ie k c2
    · subst ho
      subst hto
      exact prel_panic_intro _ c2

theorem alt_rel {α : Type} (p q : Parser α) (tp tq : TParser α)
    (i : Input) (ts : List Token) (c : Ctx)
    (okP : Input → List Token → Prop)
    (hp : PRel okP (p i c) (tp ts c))
    (hq : ∀ c2, PRel okP (q i c2) (tq ts c2)) :
    PRel okP (alt2 p q i c) (talt2 tp tq ts c) := by
  obtain ⟨hctx, hcase⟩ := hp
  cases hpi : p i c with
  | mk r c2 =>
  cases hti : tp ts c with
  | mk tr tc2 =>
    simp only [hpi, hti] at hctx hcase
    subst hctx
    unfold alt2 talt2
    rw [hpi, hti]
    rcases hcase with ⟨i2, ts2, a, ho, hto, hclean2, hok⟩ |
      ⟨⟨ie, k, ho⟩, hto⟩ | ⟨ho, hto⟩
    · subst ho
      subst hto
      exact prel_ok_intro _ i2 ts2 a c2 hclean2 hok
    · subst ho
      subst hto
      exact hq c2
    · subst ho
      subst hto
      exact prel_panic_intro _ c2

theorem expect_rel {α : Type} (p : Parser α) (tp : TParser α) (i : Input)
    (ts : List Token) (c : Ctx) (iL tsL : Nat) (hts : ts.length ≤ tsL)
    (hp : MRel iL tsL (p i c) (tp ts c))
    (herr : ∀ ie k c2, p i c = (.err ie k, c2) →
      CleanAt ie ts ∧ ie.rem.length ≤ iL) :
    MRelW iL tsL (expect p epsilon_recovery i c) (texpect tp ts c) := by
  obtain ⟨hctx, hcase⟩ := hp
  cases hpi : p i c with
  | mk r c2 =>
  cases hti : tp ts c with
  | mk tr tc2 =>
    simp only [hpi, hti] at hctx hcase
    subst hctx
    unfold expect texpect
    rw [hpi, hti]
    rcases hcase with ⟨i2, ts2, a, ho, hto, hclean2, hlt1, hlt2⟩ |
      ⟨⟨ie, k, ho⟩, hto⟩ | ⟨ho, hto⟩
    · subst ho
      subst hto
      exact prel_ok_intro _ i2 ts2 (some a) c2 hclean2
        ⟨Nat.le_of_lt hlt1, Nat.le_of_lt hlt2⟩
    · subst ho
      subst hto
      obtain ⟨hcl, hlen⟩ := herr ie k c2 hpi
      exact prel_ok_intro _ ie ts none (c2 ++ ["Excepted token"]) hcl
        ⟨hlen, hts⟩
    · subst ho
      subst hto
      exact prel_panic_intro _ c2

theorem foldLoop_rel {α β : Type} (p : Parser α) (tp : TParser α)
    (g : β → α → β) (bound : Nat)
    (hbody : ∀ i2 ts2 c2, CleanAt i2 ts2 → ts2.length < bound →
      MRel i2.rem.length ts2.length (p i2 c2) (tp ts2 c2)) :
    ∀ (fuelT fuelC : Nat) (ts : List Token) (i : Input) (acc : β)
      (c : Ctx), CleanAt i ts → ts.length < bound →
      ts.length + 1 ≤ fuelT → i.rem.length + 1 ≤ fuelC →
      MRelW i.rem.length ts.length
        (foldMany1Loop p g fuelC acc i c) (tfoldLoop tp g fuelT acc ts c) := by
  intro fuelT
  induction fuelT with
  | zero =>
    intro fuelC ts i acc c hclean hb h1 h2
    omega
  | succ ft ih =>
    intro fuelC ts i acc c hclean hb h1 h2
    cases fuelC with
    | zero => omega
    | succ fc =>
      obtain ⟨hctx, hcase⟩ := hbody i ts c hclean hb
      cases hpi : p i c with
      | mk r c2 =>
      cases hti : tp ts c with
      | mk tr tc2 =>
        simp only [hpi, hti] at hctx hcase
        subst hctx
        have hredC : foldMany1Loop p g (fc + 1) acc i c =
            (match p i c with
             | (.err _ _, c2) => (.ok i acc, c2)
             | (.panic, c2) => (.panic, c2)
             | (.ok i2 a, c2) =>
               if i2.rem.length = i.rem.length then
                 (.err i2 ErrorKind.Many1, c2)
               else foldMany1Loop p g fc (g acc a) i2 c2) := rfl
        have hredT : tfoldLoop tp g (ft + 1) acc ts c =
            (match tp ts c with
             | (.err, c2) => (.ok ts acc, c2)
             | (.panic, c2) => (.panic, c2)
             | (.ok ts2 a, c2) =>
               if ts2.length = ts.length then (.err, c2)
               else tfoldLoop tp g ft (g acc a) ts2 c2) := rfl
        rw [hredC, hredT, hpi, hti]
        rcases hcase with ⟨i2, ts2, a, ho, hto, hclean2, hlt1, hlt2⟩ |
          ⟨⟨ie, k, ho⟩, hto⟩ | ⟨ho, hto⟩
        · subst ho
          subst hto
          dsimp only
          rw [if_neg (Nat.ne_of_lt hlt1), if_neg (Nat.ne_of_lt hlt2)]
          have hIH := ih fc ts2 i2 (g acc a) c2 hclean2
            (Nat.lt_trans hlt2 hb) (by omega) (by omega)
          refine prel_mono _ _ ?_ _ _ hIH
          intro i3 ts3 h
          exact ⟨Nat.le_trans h.1 (Nat.le_of_lt hlt1),
            Nat.le_trans h.2 (Nat.le_of_lt hlt2)⟩
        · subst ho
          subst hto
          refine prel_ok_intro _ i ts acc c2 hclean ?_
          exact ⟨Nat.le_refl _, Nat.le_refl _⟩
        · subst ho
          subst hto
          exact prel_panic_intro _ c2

theorem fold_many1_rel {α β : Type} (p : Parser α) (tp : TParser α)
    (init : β) (g : β → α → β) (bound : Nat)
    (hbody : ∀ i2 ts2 c2, CleanAt i2 ts2 → ts2.length < bound →
      MRel i2.rem.length ts2.length (p i2 c2) (tp ts2 c2))
    (i : Input) (ts : List Token) (c : Ctx) (hclean : CleanAt i ts)
    (hb : ts.length < bound) :
    MRel i.rem.length ts.length (fold_many1 p init g i c)
      (tfold_many1 tp init g ts c) := by
  obtain ⟨hctx, hcase⟩ := hbody i ts c hclean hb
  cases hpi : p i c with
  | mk r c2 =>
  cases hti : tp ts c with
  | mk tr tc2 =>
    simp only [hpi, hti] at hctx hcase
    subst hctx
    unfold fold_many1 tfold_many1
    rw [hpi, hti]
    rcases hcase with ⟨i2, ts2, a, ho, hto, hclean2, hlt1, hlt2⟩ |
      ⟨⟨ie, k, ho⟩, hto⟩ | ⟨ho, hto⟩
    · subst ho
      subst hto
      have hLoop := foldLoop_rel p tp g bound hbody (ts2.length + 1)
        (i2.rem.length + 1) ts2 i2 (g init a) c2 hclean2
        (Nat.lt_trans hlt2 hb) (Nat.le_refl _) (Nat.le_refl _)
      refine prel_mono _ _ ?_ _ _ hLoop
      intro i3 ts3 h
      exact ⟨Nat.lt_of_le_of_lt h.1 hlt1, Nat.lt_of_le_of_lt h.2 hlt2⟩
    · subst ho
      subst hto
      exact prel_err_intro _ i ErrorKind.Many1 c2
    · subst ho
      subst hto
      exact prel_panic_intro _ c2

theorem manyLoop_rel {α : Type} (k : ErrorKind) (p : Parser α)
    (tp : TParser α) (bound : Nat)
    (hbody : ∀ i2 ts2 c2, CleanAt i2 ts2 → ts2.length < bound →
      MRel i2.rem.length ts2.length (p i2 c2) (tp ts2 c2)) :
    ∀ (fuelT fuelC : Nat) (ts : List Token) (i : Input) (acc : List α)
      (c : Ctx), CleanAt i ts → ts.length < bound →
      ts.length + 1 ≤ fuelT → i.rem.length + 1 ≤ fuelC →
      MRelW i.rem.length ts.length
        (manyLoop k p fuelC acc i c) (tmanyLoop tp fuelT acc ts c) := by
  intro fuelT
  induction fuelT with
  | zero =>
    intro fuelC ts i acc c hclean hb h1 h2
    omega
  | succ ft ih =>
    intro fuelC ts i acc c hclean hb h1 h2
    cases fuelC with
    | zero => omega
    | succ fc =>
      obtain ⟨hctx, hcase⟩ := hbody i ts c hclean hb
      cases hpi : p i c with
      | mk r c2 =>
      cases hti : tp ts c with
      | mk tr tc2 =>
        simp only [hpi, hti] at hctx hcase
        subst hctx
        have hredC : manyLoop k p (fc + 1) acc i c =
            (match p i c with
             | (.err _ _, c2) => (.ok i acc, c2)
             | (.panic, c2) => (.panic, c2)
             | (.ok i2 a, c2) =>
               if i2.rem.length = i.rem.length then (.err i2 k, c2)
               else manyLoop k p fc (acc ++ [a]) i2 c2) := rfl
        have hredT : tmanyLoop tp (ft + 1) acc ts c =
            (match tp ts c with
             | (.err, c2) => (.ok ts acc, c2)
             | (.panic, c2) => (.panic, c2)
             | (.ok ts2 a, c2) =>
               if ts2.length = ts.length then (.err, c2)
               else tmanyLoop tp ft (acc ++ [a]) ts2 c2) := rfl
        rw [hredC, hredT, hpi, hti]
        rcases hcase with ⟨i2, ts2, a, ho, hto, hclean2, hlt1, hlt2⟩ |
          ⟨⟨ie, k2, ho⟩, hto⟩ | ⟨ho, hto⟩
        · subst ho
          subst hto
          dsimp only
          rw [if_neg (Nat.ne_of_lt hlt1), if_neg (Nat.ne_of_lt hlt2)]
          have hIH := ih fc ts2 i2 (acc ++ [a]) c2 hclean2
            (Nat.lt_trans hlt2 hb) (by omega) (by omega)
          refine prel_mono _ _ ?_ _ _ hIH
          intro i3 ts3 h
          exact ⟨Nat.le_trans h.1 (Nat.le_of_lt hlt1),
            Nat.le_trans h.2 (Nat.le_of_lt hlt2)⟩
        · subst ho
          subst hto
          refine prel_ok_intro _ i ts acc c2 hclean ?_
          exact ⟨Nat.le_refl _, Nat.le_refl _⟩
        · subst ho
          subst hto
          exact prel_panic_intro _ c2

theorem many1_rel {α : Type} (p : Parser α) (tp : TParser α) (bound : Nat)
    (hbody : ∀ i2 ts2 c2, CleanAt i2 ts2 → ts2.length < bound →
      MRel i2.rem.length ts2.length (p i2 c2) (tp ts2 c2))
    (i : Input) (ts : List Token) (c : Ctx) (hclean : CleanAt i ts)
    (hb : ts.length < bound) :
    MRel i.rem.length ts.length (many1 p i c) (tmany1 tp ts c) := by
  obtain ⟨hctx, hcase⟩ := hbody i ts c hclean hb
  cases hpi : p i c with
  | mk r c2 =>
  cases hti : tp ts c with
  | mk tr tc2 =>
    simp only [hpi, hti] at hctx hcase
    subst hctx
    unfold many1 tmany1
    rw [hpi, hti]
    rcases hcase with ⟨i2, ts2, a, ho, hto, hclean2, hlt1, hlt2⟩ |
      ⟨⟨ie, k, ho⟩, hto⟩ | ⟨ho, hto⟩
    · subst ho
      subst hto
      have hLoop := manyLoop_rel ErrorKind.Many1 p tp bound hbody
        (ts2.length + 1) (i2.rem.length + 1) ts2 i2 [a] c2 hclean2
        (Nat.lt_trans hlt2 hb) (Nat.le_refl _) (Nat.le_refl _)
      refine prel_mono _ _ ?_ _ _ hLoop
      intro i3 ts3 h
      exact ⟨Nat.lt_of_le_of_lt h.1 hlt1, Nat.lt_of_le_of_lt h.2 hlt2⟩
    · subst ho
      subst hto
      exact prel_err_intro _ ie k c2
    · subst ho
      subst hto
      exact prel_panic_intro _ c2

/-- Instantiates a rule refinement at a clean state. -/
theorem ruleRef_clean {α : Type} (P : Parser α) (T : TParser α)
    (bound : Nat) (h : RuleRef P T bound) (i2 : Input) (ts2 : List Token)
    (c2 : Ctx) (hclean : CleanAt i2 ts2) (hb : ts2.length < bound) :
    MRel i2.rem.length ts2.length (P i2 c2) (T ts2 c2) := by
  obtain ⟨gs2, p2, hi, hwf⟩ := hclean
  subst hi
  have h2 := h ts2 gs2 [] p2 c2 hb hwf allWs_nil
  simpa using h2

/-! ## Runs of the primitive matchers over token renderings -/

theorem takeWhile1P_err (f : Char → Bool) (k : ErrorKind) (j : Input)
    (c : Ctx) (h : j.rem.takeWhile f = []) :
    takeWhile1P f k j c = (.err j k, c) := by
  unfold takeWhile1P
  obtain ⟨h1, h2⟩ := take1Loop_eq f j.rem j.pos
  cases ht : take1Loop f j.rem j.pos with
  | mk ds i2 =>
    rw [ht] at h1
    dsimp only at h1
    rw [h] at h1
    subst h1
    rfl

theorem takeWhile1P_ok (f : Char → Bool) (k : ErrorKind) (j : Input)
    (c : Ctx) (h : j.rem.takeWhile f ≠ []) :
    ∃ p2, takeWhile1P f k j c =
      (.ok ⟨j.rem.dropWhile f, p2⟩ (j.rem.takeWhile f), c) := by
  unfold takeWhile1P
  obtain ⟨h1, h2⟩ := take1Loop_eq f j.rem j.pos
  cases ht : take1Loop f j.rem j.pos with
  | mk ds i2 =>
    cases i2 with
    | mk r2 p2 =>
      rw [ht] at h1 h2
      dsimp only at h1 h2
      cases ds with
      | nil => exact absurd h1.symm h
      | cons d ds2 =>
        refine ⟨p2, ?_⟩
        rw [← h1, ← h2]

/-- The keyword tag against a word token: either the word is the keyword
exactly, or the tag fails, or the tag consumes the keyword inside the
word, leaving a non-empty alphabetic-headed remainder (the case the
keyword matcher then rejects; excluded words never leave a
non-alphabetic-headed remainder thanks to `keywordSplit`). -/
theorem tag_kw_word (kw : List Char) (hkwa : ∀ ch ∈ kw, ch.isAlpha = true) :
    ∀ (s l : List Char) (p : Pos),
      (∀ ch, l.head? = some ch → ch.isAlpha = false) →
      keywordSplit kw s = false →
      (s = kw ∧ tagLoop kw ⟨s ++ l, p⟩ =
        some ⟨l, s.foldl Pos.advance p⟩) ∨
      (s ≠ kw ∧ tagLoop kw ⟨s ++ l, p⟩ = none) ∨
      (s ≠ kw ∧ ∃ rc rt p2, (rc : Char).isAlpha = true ∧
        tagLoop kw ⟨s ++ l, p⟩ = some ⟨(rc :: rt) ++ l, p2⟩) := by
  induction kw with
  | nil =>
    intro s l p hl hsplit
    cases s with
    | nil => exact Or.inl ⟨rfl, rfl⟩
    | cons c st =>
      rw [show keywordSplit [] (c :: st) = !c.isAlpha from rfl] at hsplit
      have hca : c.isAlpha = true := by
        revert hsplit
        cases c.isAlpha <;> simp
      refine Or.inr (Or.inr ⟨by simp, c, st, p, hca, ?_⟩)
      rfl
  | cons k kt ih =>
    intro s l p hl hsplit
    have hk : k.isAlpha = true := hkwa k (List.mem_cons_self k kt)
    have hkt : ∀ ch ∈ kt, ch.isAlpha = true := fun ch hch =>
      hkwa ch (List.mem_cons_of_mem k hch)
    cases s with
    | nil =>
      refine Or.inr (Or.inl ⟨by simp, ?_⟩)
      show tagLoop (k :: kt) ⟨l, p⟩ = none
      cases l with
      | nil => rfl
      | cons c rest =>
        rw [tagLoop, if_neg]
        exact Ne.symm (alpha_ne k c hk (hl c rfl))
    | cons c st =>
      by_cases hck : c = k
      · subst hck
        rw [show keywordSplit (c :: kt) (c :: st) =
            keywordSplit kt st from by
          rw [keywordSplit]
          exact if_pos rfl] at hsplit
        have hstep : tagLoop (c :: kt) ⟨(c :: st) ++ l, p⟩ =
            tagLoop kt ⟨st ++ l, p.advance c⟩ := by
          show tagLoop (c :: kt) ⟨c :: (st ++ l), p⟩ = _
          rw [tagLoop, if_pos rfl]
        rcases ih hkt st l (p.advance c) hl hsplit with
          ⟨h1, h2⟩ | ⟨h1, h2⟩ | ⟨h1, rc, rt, p2, h2, h3⟩
        · subst h1
          refine Or.inl ⟨rfl, ?_⟩
          rw [hstep, h2, List.foldl_cons]
        · refine Or.inr (Or.inl ⟨?_, by rw [hstep, h2]⟩)
          intro hx
          injection hx with hx1 hx2
          exact h1 hx2
        · refine Or.inr (Or.inr ⟨?_, rc, rt, p2, h2, by rw [hstep, h3]⟩)
          intro hx
          injection hx with hx1 hx2
          exact h1 hx2
      · refine Or.inr (Or.inl ⟨?_, ?_⟩)
        · intro hx
          injection hx with hx1 hx2
          exact hck hx1
        · show tagLoop (k :: kt) ⟨c :: (st ++ l), p⟩ = none
          rw [tagLoop, if_neg hck]

/-- Head of the text following a token whose munching would absorb words
and unsigned number literals (words themselves): across the gap, the next
character is never alphabetic, a digit, or an underscore. -/
theorem after_headNotIdentish (t : Token) (rest : List Token)
    (g : List Char) (gsr : List (List Char)) (hg : allWs g)
    (hsep : ∀ t' r2, rest = t' :: r2 → g = [] → needSep t t' = false)
    (hw : ∀ s2, needSep t (.word s2) = true)
    (hnum : ∀ ds2, needSep t (.num false ds2) = true)
    (hwfrest : WfRender rest gsr = true) :
    headNotAlpha (g ++ render rest gsr) ∧
      headNotDigit (g ++ render rest gsr) ∧
      headNot '_' (g ++ render rest gsr) := by
  cases g with
  | cons gh gt =>
    have hgh : isMultispace gh = true := hg gh (List.mem_cons_self gh gt)
    refine ⟨?_, ?_, ?_⟩
    · show headNotAlpha (gh :: (gt ++ render rest gsr))
      exact headNotAlpha_cons _ _ (ws_not_alpha gh hgh)
    · show headNotDigit (gh :: (gt ++ render rest gsr))
      exact headNotDigit_cons _ _ (ws_not_digit gh hgh)
    · show headNot '_' (gh :: (gt ++ render rest gsr))
      exact headNot_cons _ _ _ (ws_ne_underscore gh hgh)
  | nil =>
    simp only [List.nil_append]
    cases rest with
    | nil =>
      exact ⟨fun ch h => absurd h (by simp [render]),
        fun ch h => absurd h (by simp [render]),
        fun ch h => absurd h (by simp [render])⟩
    | cons t' r2 =>
      have hns : needSep t t' = false := hsep t' r2 rfl rfl
      rcases wfRender_shape _ _ hwfrest with ⟨h1, -⟩ | ⟨t2, r3, g2, gsr2, h1, h2⟩
      · exact absurd h1 (by simp)
      · injection h1 with h1a h1b
        subst h1a
        subst h1b
        subst h2
        rw [render_cons]
        cases t' with
        | word s2 =>
          rw [hw s2] at hns
          exact Bool.noConfusion hns
        | num neg2 ds2 =>
          cases neg2 with
          | false =>
            rw [hnum ds2] at hns
            exact Bool.noConfusion hns
          | true =>
            show headNotAlpha ('-' :: (ds2 ++ _)) ∧
              headNotDigit ('-' :: (ds2 ++ _)) ∧ headNot '_' ('-' :: (ds2 ++ _))
            exact ⟨headNotAlpha_cons _ _ (by decide),
              headNotDigit_cons _ _ (by decide),
              headNot_cons _ _ _ (by decide)⟩
        | plus =>
          exact ⟨headNotAlpha_cons _ _ (by decide),
            headNotDigit_cons _ _ (by decide),
            headNot_cons _ _ _ (by decide)⟩
        | minus =>
          exact ⟨headNotAlpha_cons _ _ (by decide),
            headNotDigit_cons _ _ (by decide),
            headNot_cons _ _ _ (by decide)⟩
        | star =>
          exact ⟨headNotAlpha_cons _ _ (by decide),
            headNotDigit_cons _ _ (by decide),
            headNot_cons _ _ _ (by decide)⟩
        | eq =>
          exact ⟨headNotAlpha_cons _ _ (by decide),
            headNotDigit_cons _ _ (by decide),
            headNot_cons _ _ _ (by decide)⟩
        | semi =>
          exact ⟨headNotAlpha_cons _ _ (by decide),
            headNotDigit_cons _ _ (by decide),
            headNot_cons _ _ _ (by decide)⟩
        | lb =>
          exact ⟨headNotAlpha_cons _ _ (by decide),
            headNotDigit_cons _ _ (by decide),
            headNot_cons _ _ _ (by decide)⟩
        | rb =>
          exact ⟨headNotAlpha_cons _ _ (by decide),
            headNotDigit_cons _ _ (by decide),
            headNot_cons _ _ _ (by decide)⟩

/-- Head of the text following a token whose digit-munching would absorb
unsigned number literals: across the gap, the next character is never a
digit. -/
theorem after_headNotDigit (t : Token) (rest : List Token) (g : List Char)
    (gsr : List (List Char)) (hg : allWs g)
    (hsep : ∀ t' r2, rest = t' :: r2 → g = [] → needSep t t' = false)
    (hnum : ∀ ds2, needSep t (.num false ds2) = true)
    (hwfrest : WfRender rest gsr = true) :
    headNotDigit (g ++ render rest gsr) := by
  cases g with
  | cons gh gt =>
    have hgh : isMultispace gh = true := hg gh (List.mem_cons_self gh gt)
    show headNotDigit (gh :: (gt ++ render rest gsr))
    exact headNotDigit_cons _ _ (ws_not_digit gh hgh)
  | nil =>
    simp only [List.nil_append]
    cases rest with
    | nil => exact fun ch h => absurd h (by simp [render])
    | cons t' r2 =>
      have hns : needSep t t' = false := hsep t' r2 rfl rfl
      rcases wfRender_shape _ _ hwfrest with ⟨h1, -⟩ | ⟨t2, r3, g2, gsr2, h1, h2⟩
      · exact absurd h1 (by simp)
      · injection h1 with h1a h1b
        subst h1a
        subst h1b
        subst h2
        obtain ⟨ht', -, -, -⟩ := wfRender_cons _ _ _ _ hwfrest
        rw [render_cons]
        cases t' with
        | word s2 =>
          obtain ⟨hd, tl, hs, -, hdg, -, -⟩ := wfWord_parts s2 ht'
          subst hs
          exact headNotDigit_cons _ _ hdg
        | num neg2 ds2 =>
          cases neg2 with
          | false =>
            rw [hnum ds2] at hns
            exact Bool.noConfusion hns
          | true => exact headNotDigit_cons _ _ (by decide)
        | plus => exact headNotDigit_cons _ _ (by decide)
        | minus => exact headNotDigit_cons _ _ (by decide)
        | star => exact headNotDigit_cons _ _ (by decide)
        | eq => exact headNotDigit_cons _ _ (by decide)
        | semi => exact headNotDigit_cons _ _ (by decide)
        | lb => exact headNotDigit_cons _ _ (by decide)
        | rb => exact headNotDigit_cons _ _ (by decide)

theorem wfRender_cons_intro (t : Token) (ts : List Token) (g : List Char)
    (gs : List (List Char)) (ht : wfToken t = true)
    (hg : g.all isMultispace = true)
    (hsep : ∀ t' r2, ts = t' :: r2 → (!g.isEmpty || !needSep t t') = true)
    (hrest : WfRender ts gs = true) : WfRender (t :: ts) (g :: gs) = true := by
  unfold WfRender at hrest ⊢
  rcases Bool.and_eq_true_iff.mp hrest with ⟨hall, hgaps⟩
  cases ts with
  | nil =>
    simp only [List.all_cons, wfGaps, Bool.and_eq_true]
    exact ⟨⟨ht, rfl⟩, ⟨hg, trivial⟩, hgaps⟩
  | cons t' r2 =>
    simp only [List.all_cons, Bool.and_eq_true] at hall
    simp only [List.all_cons, wfGaps, Bool.and_eq_true]
    exact ⟨⟨ht, hall⟩, ⟨hg, hsep t' r2 rfl⟩, hgaps⟩

theorem needSep_num_sign (ds : List Char) (t' : Token) :
    needSep (.num true ds) t' = needSep (.num false ds) t' := by
  cases t' with
  | word s2 => rfl
  | num neg2 ds2 => cases neg2 <;> rfl
  | plus => rfl
  | minus => rfl
  | star => rfl
  | eq => rfl
  | semi => rfl
  | lb => rfl
  | rb => rfl

/-- Stripping the sign of a negative literal (consumed as a subtraction
operator) leaves a well-formed rendering. -/
theorem wf_sign_strip (ds : List Char) (rest : List Token) (g : List Char)
    (gsr : List (List Char))
    (h : WfRender (.num true ds :: rest) (g :: gsr) = true) :
    WfRender (.num false ds :: rest) (g :: gsr) = true := by
  obtain ⟨ht, hg, hsep, hrest⟩ := wfRender_cons _ _ _ _ h
  refine wfRender_cons_intro _ _ _ _ ?_ ?_ ?_ hrest
  · rw [wfToken] at ht ⊢
    exact ht
  · exact List.all_eq_true.mpr fun x hx => hg x hx
  · intro t' r2 hts
    by_cases hge : g = []
    · have h2 := hsep t' r2 hts hge
      rw [needSep_num_sign ds t'] at h2
      rw [h2]
      simp
    · have h2 : g.isEmpty = false := by
        cases g with
        | nil => exact absurd rfl hge
        | cons a b => rfl
      rw [h2]
      rfl

/-! ## Keyword refinement -/

theorem alpha_not_ws (ch : Char) (h : ch.isAlpha = true) :
    isMultispace ch = false := by
  by_contra hx
  have hw : isMultispace ch = true := by
    revert hx
    cases isMultispace ch <;> simp
  have h2 := ws_not_alpha ch hw
  rw [h] at h2
  exact Bool.noConfusion h2

theorem headNot_of_headNotAlpha (k : Char) (hk : k.isAlpha = true)
    (l : List Char) (h : headNotAlpha l) : headNot k l := by
  intro ch hch
  exact (alpha_ne k ch hk (h ch hch)).symm

theorem preceded_ms0_tag (kw : List Char) (ts : List Token)
    (gs : List (List Char)) (ws : List Char) (p : Pos) (c : Ctx)
    (hwf : WfRender ts gs = true) (hws : allWs ws) :
    preceded multispace0 (tag kw) ⟨ws ++ render ts gs, p⟩ c =
      tag kw ⟨render ts gs, ws.foldl Pos.advance p⟩ c := by
  unfold preceded
  exact pbind_ok _ _ _ _ () _ _
    (by rw [ms0_run,
      skipSpaces_ws_append ws hws _ p (render_headNotWs ts gs hwf)])

theorem keyword_notag_pending (kw ws l : List Char) (p : Pos) (c : Ctx)
    (hws : allWs ws) (hlw : headNotWs l)
    (htl : tagLoop kw ⟨l, ws.foldl Pos.advance p⟩ = none) :
    keyword kw ⟨ws ++ l, p⟩ c =
      (.err ⟨l, ws.foldl Pos.advance p⟩ ErrorKind.Tag, c) := by
  have hpre : preceded multispace0 (tag kw) ⟨ws ++ l, p⟩ c =
      (.err ⟨l, ws.foldl Pos.advance p⟩ ErrorKind.Tag, c) := by
    unfold preceded
    rw [pbind_ok _ _ _ _ _ _ _
      (by rw [ms0_run, skipSpaces_ws_append ws hws l p hlw])]
    exact tag_none _ _ _ htl
  unfold keyword
  rw [hpre]

theorem keyword_peek_alpha (kw : List Char) (i : Input) (rc : Char)
    (rt : List Char) (p2 : Pos) (c : Ctx)
    (hpre : preceded multispace0 (tag kw) i c =
      (.ok ⟨rc :: rt, p2⟩ kw, c))
    (hrc : rc.isAlpha = true) :
    keyword kw i c = (.err i ErrorKind.Tag, c) := by
  have hna : (match (⟨rc :: rt, p2⟩ : Input).rem with
      | [] => false
      | ch :: _ => ch.isAlpha) = true := hrc
  unfold keyword
  rw [hpre]
  dsimp only at hna ⊢
  rw [hna]
  rfl

theorem keyword_ws_pending (kw ws w l : List Char) (p : Pos) (c : Ctx)
    (hws : allWs ws) (hkwne : kw ≠ []) (hkw : headNotWs kw)
    (hw : allWs w) (hpeek : headNotAlpha (w ++ l)) (hlw : headNotWs l) :
    ∃ p2, keyword kw ⟨ws ++ (kw ++ (w ++ l)), p⟩ c = (.ok ⟨l, p2⟩ (), c) := by
  have hpre : preceded multispace0 (tag kw) ⟨ws ++ (kw ++ (w ++ l)), p⟩ c =
      (.ok ⟨w ++ l, kw.foldl Pos.advance (ws.foldl Pos.advance p)⟩ kw,
        c) := by
    unfold preceded
    rw [pbind_ok _ _ _ _ _ _ _
      (by rw [ms0_run, skipSpaces_ws_append ws hws _ p
        (headNotWs_append_left kw _ hkwne hkw)])]
    exact tag_match _ _ _ _ (tagLoop_self kw (w ++ l) _)
  have hna : (match (⟨w ++ l,
      kw.foldl Pos.advance (ws.foldl Pos.advance p)⟩ : Input).rem with
      | [] => false
      | ch :: _ => ch.isAlpha) = false := by
    cases hwl : w ++ l with
    | nil => rfl
    | cons ch t2 => exact hpeek ch (by rw [hwl]; rfl)
  refine ⟨w.foldl Pos.advance (kw.foldl Pos.advance (ws.foldl Pos.advance p)),
    ?_⟩
  unfold keyword
  rw [hpre]
  dsimp only at hna ⊢
  rw [hna]
  simp only [Bool.false_eq_true, if_false]
  rw [skipSpaces_ws_append w hw l _ hlw]

/-- Refinement of the keyword matcher at a non-word leading token: the
tag cannot match (the head character is not alphabetic). -/
theorem keyword_nonword_case (kw : List Char) (hkwne : kw ≠ [])
    (hkwa : ∀ ch ∈ kw, ch.isAlpha = true) (t : Token) (rest : List Token)
    (g : List Char) (gsr : List (List Char)) (ws : List Char) (p : Pos)
    (c : Ctx) (hwf : WfRender (t :: rest) (g :: gsr) = true) (hws : allWs ws)
    (hna : headNotAlpha (tokText t))
    (htok : tokKeyword kw (t :: rest) c = (.err, c)) :
    MRel (ws ++ render (t :: rest) (g :: gsr)).length (t :: rest).length
      (keyword kw ⟨ws ++ render (t :: rest) (g :: gsr), p⟩ c)
      (tokKeyword kw (t :: rest) c) := by
  obtain ⟨ht, -, -, -⟩ := wfRender_cons _ _ _ _ hwf
  cases kw with
  | nil => exact absurd rfl hkwne
  | cons k kt =>
    have hk : k.isAlpha = true := hkwa k (List.mem_cons_self k kt)
    have hhead : headNot k (render (t :: rest) (g :: gsr)) := by
      rw [render_cons]
      exact headNot_append_left _ _ _ (tokText_ne_nil t ht)
        (headNot_of_headNotAlpha k hk _ hna)
    rw [keyword_notag_pending (k :: kt) ws _ p c hws
      (render_headNotWs _ _ hwf) (tagLoop_head_ne k kt _ _ hhead), htok]
    exact prel_err_intro _ _ _ _

theorem keyword_rel (kw : List Char) (hkwne : kw ≠ [])
    (hkwa : ∀ ch ∈ kw, ch.isAlpha = true) (ts : List Token)
    (gs : List (List Char)) (ws : List Char) (p : Pos) (c : Ctx)
    (hwf : WfRender ts gs = true) (hws : allWs ws)
    (hsplit : ∀ s rest, ts = Token.word s :: rest →
      keywordSplit kw s = false) :
    MRel (ws ++ render ts gs).length ts.length
      (keyword kw ⟨ws ++ render ts gs, p⟩ c) (tokKeyword kw ts c) := by
  rcases wfRender_shape ts gs hwf with ⟨h1, h2⟩ | ⟨t, rest, g, gsr, h1, h2⟩
  · subst h1
    subst h2
    have htl : tagLoop kw ⟨render [] [], ws.foldl Pos.advance p⟩ = none := by
      cases kw with
      | nil => exact absurd rfl hkwne
      | cons k kt => rfl
    rw [keyword_notag_pending kw ws _ p c hws (render_headNotWs _ _ hwf) htl]
    exact prel_err_intro _ _ _ _
  · subst h1
    subst h2
    obtain ⟨ht, hg, hsep, hrest⟩ := wfRender_cons _ _ _ _ hwf
    cases t with
    | word s =>
      obtain ⟨hheadA, -, -⟩ := after_headNotIdentish (.word s) rest g gsr
        hg hsep (fun s2 => rfl) (fun ds2 => rfl) hrest
      have hrw : render (Token.word s :: rest) (g :: gsr) =
          s ++ (g ++ render rest gsr) := rfl
      rcases tag_kw_word kw hkwa s (g ++ render rest gsr)
          (ws.foldl Pos.advance p) hheadA (hsplit s rest rfl) with
        ⟨hskw, htl⟩ | ⟨hskw, htl⟩ | ⟨hskw, rc, rt, p2, hrca, htl⟩
      · subst hskw
        have hkwW : headNotWs s := tokText_headNotWs (.word s) ht
        obtain ⟨p3, hkwrun⟩ := keyword_ws_pending s ws g (render rest gsr)
          p c hws hkwne hkwW (allWs_of_all g (List.all_eq_true.mpr hg))
          hheadA (render_headNotWs rest gsr hrest)
        have htok : tokKeyword s (Token.word s :: rest) c =
            (.ok rest (), c) := by
          simp [tokKeyword]
        rw [hrw, hkwrun, htok]
        refine prel_ok_intro _ _ _ _ _ ⟨gsr, p3, rfl, hrest⟩ ?_
        constructor
        · have hsne : s.length ≠ 0 := by
            cases s with
            | nil => exact absurd rfl hkwne
            | cons a b => simp
          simp only [List.length_append]
          omega
        · simp
      · have hhead2 : tagLoop kw
            ⟨render (Token.word s :: rest) (g :: gsr),
              ws.foldl Pos.advance p⟩ = none := by
          rw [hrw]
          exact htl
        have htok : tokKeyword kw (Token.word s :: rest) c =
            (.err, c) := by
          simp [tokKeyword, hskw]
        rw [keyword_notag_pending kw ws _ p c hws
          (render_headNotWs _ _ hwf) hhead2, htok]
        exact prel_err_intro _ _ _ _
      · have hpre : preceded multispace0 (tag kw)
            ⟨ws ++ render (Token.word s :: rest) (g :: gsr), p⟩ c =
            (.ok ⟨rc :: (rt ++ (g ++ render rest gsr)), p2⟩ kw, c) := by
          rw [preceded_ms0_tag kw _ _ ws p c hwf hws, hrw]
          exact tag_match _ _ _ _ htl
        have htok : tokKeyword kw (Token.word s :: rest) c =
            (.err, c) := by
          simp [tokKeyword, hskw]
        rw [keyword_peek_alpha kw _ rc _ p2 c hpre hrca, htok]
        exact prel_err_intro _ _ _ _
    | num neg ds =>
      refine keyword_nonword_case kw hkwne hkwa _ rest g gsr ws p c hwf hws
        ?_ rfl
      obtain ⟨hne, hdig⟩ := wfNum_parts neg ds ht
      cases neg with
      | true => exact headNotAlpha_cons _ _ (by decide)
      | false =>
        cases ds with
        | nil => exact absurd rfl hne
        | cons d dt =>
          exact headNotAlpha_cons _ _
            (digit_not_alpha d (hdig d (List.mem_cons_self d dt)))
    | plus =>
      exact keyword_nonword_case kw hkwne hkwa _ rest g gsr ws p c hwf hws
        (headNotAlpha_cons _ _ (by decide)) rfl
    | minus =>
      exact keyword_nonword_case kw hkwne hkwa _ rest g gsr ws p c hwf hws
        (headNotAlpha_cons _ _ (by decide)) rfl
    | star =>
      exact keyword_nonword_case kw hkwne hkwa _ rest g gsr ws p c hwf hws
        (headNotAlpha_cons _ _ (by decide)) rfl
    | eq =>
      exact keyword_nonword_case kw hkwne hkwa _ rest g gsr ws p c hwf hws
        (headNotAlpha_cons _ _ (by decide)) rfl
    | semi =>
      exact keyword_nonword_case kw hkwne hkwa _ rest g gsr ws p c hwf hws
        (headNotAlpha_cons _ _ (by decide)) rfl
    | lb =>
      exact keyword_nonword_case kw hkwne hkwa _ rest g gsr ws p c hwf hws
        (headNotAlpha_cons _ _ (by decide)) rfl
    | rb =>
      exact keyword_nonword_case kw hkwne hkwa _ rest g gsr ws p c hwf hws
        (headNotAlpha_cons _ _ (by decide)) rfl

/-! ## Identifier refinement -/

theorem headNotAlpha_append_left (a l : List Char) (hne : a ≠ [])
    (ha : headNotAlpha a) : headNotAlpha (a ++ l) := by
  cases a with
  | nil => exact absurd rfl hne
  | cons c t =>
    intro x hx
    injection hx with hx
    exact ha x (by rw [hx]; rfl)

theorem identChunk_nil (l : List Char) (p : Pos) (c : Ctx)
    (hla : headNotAlpha l) (hld : headNotDigit l) (hlu : headNot '_' l) :
    alt2 alphanumeric1 (tag "_".data) ⟨l, p⟩ c =
      (.err ⟨l, p⟩ ErrorKind.Tag, c) := by
  have han : alphanumeric1 ⟨l, p⟩ c =
      (.err ⟨l, p⟩ ErrorKind.AlphaNumeric, c) := by
    refine takeWhile1P_err _ _ _ _ ?_
    show l.takeWhile Char.isAlphanum = []
    cases l with
    | nil => rfl
    | cons ch t2 =>
      have hc : ch.isAlphanum = false := by
        rw [isAlphanum_split, hla ch rfl, hld ch rfl]
        rfl
      simp [List.takeWhile_cons, hc]
  rw [alt2_snd _ _ _ _ _ _ _ han]
  refine tag_none _ _ _ ?_
  show tagLoop ('_' :: []) ⟨l, p⟩ = none
  exact tagLoop_head_ne '_' [] l p hlu

theorem identChunk (s2 l : List Char) (p : Pos) (c : Ctx)
    (hcont : ∀ ch ∈ s2, identContC ch = true)
    (hla : headNotAlpha l) (hld : headNotDigit l) (hlu : headNot '_' l)
    (hne : s2 ≠ []) :
    ∃ a s3 p2,
      alt2 alphanumeric1 (tag "_".data) ⟨s2 ++ l, p⟩ c =
        (.ok ⟨s3 ++ l, p2⟩ a, c) ∧ s3.length < s2.length ∧
      ∀ ch ∈ s3, identContC ch = true := by
  cases s2 with
  | nil => exact absurd rfl hne
  | cons ch s2' =>
    by_cases hch : ch.isAlphanum = true
    · have hAdef : (ch :: s2').takeWhile Char.isAlphanum =
          ch :: s2'.takeWhile Char.isAlphanum := by
        simp [List.takeWhile_cons, hch]
      have hA_all : ∀ x ∈ (ch :: s2').takeWhile Char.isAlphanum,
          Char.isAlphanum x = true := fun x hx => List.mem_takeWhile_imp hx
      have hR_head : ∀ x,
          ((ch :: s2').dropWhile Char.isAlphanum ++ l).head? = some x →
          Char.isAlphanum x = false := by
        intro x hx
        cases hR : (ch :: s2').dropWhile Char.isAlphanum with
        | nil =>
          rw [hR] at hx
          simp only [List.nil_append] at hx
          rw [isAlphanum_split, hla x hx, hld x hx]
          rfl
        | cons r0 rt =>
          rw [hR] at hx
          injection hx with hx
          rw [← hx]
          exact dropWhile_head_not Char.isAlphanum (ch :: s2') r0
            (by rw [hR]; rfl)
      have hsplit : (ch :: s2') ++ l =
          (ch :: s2').takeWhile Char.isAlphanum ++
            ((ch :: s2').dropWhile Char.isAlphanum ++ l) := by
        rw [← List.append_assoc, List.takeWhile_append_dropWhile]
      obtain ⟨htw, hdw⟩ := takeWhile_all_append Char.isAlphanum
        ((ch :: s2').takeWhile Char.isAlphanum)
        ((ch :: s2').dropWhile Char.isAlphanum ++ l) hA_all hR_head
      have htw2 : ((ch :: s2') ++ l).takeWhile Char.isAlphanum =
          (ch :: s2').takeWhile Char.isAlphanum := by
        conv_lhs => rw [hsplit]
        exact htw
      have hdw2 : ((ch :: s2') ++ l).dropWhile Char.isAlphanum =
          (ch :: s2').dropWhile Char.isAlphanum ++ l := by
        conv_lhs => rw [hsplit]
        exact hdw
      obtain ⟨p2, hok⟩ := takeWhile1P_ok Char.isAlphanum
        ErrorKind.AlphaNumeric ⟨(ch :: s2') ++ l, p⟩ c
        (by
          show ((ch :: s2') ++ l).takeWhile Char.isAlphanum ≠ []
          rw [htw2, hAdef]
          simp)
      rw [show (⟨(ch :: s2') ++ l, p⟩ : Input).rem = (ch :: s2') ++ l
        from rfl] at hok
      rw [htw2, hdw2] at hok
      have hlen := congrArg List.length
        (List.takeWhile_append_dropWhile Char.isAlphanum (ch :: s2'))
      simp only [List.length_append] at hlen
      have hAlen : ((ch :: s2').takeWhile Char.isAlphanum).length =
          (s2'.takeWhile Char.isAlphanum).length + 1 := by
        rw [hAdef]
        rfl
      refine ⟨(ch :: s2').takeWhile Char.isAlphanum,
        (ch :: s2').dropWhile Char.isAlphanum, p2,
        alt2_fst _ (tag "_".data) _ _ _ _ _ hok, ?_, ?_⟩
      · simp only [List.length_cons] at hlen ⊢
        omega
      · intro x hx
        exact hcont x ((List.dropWhile_sublist _).subset hx)
    · have hmem : identContC ch = true := hcont ch (List.mem_cons_self _ _)
      have hchu : ch = '_' := by
        unfold identContC at hmem
        rcases Bool.or_eq_true_iff.mp hmem with h1 | h1
        · exact absurd h1 hch
        · simpa using h1
      subst hchu
      have han : alphanumeric1 ⟨('_' :: s2') ++ l, p⟩ c =
          (.err ⟨('_' :: s2') ++ l, p⟩ ErrorKind.AlphaNumeric, c) := by
        refine takeWhile1P_err _ _ _ _ ?_
        show (('_' :: s2') ++ l).takeWhile Char.isAlphanum = []
        show ('_' :: (s2' ++ l)).takeWhile Char.isAlphanum = []
        simp [List.takeWhile_cons]
      refine ⟨"_".data, s2', Pos.advance p '_', ?_, by simp, fun x hx =>
        hcont x (List.mem_cons_of_mem _ hx)⟩
      rw [alt2_snd _ _ _ _ _ _ _ han]
      refine tag_match _ _ _ _ ?_
      show tagLoop ('_' :: []) ⟨'_' :: (s2' ++ l), p⟩ = _
      exact tagLoop_self ('_' :: []) (s2' ++ l) p

theorem identMunchLoop (l : List Char) (hla : headNotAlpha l)
    (hld : headNotDigit l) (hlu : headNot '_' l) :
    ∀ (fuel : Nat) (s2 : List Char), s2.length < fuel →
      (∀ ch ∈ s2, identContC ch = true) →
      ∀ (acc : List (List Char)) (p : Pos) (c : Ctx),
      ∃ vs p2,
        manyLoop ErrorKind.Many0 (alt2 alphanumeric1 (tag "_".data)) fuel
          acc ⟨s2 ++ l, p⟩ c = (.ok ⟨l, p2⟩ vs, c) := by
  intro fuel
  induction fuel with
  | zero =>
    intro s2 h
    omega
  | succ fu ih =>
    intro s2 hlen hcont acc p c
    by_cases hne : s2 = []
    · subst hne
      refine ⟨acc, p, ?_⟩
      show manyLoop ErrorKind.Many0 (alt2 alphanumeric1 (tag "_".data))
        (fu + 1) acc ⟨l, p⟩ c = (.ok ⟨l, p⟩ acc, c)
      rw [manyLoop]
      dsimp only
      rw [identChunk_nil l p c hla hld hlu]
    · obtain ⟨a, s3, p2, halt, hlt, hcont3⟩ :=
        identChunk s2 l p c hcont hla hld hlu hne
      obtain ⟨vs, p3, hloop⟩ := ih s3 (by omega) hcont3 (acc ++ [a]) p2 c
      refine ⟨vs, p3, ?_⟩
      rw [manyLoop]
      dsimp only
      rw [halt]
      dsimp only
      rw [if_neg (by simp only [List.length_append]; omega)]
      exact hloop

theorem identFirst (hd : Char) (tl l : List Char) (p : Pos) (c : Ctx)
    (hid : identStartC hd = true)
    (hcont : ∀ ch ∈ hd :: tl, identContC ch = true)
    (hla : headNotAlpha l) (hlu : headNot '_' l) :
    ∃ a s3 p2,
      alt2 alpha1 (tag "_".data) ⟨(hd :: tl) ++ l, p⟩ c =
        (.ok ⟨s3 ++ l, p2⟩ a, c) ∧ s3.length < (hd :: tl).length ∧
      ∀ ch ∈ s3, identContC ch = true := by
  rcases identStart_cases hd hid with hA | hU
  · have hAdef : (hd :: tl).takeWhile Char.isAlpha =
        hd :: tl.takeWhile Char.isAlpha := by
      simp [List.takeWhile_cons, hA]
    have hA_all : ∀ x ∈ (hd :: tl).takeWhile Char.isAlpha,
        Char.isAlpha x = true := fun x hx => List.mem_takeWhile_imp hx
    have hR_head : ∀ x,
        ((hd :: tl).dropWhile Char.isAlpha ++ l).head? = some x →
        Char.isAlpha x = false := by
      intro x hx
      cases hR : (hd :: tl).dropWhile Char.isAlpha with
      | nil =>
        rw [hR] at hx
        simp only [List.nil_append] at hx
        exact hla x hx
      | cons r0 rt =>
        rw [hR] at hx
        injection hx with hx
        rw [← hx]
        exact dropWhile_head_not Char.isAlpha (hd :: tl) r0
          (by rw [hR]; rfl)
    have hsplit : (hd :: tl) ++ l =
        (hd :: tl).takeWhile Char.isAlpha ++
          ((hd :: tl).dropWhile Char.isAlpha ++ l) := by
      rw [← List.append_assoc, List.takeWhile_append_dropWhile]
    obtain ⟨htw, hdw⟩ := takeWhile_all_append Char.isAlpha
      ((hd :: tl).takeWhile Char.isAlpha)
      ((hd :: tl).dropWhile Char.isAlpha ++ l) hA_all hR_head
    have htw2 : ((hd :: tl) ++ l).takeWhile Char.isAlpha =
        (hd :: tl).takeWhile Char.isAlpha := by
      conv_lhs => rw [hsplit]
      exact htw
    have hdw2 : ((hd :: tl) ++ l).dropWhile Char.isAlpha =
        (hd :: tl).dropWhile Char.isAlpha ++ l := by
      conv_lhs => rw [hsplit]
      exact hdw
    obtain ⟨p2, hok⟩ := takeWhile1P_ok Char.isAlpha ErrorKind.Alpha
      ⟨(hd :: tl) ++ l, p⟩ c
      (by
        show ((hd :: tl) ++ l).takeWhile Char.isAlpha ≠ []
        rw [htw2, hAdef]
        simp)
    rw [show (⟨(hd :: tl) ++ l, p⟩ : Input).rem = (hd :: tl) ++ l
      from rfl] at hok
    rw [htw2, hdw2] at hok
    have hlen := congrArg List.length
      (List.takeWhile_append_dropWhile Char.isAlpha (hd :: tl))
    simp only [List.length_append, List.length_cons] at hlen
    have hAlen : ((hd :: tl).takeWhile Char.isAlpha).length =
        (tl.takeWhile Char.isAlpha).length + 1 := by
      rw [hAdef]
      rfl
    refine ⟨(hd :: tl).takeWhile Char.isAlpha,
      (hd :: tl).dropWhile Char.isAlpha, p2,
      alt2_fst _ (tag "_".data) _ _ _ _ _ hok, ?_, ?_⟩
    · simp only [List.length_cons]
      omega
    · intro x hx
      exact hcont x ((List.dropWhile_sublist _).subset hx)
  · subst hU
    have han : alpha1 ⟨('_' :: tl) ++ l, p⟩ c =
        (.err ⟨('_' :: tl) ++ l, p⟩ ErrorKind.Alpha, c) := by
      refine takeWhile1P_err _ _ _ _ ?_
      show ('_' :: (tl ++ l)).takeWhile Char.isAlpha = []
      simp [List.takeWhile_cons]
    refine ⟨"_".data, tl, Pos.advance p '_', ?_, by simp, fun x hx =>
      hcont x (List.mem_cons_of_mem _ hx)⟩
    rw [alt2_snd _ _ _ _ _ _ _ han]
    refine tag_match _ _ _ _ ?_
    show tagLoop ('_' :: []) ⟨'_' :: (tl ++ l), p⟩ = _
    exact tagLoop_self ('_' :: []) (tl ++ l) p

theorem ident_word_run (hd : Char) (tl ws g l : List Char) (p : Pos)
    (c : Ctx) (hws : allWs ws) (hid : identStartC hd = true)
    (hcont : ∀ ch ∈ hd :: tl, identContC ch = true) (hg : allWs g)
    (hla : headNotAlpha (g ++ l)) (hld : headNotDigit (g ++ l))
    (hlu : headNot '_' (g ++ l)) (hlw : headNotWs l) :
    ∃ p2, ident ⟨ws ++ ((hd :: tl) ++ (g ++ l)), p⟩ c =
      (.ok ⟨l, p2⟩ (String.mk (hd :: tl)), c) := by
  obtain ⟨a1, s3, pA, hfirst, hlt3, hcont3⟩ :=
    identFirst hd tl (g ++ l) (ws.foldl Pos.advance p) c hid hcont hla hlu
  obtain ⟨vs, pB, hloop⟩ := identMunchLoop (g ++ l) hla hld hlu
    ((s3 ++ (g ++ l)).length + 1) s3
    (by simp only [List.length_append]; omega) hcont3 [] pA c
  have hmany : many0 (alt2 alphanumeric1 (tag "_".data))
      ⟨s3 ++ (g ++ l), pA⟩ c = (.ok ⟨g ++ l, pB⟩ vs, c) := hloop
  have hpair : pairP (alt2 alpha1 (tag "_".data))
      (many0 (alt2 alphanumeric1 (tag "_".data)))
      ⟨(hd :: tl) ++ (g ++ l), ws.foldl Pos.advance p⟩ c =
      (.ok ⟨g ++ l, pB⟩ (a1, vs), c) := by
    unfold pairP
    rw [pbind_ok _ _ _ _ _ _ _ hfirst]
    exact pmap_ok _ _ _ _ _ _ _ hmany
  have hrec : recognize (pairP (alt2 alpha1 (tag "_".data))
      (many0 (alt2 alphanumeric1 (tag "_".data))))
      ⟨(hd :: tl) ++ (g ++ l), ws.foldl Pos.advance p⟩ c =
      (.ok ⟨g ++ l, pB⟩ (hd :: tl), c) := by
    unfold recognize
    rw [hpair]
    dsimp only
    rw [take_append_self_sub (hd :: tl) (g ++ l)]
  have hms1 : multispace0 ⟨ws ++ ((hd :: tl) ++ (g ++ l)), p⟩ c =
      (.ok ⟨(hd :: tl) ++ (g ++ l), ws.foldl Pos.advance p⟩ (), c) := by
    rw [ms0_run, skipSpaces_ws_append ws hws ((hd :: tl) ++ (g ++ l)) p
      (headNotWs_cons _ _ (identStart_not_ws hd hid))]
  have hsi : space_insignificant (recognize (pairP (alt2 alpha1
      (tag "_".data)) (many0 (alt2 alphanumeric1 (tag "_".data)))))
      ⟨ws ++ ((hd :: tl) ++ (g ++ l)), p⟩ c =
      (.ok ⟨l, g.foldl Pos.advance pB⟩ (hd :: tl), c) := by
    unfold space_insignificant delimited
    rw [pbind_ok _ _ _ _ _ _ _ hms1]
    rw [pbind_ok _ _ _ _ _ _ _ hrec]
    exact pmap_ok _ _ _ _ _ _ _
      (by rw [ms0_run, skipSpaces_ws_append g hg l _ hlw])
  refine ⟨g.foldl Pos.advance pB, ?_⟩
  unfold ident
  rw [hsi]

theorem ident_err_run (ws l : List Char) (p : Pos) (c : Ctx)
    (hws : allWs ws) (hlw : headNotWs l) (hla : headNotAlpha l)
    (hlu : headNot '_' l) :
    ident ⟨ws ++ l, p⟩ c =
      (.err ⟨l, ws.foldl Pos.advance p⟩ ErrorKind.Tag, c) := by
  have han : alpha1 ⟨l, ws.foldl Pos.advance p⟩ c =
      (.err ⟨l, ws.foldl Pos.advance p⟩ ErrorKind.Alpha, c) := by
    refine takeWhile1P_err _ _ _ _ ?_
    show l.takeWhile Char.isAlpha = []
    cases l with
    | nil => rfl
    | cons ch t2 => simp [List.takeWhile_cons, hla ch rfl]
  have halt : alt2 alpha1 (tag "_".data) ⟨l, ws.foldl Pos.advance p⟩ c =
      (.err ⟨l, ws.foldl Pos.advance p⟩ ErrorKind.Tag, c) := by
    rw [alt2_snd _ _ _ _ _ _ _ han]
    refine tag_none _ _ _ ?_
    show tagLoop ('_' :: []) ⟨l, _⟩ = none
    exact tagLoop_head_ne '_' [] l _ hlu
  have hpair : pairP (alt2 alpha1 (tag "_".data))
      (many0 (alt2 alphanumeric1 (tag "_".data)))
      ⟨l, ws.foldl Pos.advance p⟩ c =
      (.err ⟨l, ws.foldl Pos.advance p⟩ ErrorKind.Tag, c) := by
    unfold pairP
    exact pbind_err _ _ _ _ _ _ _ halt
  have hrec : recognize (pairP (alt2 alpha1 (tag "_".data))
      (many0 (alt2 alphanumeric1 (tag "_".data))))
      ⟨l, ws.foldl Pos.advance p⟩ c =
      (.err ⟨l, ws.foldl Pos.advance p⟩ ErrorKind.Tag, c) := by
    unfold recognize
    rw [hpair]
  have hsi : space_insignificant (recognize (pairP (alt2 alpha1
      (tag "_".data)) (many0 (alt2 alphanumeric1 (tag "_".data)))))
      ⟨ws ++ l, p⟩ c =
      (.err ⟨l, ws.foldl Pos.advance p⟩ ErrorKind.Tag, c) := by
    unfold space_insignificant delimited
    rw [pbind_ok _ _ _ _ _ _ _
      (by rw [ms0_run, skipSpaces_ws_append ws hws l p hlw])]
    exact pbind_err _ _ _ _ _ _ _ hrec
  unfold ident
  rw [hsi]

theorem ident_nonword_case (t : Token) (rest : List Token) (g : List Char)
    (gsr : List (List Char)) (ws : List Char) (p : Pos) (c : Ctx)
    (hwf : WfRender (t :: rest) (g :: gsr) = true) (hws : allWs ws)
    (hna : headNotAlpha (tokText t)) (hnu : headNot '_' (tokText t))
    (htok : tokIdent (t :: rest) c = (.err, c)) :
    MRel (ws ++ render (t :: rest) (g :: gsr)).length (t :: rest).length
      (ident ⟨ws ++ render (t :: rest) (g :: gsr), p⟩ c)
      (tokIdent (t :: rest) c) := by
  obtain ⟨ht, -, -, -⟩ := wfRender_cons _ _ _ _ hwf
  have hlaR : headNotAlpha (render (t :: rest) (g :: gsr)) := by
    rw [render_cons]
    exact headNotAlpha_append_left _ _ (tokText_ne_nil t ht) hna
  have hluR : headNot '_' (render (t :: rest) (g :: gsr)) := by
    rw [render_cons]
    exact headNot_append_left _ _ _ (tokText_ne_nil t ht) hnu
  rw [ident_err_run ws _ p c hws (render_headNotWs _ _ hwf) hlaR hluR, htok]
  exact prel_err_intro _ _ _ _

theorem ident_rel (ts : List Token) (gs : List (List Char)) (ws : List Char)
    (p : Pos) (c : Ctx) (hwf : WfRender ts gs = true) (hws : allWs ws) :
    MRel (ws ++ render ts gs).length ts.length
      (ident ⟨ws ++ render ts gs, p⟩ c) (tokIdent ts c) := by
  rcases wfRender_shape ts gs hwf with ⟨h1, h2⟩ | ⟨t, rest, g, gsr, h1, h2⟩
  · subst h1
    subst h2
    rw [ident_err_run ws _ p c hws (render_headNotWs _ _ hwf)
      (fun ch h => absurd h (by simp [render]))
      (fun ch h => absurd h (by simp [render]))]
    exact prel_err_intro _ _ _ _
  · subst h1
    subst h2
    obtain ⟨ht, hg, hsep, hrest⟩ := wfRender_cons _ _ _ _ hwf
    cases t with
    | word s =>
      obtain ⟨hd, tl, hs, hid, hdg, hws2, hcont, -, -, -⟩ :=
        wfWord_parts s ht
      subst hs
      obtain ⟨hA, hD, hU⟩ := after_headNotIdentish (.word (hd :: tl)) rest
        g gsr hg hsep (fun s2 => rfl) (fun ds2 => rfl) hrest
      obtain ⟨p2, hrun⟩ := ident_word_run hd tl ws g (render rest gsr) p c
        hws hid hcont hg hA hD hU (render_headNotWs rest gsr hrest)
      have hrw : render (Token.word (hd :: tl) :: rest) (g :: gsr) =
          (hd :: tl) ++ (g ++ render rest gsr) := rfl
      have htok : tokIdent (Token.word (hd :: tl) :: rest) c =
          (.ok rest (String.mk (hd :: tl)), c) := rfl
      rw [hrw, hrun, htok]
      refine prel_ok_intro _ _ _ _ _ ⟨gsr, p2, rfl, hrest⟩ ?_
      constructor
      · simp only [List.length_append, List.length_cons]
        omega
      · simp
    | num neg ds =>
      obtain ⟨hne, hdig⟩ := wfNum_parts neg ds ht
      refine ident_nonword_case _ rest g gsr ws p c hwf hws ?_ ?_ rfl
      · cases neg with
        | true => exact headNotAlpha_cons _ _ (by decide)
        | false =>
          cases ds with
          | nil => exact absurd rfl hne
          | cons d dt =>
            exact headNotAlpha_cons _ _
              (digit_not_alpha d (hdig d (List.mem_cons_self d dt)))
      · cases neg with
        | true => exact headNot_cons _ _ _ (by decide)
        | false =>
          cases ds with
          | nil => exact absurd rfl hne
          | cons d dt =>
            exact headNot_cons _ _ _
              (digit_ne d '_' (hdig d (List.mem_cons_self d dt)) (by decide))
    | plus =>
      exact ident_nonword_case _ rest g gsr ws p c hwf hws
        (headNotAlpha_cons _ _ (by decide)) (headNot_cons _ _ _ (by decide))
        rfl
    | minus =>
      exact ident_nonword_case _ rest g gsr ws p c hwf hws
        (headNotAlpha_cons _ _ (by decide)) (headNot_cons _ _ _ (by decide))
        rfl
    | star =>
      exact ident_nonword_case _ rest g gsr ws p c hwf hws
        (headNotAlpha_cons _ _ (by decide)) (headNot_cons _ _ _ (by decide))
        rfl
    | eq =>
      exact ident_nonword_case _ rest g gsr ws p c hwf hws
        (headNotAlpha_cons _ _ (by decide)) (headNot_cons _ _ _ (by decide))
        rfl
    | semi =>
      exact ident_nonword_case _ rest g gsr ws p c hwf hws
        (headNotAlpha_cons _ _ (by decide)) (headNot_cons _ _ _ (by decide))
        rfl
    | lb =>
      exact ident_nonword_case _ rest g gsr ws p c hwf hws
        (headNotAlpha_cons _ _ (by decide)) (headNot_cons _ _ _ (by decide))
        rfl
    | rb =>
      exact ident_nonword_case _ rest g gsr ws p c hwf hws
        (headNotAlpha_cons _ _ (by decide)) (headNot_cons _ _ _ (by decide))
        rfl

/-! ## Integer refinement -/

theorem headNotDigit_append_left (a l : List Char) (hne : a ≠ [])
    (ha : headNotDigit a) : headNotDigit (a ++ l) := by
  cases a with
  | nil => exact absurd rfl hne
  | cons c t =>
    intro x hx
    injection hx with hx
    exact ha x (by rw [hx]; rfl)

theorem integer_ws (ws X : List Char) (p : Pos) (c : Ctx) (hws : allWs ws)
    (hX : headNotWs X) :
    integer ⟨ws ++ X, p⟩ c = integer ⟨X, ws.foldl Pos.advance p⟩ c := by
  have heq1 : integer ⟨ws ++ X, p⟩ c =
      integerCore (skipSpaces (ws ++ X) p) c := rfl
  have heq2 : integer ⟨X, ws.foldl Pos.advance p⟩ c =
      integerCore (skipSpaces X (ws.foldl Pos.advance p)) c := rfl
  rw [heq1, heq2, skipSpaces_ws_append ws hws X p hX,
    skipSpaces_no_ws X _ hX]

theorem integer_run_pos (ds w l : List Char) (p : Pos) (c : Ctx)
    (hne : ds ≠ []) (hdig : ∀ ch ∈ ds, ch.isDigit = true) (hw : allWs w)
    (hlw : headNotWs l) (hld : headNotDigit (w ++ l)) :
    ∃ p2, integer ⟨ds ++ (w ++ l), p⟩ c =
      (match parseI32 ds with
       | some v => (.ok ⟨l, p2⟩ (ExprKind.integer v), c)
       | none => (.panic, c)) := by
  cases ds with
  | nil => exact absurd rfl hne
  | cons d ds2 =>
    have hd : d.isDigit = true := hdig d (List.mem_cons_self d ds2)
    have hA : headNotWs ((d :: ds2) ++ (w ++ l)) :=
      headNotWs_cons _ _ (digit_not_ws d hd)
    have heq : integer ⟨(d :: ds2) ++ (w ++ l), p⟩ c =
        integerCore (skipSpaces ((d :: ds2) ++ (w ++ l)) p) c := rfl
    have htagl : tagLoop "-".data ⟨(d :: ds2) ++ (w ++ l), p⟩ = none := by
      show tagLoop ('-' :: []) ⟨d :: (ds2 ++ (w ++ l)), p⟩ = none
      exact tagLoop_head_ne '-' [] _ p
        (headNot_cons _ _ _ (digit_ne d '-' hd (by decide)))
    have hopt : opt (tag "-".data) ⟨(d :: ds2) ++ (w ++ l), p⟩ c =
        (.ok ⟨(d :: ds2) ++ (w ++ l), p⟩ none, c) :=
      opt_none _ _ _ _ _ _ (tag_none _ _ _ htagl)
    obtain ⟨htw1, htw2⟩ := takeWhile_all_append Char.isDigit (d :: ds2)
      (w ++ l) hdig hld
    obtain ⟨p2, hd1⟩ := digit1_ok ⟨(d :: ds2) ++ (w ++ l), p⟩ c
      (by rw [show (⟨(d :: ds2) ++ (w ++ l), p⟩ : Input).rem =
          (d :: ds2) ++ (w ++ l) from rfl, htw1]; simp)
    rw [show (⟨(d :: ds2) ++ (w ++ l), p⟩ : Input).rem =
        (d :: ds2) ++ (w ++ l) from rfl, htw1, htw2] at hd1
    have hpair : pairP (opt (tag "-".data)) digit1
        ⟨(d :: ds2) ++ (w ++ l), p⟩ c =
        (.ok ⟨w ++ l, p2⟩ ((none : Option (List Char)), d :: ds2), c) := by
      unfold pairP
      rw [pbind_ok _ _ _ _ _ _ _ hopt]
      exact pmap_ok _ _ _ _ _ _ _ hd1
    have hrec : recognize (pairP (opt (tag "-".data)) digit1)
        ⟨(d :: ds2) ++ (w ++ l), p⟩ c =
        (.ok ⟨w ++ l, p2⟩ (d :: ds2), c) := by
      unfold recognize
      rw [hpair]
      dsimp only
      rw [take_append_self_sub (d :: ds2) (w ++ l)]
    refine ⟨w.foldl Pos.advance p2, ?_⟩
    rw [heq, skipSpaces_no_ws _ _ hA]
    unfold integerCore
    rw [pbind_ok _ _ _ _ _ _ _ hrec]
    rw [pmap_ok _ _ _ _ _ _ _
      (by rw [ms0_run, skipSpaces_ws_append w hw l p2 hlw])]

theorem integer_run_neg (ds w l : List Char) (p : Pos) (c : Ctx)
    (hne : ds ≠ []) (hdig : ∀ ch ∈ ds, ch.isDigit = true) (hw : allWs w)
    (hlw : headNotWs l) (hld : headNotDigit (w ++ l)) :
    ∃ p2, integer ⟨('-' :: ds) ++ (w ++ l), p⟩ c =
      (match parseI32 ('-' :: ds) with
       | some v => (.ok ⟨l, p2⟩ (ExprKind.integer v), c)
       | none => (.panic, c)) := by
  cases ds with
  | nil => exact absurd rfl hne
  | cons d ds2 =>
    have hd : d.isDigit = true := hdig d (List.mem_cons_self d ds2)
    have hA : headNotWs (('-' :: (d :: ds2)) ++ (w ++ l)) :=
      headNotWs_cons _ _ (by decide)
    have heq : integer ⟨('-' :: (d :: ds2)) ++ (w ++ l), p⟩ c =
        integerCore (skipSpaces (('-' :: (d :: ds2)) ++ (w ++ l)) p) c := rfl
    have htagl : tagLoop "-".data ⟨('-' :: (d :: ds2)) ++ (w ++ l), p⟩ =
        some ⟨(d :: ds2) ++ (w ++ l), ("-".data).foldl Pos.advance p⟩ := by
      show tagLoop ('-' :: []) ⟨('-' :: []) ++ ((d :: ds2) ++ (w ++ l)), p⟩
        = _
      exact tagLoop_self ('-' :: []) ((d :: ds2) ++ (w ++ l)) p
    have hopt : opt (tag "-".data) ⟨('-' :: (d :: ds2)) ++ (w ++ l), p⟩ c =
        (.ok ⟨(d :: ds2) ++ (w ++ l), ("-".data).foldl Pos.advance p⟩
          (some "-".data), c) :=
      opt_some _ _ _ _ _ _ (tag_match _ _ _ _ htagl)
    obtain ⟨htw1, htw2⟩ := takeWhile_all_append Char.isDigit (d :: ds2)
      (w ++ l) hdig hld
    obtain ⟨p2, hd1⟩ := digit1_ok
      ⟨(d :: ds2) ++ (w ++ l), ("-".data).foldl Pos.advance p⟩ c
      (by rw [show (⟨(d :: ds2) ++ (w ++ l),
          ("-".data).foldl Pos.advance p⟩ : Input).rem =
          (d :: ds2) ++ (w ++ l) from rfl, htw1]; simp)
    rw [show (⟨(d :: ds2) ++ (w ++ l),
        ("-".data).foldl Pos.advance p⟩ : Input).rem =
        (d :: ds2) ++ (w ++ l) from rfl, htw1, htw2] at hd1
    have hpair : pairP (opt (tag "-".data)) digit1
        ⟨('-' :: (d :: ds2)) ++ (w ++ l), p⟩ c =
        (.ok ⟨w ++ l, p2⟩ (some "-".data, d :: ds2), c) := by
      unfold pairP
      rw [pbind_ok _ _ _ _ _ _ _ hopt]
      exact pmap_ok _ _ _ _ _ _ _ hd1
    have hrec : recognize (pairP (opt (tag "-".data)) digit1)
        ⟨('-' :: (d :: ds2)) ++ (w ++ l), p⟩ c =
        (.ok ⟨w ++ l, p2⟩ ('-' :: (d :: ds2)), c) := by
      unfold recognize
      rw [hpair]
      dsimp only
      rw [take_append_self_sub ('-' :: (d :: ds2)) (w ++ l)]
    refine ⟨w.foldl Pos.advance p2, ?_⟩
    rw [heq, skipSpaces_no_ws _ _ hA]
    unfold integerCore
    rw [pbind_ok _ _ _ _ _ _ _ hrec]
    rw [pmap_ok _ _ _ _ _ _ _
      (by rw [ms0_run, skipSpaces_ws_append w hw l p2 hlw])]

theorem integer_err_minus (m : List Char) (p : Pos) (c : Ctx)
    (hmd : headNotDigit m) :
    ∃ ie, integer ⟨'-' :: m, p⟩ c = (.err ie ErrorKind.Digit, c) := by
  have heq : integer ⟨'-' :: m, p⟩ c =
      integerCore (skipSpaces ('-' :: m) p) c := rfl
  have hA : headNotWs ('-' :: m) := headNotWs_cons _ _ (by decide)
  have htagl : tagLoop "-".data ⟨'-' :: m, p⟩ =
      some ⟨m, ("-".data).foldl Pos.advance p⟩ := by
    show tagLoop ('-' :: []) ⟨('-' :: []) ++ m, p⟩ = _
    exact tagLoop_self ('-' :: []) m p
  have hopt : opt (tag "-".data) ⟨'-' :: m, p⟩ c =
      (.ok ⟨m, ("-".data).foldl Pos.advance p⟩ (some "-".data), c) :=
    opt_some _ _ _ _ _ _ (tag_match _ _ _ _ htagl)
  have hd1 : digit1 ⟨m, ("-".data).foldl Pos.advance p⟩ c =
      (.err ⟨m, ("-".data).foldl Pos.advance p⟩ ErrorKind.Digit, c) := by
    refine digit1_err _ _ ?_
    show m.takeWhile Char.isDigit = []
    cases m with
    | nil => rfl
    | cons ch t2 => simp [List.takeWhile_cons, hmd ch rfl]
  have hpair : pairP (opt (tag "-".data)) digit1 ⟨'-' :: m, p⟩ c =
      (.err ⟨m, ("-".data).foldl Pos.advance p⟩ ErrorKind.Digit, c) := by
    unfold pairP
    rw [pbind_ok _ _ _ _ _ _ _ hopt]
    exact pmap_err _ _ _ _ _ _ _ hd1
  have hrec : recognize (pairP (opt (tag "-".data)) digit1)
      ⟨'-' :: m, p⟩ c =
      (.err ⟨m, ("-".data).foldl Pos.advance p⟩ ErrorKind.Digit, c) := by
    unfold recognize
    rw [hpair]
  refine ⟨⟨m, ("-".data).foldl Pos.advance p⟩, ?_⟩
  rw [heq, skipSpaces_no_ws _ _ hA]
  unfold integerCore
  rw [pbind_err _ _ _ _ _ _ _ hrec]

theorem integer_nonnum_case (L : Nat) (t : Token) (rest : List Token)
    (g : List Char) (gsr : List (List Char)) (pp : Pos) (c : Ctx)
    (hwf : WfRender (t :: rest) (g :: gsr) = true)
    (hnd : headNotDigit (tokText t)) (hnm : headNot '-' (tokText t))
    (htok : tokInteger (t :: rest) c = (.err, c)) :
    MRel L (t :: rest).length
      (integer ⟨render (t :: rest) (g :: gsr), pp⟩ c)
      (tokInteger (t :: rest) c) := by
  obtain ⟨ht, -, -, -⟩ := wfRender_cons _ _ _ _ hwf
  have hldR : headNotDigit (render (t :: rest) (g :: gsr)) := by
    rw [render_cons]
    exact headNotDigit_append_left _ _ (tokText_ne_nil t ht) hnd
  have hlmR : headNot '-' (render (t :: rest) (g :: gsr)) := by
    rw [render_cons]
    exact headNot_append_left _ _ _ (tokText_ne_nil t ht) hnm
  obtain ⟨ie, herr⟩ := integer_err_nondigit (render (t :: rest) (g :: gsr))
    pp c (render_headNotWs _ _ hwf) hldR hlmR
  rw [herr, htok]
  exact prel_err_intro _ _ _ _

theorem integer_rel (ts : List Token) (gs : List (List Char))
    (ws : List Char) (p : Pos) (c : Ctx) (hwf : WfRender ts gs = true)
    (hws : allWs ws) :
    MRel (ws ++ render ts gs).length ts.length
      (integer ⟨ws ++ render ts gs, p⟩ c) (tokInteger ts c) := by
  rw [integer_ws ws (render ts gs) p c hws (render_headNotWs ts gs hwf)]
  rcases wfRender_shape ts gs hwf with ⟨h1, h2⟩ | ⟨t, rest, g, gsr, h1, h2⟩
  · subst h1
    subst h2
    obtain ⟨ie, herr⟩ := integer_err_nondigit (render [] []) _ c
      (render_headNotWs [] [] hwf)
      (fun ch h => absurd h (by simp [render]))
      (fun ch h => absurd h (by simp [render]))
    have htok : tokInteger ([] : List Token) c = (.err, c) := rfl
    rw [herr, htok]
    exact prel_err_intro _ _ _ _
  · subst h1
    subst h2
    obtain ⟨ht, hg, hsep, hrest⟩ := wfRender_cons _ _ _ _ hwf
    cases t with
    | num neg ds =>
      obtain ⟨hne, hdig⟩ := wfNum_parts neg ds ht
      have hld : headNotDigit (g ++ render rest gsr) :=
        after_headNotDigit (.num neg ds) rest g gsr hg hsep
          (fun ds2 => rfl) hrest
      cases neg with
      | false =>
        obtain ⟨p2, hrun⟩ := integer_run_pos ds g (render rest gsr) _ c
          hne hdig hg (render_headNotWs rest gsr hrest) hld
        have hrw : render (Token.num false ds :: rest) (g :: gsr) =
            ds ++ (g ++ render rest gsr) := rfl
        have htok : tokInteger (Token.num false ds :: rest) c =
            (match parseI32 ds with
             | some v => (TRes.ok rest (ExprKind.integer v), c)
             | none => (TRes.panic, c)) := rfl
        rw [hrw, hrun, htok]
        cases hv : parseI32 ds with
        | some v =>
          simp only [hv]
          refine prel_ok_intro _ _ _ _ _ ⟨gsr, p2, rfl, hrest⟩ ?_
          have hdsl : 0 < ds.length := List.length_pos.mpr hne
          constructor
          · simp only [List.length_append]
            omega
          · simp
        | none =>
          simp only [hv]
          exact prel_panic_intro _ _
      | true =>
        obtain ⟨p2, hrun⟩ := integer_run_neg ds g (render rest gsr) _ c
          hne hdig hg (render_headNotWs rest gsr hrest) hld
        have hrw : render (Token.num true ds :: rest) (g :: gsr) =
            ('-' :: ds) ++ (g ++ render rest gsr) := rfl
        have htok : tokInteger (Token.num true ds :: rest) c =
            (match parseI32 ('-' :: ds) with
             | some v => (TRes.ok rest (ExprKind.integer v), c)
             | none => (TRes.panic, c)) := rfl
        rw [hrw, hrun, htok]
        cases hv : parseI32 ('-' :: ds) with
        | some v =>
          simp only [hv]
          refine prel_ok_intro _ _ _ _ _ ⟨gsr, p2, rfl, hrest⟩ ?_
          have hdsl : 0 < ds.length := List.length_pos.mpr hne
          constructor
          · simp only [List.length_append, List.length_cons]
            omega
          · simp
        | none =>
          simp only [hv]
          exact prel_panic_intro _ _
    | word s =>
      obtain ⟨hd, tl, hs, hid, hdg, hws2, hcont, -, -, -⟩ :=
        wfWord_parts s ht
      subst hs
      refine integer_nonnum_case _ _ rest g gsr _ c hwf ?_ ?_ rfl
      · exact headNotDigit_cons _ _ hdg
      · exact headNot_cons _ _ _
          (word_head_ne hd hid '-' (by decide) (by decide))
    | minus =>
      have hld : headNotDigit (g ++ render rest gsr) :=
        after_headNotDigit .minus rest g gsr hg hsep (fun ds2 => rfl) hrest
      have hrw : render (Token.minus :: rest) (g :: gsr) =
          '-' :: (g ++ render rest gsr) := rfl
      have htok : tokInteger (Token.minus :: rest) c = (.err, c) := rfl
      obtain ⟨ie, herr⟩ := integer_err_minus (g ++ render rest gsr)
        (ws.foldl Pos.advance p) c hld
      rw [hrw, herr, htok]
      exact prel_err_intro _ _ _ _
    | plus =>
      exact integer_nonnum_case _ _ rest g gsr _ c hwf
        (headNotDigit_cons _ _ (by decide)) (headNot_cons _ _ _ (by decide))
        rfl
    | star =>
      exact integer_nonnum_case _ _ rest g gsr _ c hwf
        (headNotDigit_cons _ _ (by decide)) (headNot_cons _ _ _ (by decide))
        rfl
    | eq =>
      exact integer_nonnum_case _ _ rest g gsr _ c hwf
        (headNotDigit_cons _ _ (by decide)) (headNot_cons _ _ _ (by decide))
        rfl
    | semi =>
      exact integer_nonnum_case _ _ rest g gsr _ c hwf
        (headNotDigit_cons _ _ (by decide)) (headNot_cons _ _ _ (by decide))
        rfl
    | lb =>
      exact integer_nonnum_case _ _ rest g gsr _ c hwf
        (headNotDigit_cons _ _ (by decide)) (headNot_cons _ _ _ (by decide))
        rfl
    | rb =>
      exact integer_nonnum_case _ _ rest g gsr _ c hwf
        (headNotDigit_cons _ _ (by decide)) (headNot_cons _ _ _ (by decide))
        rfl

/-! ## Single-character symbol refinement -/

theorem symbol_ok (ch : Char) (ws g l : List Char) (p : Pos) (c : Ctx)
    (hws : allWs ws) (hg : allWs g) (hlw : headNotWs l)
    (hchw : isMultispace ch = false) :
    ∃ p2, pmap (space_insignificant (tag [ch])) (fun _ => ())
      ⟨ws ++ (ch :: (g ++ l)), p⟩ c = (.ok ⟨l, p2⟩ (), c) := by
  have hms1 : multispace0 ⟨ws ++ (ch :: (g ++ l)), p⟩ c =
      (.ok ⟨ch :: (g ++ l), ws.foldl Pos.advance p⟩ (), c) := by
    rw [ms0_run, skipSpaces_ws_append ws hws _ p (headNotWs_cons _ _ hchw)]
  have htag : tag [ch] ⟨ch :: (g ++ l), ws.foldl Pos.advance p⟩ c =
      (.ok ⟨g ++ l, [ch].foldl Pos.advance (ws.foldl Pos.advance p)⟩
        [ch], c) := by
    refine tag_match _ _ _ _ ?_
    show tagLoop (ch :: []) ⟨(ch :: []) ++ (g ++ l), _⟩ = _
    exact tagLoop_self (ch :: []) (g ++ l) _
  have hsi : space_insignificant (tag [ch]) ⟨ws ++ (ch :: (g ++ l)), p⟩ c =
      (.ok ⟨l, g.foldl Pos.advance ([ch].foldl Pos.advance
        (ws.foldl Pos.advance p))⟩ [ch], c) := by
    unfold space_insignificant delimited
    rw [pbind_ok _ _ _ _ _ _ _ hms1]
    rw [pbind_ok _ _ _ _ _ _ _ htag]
    exact pmap_ok _ _ _ _ _ _ _
      (by rw [ms0_run, skipSpaces_ws_append g hg l _ hlw])
  exact ⟨_, pmap_ok _ _ _ _ _ _ _ hsi⟩

theorem symbol_err (ch : Char) (ws l : List Char) (p : Pos) (c : Ctx)
    (hws : allWs ws) (hlw : headNotWs l) (hhead : headNot ch l) :
    pmap (space_insignificant (tag [ch])) (fun _ => ()) ⟨ws ++ l, p⟩ c =
      (.err ⟨l, ws.foldl Pos.advance p⟩ ErrorKind.Tag, c) := by
  have hms1 : multispace0 ⟨ws ++ l, p⟩ c =
      (.ok ⟨l, ws.foldl Pos.advance p⟩ (), c) := by
    rw [ms0_run, skipSpaces_ws_append ws hws l p hlw]
  have htag : tag [ch] ⟨l, ws.foldl Pos.advance p⟩ c =
      (.err ⟨l, ws.foldl Pos.advance p⟩ ErrorKind.Tag, c) := by
    refine tag_none _ _ _ ?_
    show tagLoop (ch :: []) ⟨l, _⟩ = none
    exact tagLoop_head_ne ch [] l _ hhead
  refine pmap_err _ _ _ _ _ _ _ ?_
  unfold space_insignificant delimited
  rw [pbind_ok _ _ _ _ _ _ _ hms1]
  exact pbind_err _ _ _ _ _ _ _ htag

theorem tokText_head_cases (t : Token) (ht : wfToken t = true) (x : Char)
    (hx : (tokText t).head? = some x) :
    identStartC x = true ∨ x.isDigit = true ∨
      (x = '-' ∧ (t = .minus ∨ ∃ ds, t = .num true ds)) ∨
      (x = '+' ∧ t = .plus) ∨ (x = '*' ∧ t = .star) ∨
      (x = '=' ∧ t = .eq) ∨ (x = ';' ∧ t = .semi) ∨
      (x = lbrace ∧ t = .lb) ∨ (x = rbrace ∧ t = .rb) := by
  cases t with
  | word s =>
    obtain ⟨hd, tl, hs, hid, -, -, -, -, -, -⟩ := wfWord_parts s ht
    subst hs
    rw [show tokText (Token.word (hd :: tl)) = hd :: tl from rfl] at hx
    simp only [List.head?] at hx
    injection hx with hx
    subst hx
    exact Or.inl hid
  | num neg ds =>
    obtain ⟨hne, hdig⟩ := wfNum_parts neg ds ht
    cases neg with
    | true =>
      rw [show tokText (Token.num true ds) = '-' :: ds from rfl] at hx
      simp only [List.head?] at hx
      injection hx with hx
      subst hx
      exact Or.inr (Or.inr (Or.inl ⟨rfl, Or.inr ⟨ds, rfl⟩⟩))
    | false =>
      rw [show tokText (Token.num false ds) = ds from rfl] at hx
      cases ds with
      | nil => exact absurd hx (by simp)
      | cons d dt =>
        simp only [List.head?] at hx
        injection hx with hx
        subst hx
        exact Or.inr (Or.inl (hdig d (List.mem_cons_self d dt)))
  | plus =>
    rw [show tokText Token.plus = ['+'] from rfl] at hx
    simp only [List.head?] at hx
    injection hx with hx
    subst hx
    exact Or.inr (Or.inr (Or.inr (Or.inl ⟨rfl, rfl⟩)))
  | minus =>
    rw [show tokText Token.minus = ['-'] from rfl] at hx
    simp only [List.head?] at hx
    injection hx with hx
    subst hx
    exact Or.inr (Or.inr (Or.inl ⟨rfl, Or.inl rfl⟩))
  | star =>
    rw [show tokText Token.star = ['*'] from rfl] at hx
    simp only [List.head?] at hx
    injection hx with hx
    subst hx
    exact Or.inr (Or.inr (Or.inr (Or.inr (Or.inl ⟨rfl, rfl⟩))))
  | eq =>
    rw [show tokText Token.eq = ['='] from rfl] at hx
    simp only [List.head?] at hx
    injection hx with hx
    subst hx
    exact Or.inr (Or.inr (Or.inr (Or.inr (Or.inr (Or.inl ⟨rfl, rfl⟩)))))
  | semi =>
    rw [show tokText Token.semi = [';'] from rfl] at hx
    simp only [List.head?] at hx
    injection hx with hx
    subst hx
    exact Or.inr (Or.inr (Or.inr (Or.inr (Or.inr (Or.inr
      (Or.inl ⟨rfl, rfl⟩))))))
  | lb =>
    rw [show tokText Token.lb = [lbrace] from rfl] at hx
    simp only [List.head?] at hx
    injection hx with hx
    subst hx
    exact Or.inr (Or.inr (Or.inr (Or.inr (Or.inr (Or.inr (Or.inr
      (Or.inl ⟨rfl, rfl⟩)))))))
  | rb =>
    rw [show tokText Token.rb = [rbrace] from rfl] at hx
    simp only [List.head?] at hx
    injection hx with hx
    subst hx
    exact Or.inr (Or.inr (Or.inr (Or.inr (Or.inr (Or.inr (Or.inr
      (Or.inr ⟨rfl, rfl⟩)))))))

theorem tok_headNot_star (t : Token) (ht : wfToken t = true)
    (hne : t ≠ Token.star) : headNot '*' (tokText t) := by
  intro x hx hcontra
  subst hcontra
  rcases tokText_head_cases t ht '*' hx with h | h | ⟨h, -⟩ | ⟨h1, -⟩ |
    ⟨-, h2⟩ | ⟨h1, -⟩ | ⟨h1, -⟩ | ⟨h1, -⟩ | ⟨h1, -⟩
  · exact absurd h (by decide)
  · exact absurd h (by decide)
  · exact absurd h (by decide)
  · exact absurd h1 (by decide)
  · exact hne h2
  · exact absurd h1 (by decide)
  · exact absurd h1 (by decide)
  · exact absurd h1 (by decide)
  · exact absurd h1 (by decide)

theorem tok_headNot_eq (t : Token) (ht : wfToken t = true)
    (hne : t ≠ Token.eq) : headNot '=' (tokText t) := by
  intro x hx hcontra
  subst hcontra
  rcases tokText_head_cases t ht '=' hx with h | h | ⟨h, -⟩ | ⟨h1, -⟩ |
    ⟨h1, -⟩ | ⟨-, h2⟩ | ⟨h1, -⟩ | ⟨h1, -⟩ | ⟨h1, -⟩
  · exact absurd h (by decide)
  · exact absurd h (by decide)
  · exact absurd h (by decide)
  · exact absurd h1 (by decide)
  · exact absurd h1 (by decide)
  · exact hne h2
  · exact absurd h1 (by decide)
  · exact absurd h1 (by decide)
  · exact absurd h1 (by decide)

theorem tok_headNot_semi (t : Token) (ht : wfToken t = true)
    (hne : t ≠ Token.semi) : headNot ';' (tokText t) := by
  intro x hx hcontra
  subst hcontra
  rcases tokText_head_cases t ht ';' hx with h | h | ⟨h, -⟩ | ⟨h1, -⟩ |
    ⟨h1, -⟩ | ⟨h1, -⟩ | ⟨-, h2⟩ | ⟨h1, -⟩ | ⟨h1, -⟩
  · exact absurd h (by decide)
  · exact absurd h (by decide)
  · exact absurd h (by decide)
  · exact absurd h1 (by decide)
  · exact absurd h1 (by decide)
  · exact absurd h1 (by decide)
  · exact hne h2
  · exact absurd h1 (by decide)
  · exact absurd h1 (by decide)

theorem tok_headNot_lb (t : Token) (ht : wfToken t = true)
    (hne : t ≠ Token.lb) : headNot lbrace (tokText t) := by
  intro x hx hcontra
  subst hcontra
  rcases tokText_head_cases t ht lbrace hx with h | h | ⟨h, -⟩ | ⟨h1, -⟩ |
    ⟨h1, -⟩ | ⟨h1, -⟩ | ⟨h1, -⟩ | ⟨-, h2⟩ | ⟨h1, -⟩
  · exact absurd h (by decide)
  · exact absurd h (by decide)
  · exact absurd h (by decide)
  · exact absurd h1 (by decide)
  · exact absurd h1 (by decide)
  · exact absurd h1 (by decide)
  · exact absurd h1 (by decide)
  · exact hne h2
  · exact absurd h1 (by decide)

theorem tok_headNot_rb (t : Token) (ht : wfToken t = true)
    (hne : t ≠ Token.rb) : headNot rbrace (tokText t) := by
  intro x hx hcontra
  subst hcontra
  rcases tokText_head_cases t ht rbrace hx with h | h | ⟨h, -⟩ | ⟨h1, -⟩ |
    ⟨h1, -⟩ | ⟨h1, -⟩ | ⟨h1, -⟩ | ⟨h1, -⟩ | ⟨-, h2⟩
  · exact absurd h (by decide)
  · exact absurd h (by decide)
  · exact absurd h (by decide)
  · exact absurd h1 (by decide)
  · exact absurd h1 (by decide)
  · exact absurd h1 (by decide)
  · exact absurd h1 (by decide)
  · exact absurd h1 (by decide)
  · exact hne h2

theorem symbol_rel (ch : Char) (tk : Token) (hchw : isMultispace ch = false)
    (htext : tokText tk = [ch])
    (hother : ∀ t, wfToken t = true → t ≠ tk → headNot ch (tokText t))
    (ts : List Token) (gs : List (List Char)) (ws : List Char) (p : Pos)
    (c : Ctx) (hwf : WfRender ts gs = true) (hws : allWs ws) :
    MRel (ws ++ render ts gs).length ts.length
      (pmap (space_insignificant (tag [ch])) (fun _ => ())
        ⟨ws ++ render ts gs, p⟩ c)
      (tokSingle tk ts c) := by
  rcases wfRender_shape ts gs hwf with ⟨h1, h2⟩ | ⟨t, rest, g, gsr, h1, h2⟩
  · subst h1
    subst h2
    rw [symbol_err ch ws (render [] []) p c hws (render_headNotWs [] [] hwf)
      (fun x h => absurd h (by simp [render]))]
    have htok : tokSingle tk ([] : List Token) c = (.err, c) := rfl
    rw [htok]
    exact prel_err_intro _ _ _ _
  · subst h1
    subst h2
    obtain ⟨ht, hg, hsep, hrest⟩ := wfRender_cons _ _ _ _ hwf
    by_cases ht0 : t = tk
    · subst ht0
      have hrw : render (t :: rest) (g :: gsr) =
          ch :: (g ++ render rest gsr) := by
        rw [render_cons, htext, List.singleton_append]
      obtain ⟨p2, hok⟩ := symbol_ok ch ws g (render rest gsr) p c hws hg
        (render_headNotWs rest gsr hrest) hchw
      have htok : tokSingle t (t :: rest) c = (.ok rest (), c) := by
        unfold tokSingle
        dsimp only
        rw [if_pos rfl]
      rw [hrw, hok, htok]
      refine prel_ok_intro _ _ _ _ _ ⟨gsr, p2, rfl, hrest⟩ ?_
      constructor
      · simp only [List.length_append, List.length_cons]
        omega
      · simp
    · have hh : headNot ch (render (t :: rest) (g :: gsr)) := by
        rw [render_cons]
        exact headNot_append_left _ _ _ (tokText_ne_nil t ht)
          (hother t ht ht0)
      rw [symbol_err ch ws _ p c hws (render_headNotWs _ _ hwf) hh]
      have htok : tokSingle tk (t :: rest) c = (.err, c) := by
        unfold tokSingle
        dsimp only
        rw [if_neg ht0]
      rw [htok]
      exact prel_err_intro _ _ _ _

/-! ## Additive-operator refinement -/

theorem tok_headNot_plus (t : Token) (ht : wfToken t = true)
    (hne : t ≠ Token.plus) : headNot '+' (tokText t) := by
  intro x hx hcontra
  subst hcontra
  rcases tokText_head_cases t ht '+' hx with h | h | ⟨h, -⟩ | ⟨-, h2⟩ |
    ⟨h1, -⟩ | ⟨h1, -⟩ | ⟨h1, -⟩ | ⟨h1, -⟩ | ⟨h1, -⟩
  · exact absurd h (by decide)
  · exact absurd h (by decide)
  · exact absurd h (by decide)
  · exact hne h2
  · exact absurd h1 (by decide)
  · exact absurd h1 (by decide)
  · exact absurd h1 (by decide)
  · exact absurd h1 (by decide)
  · exact absurd h1 (by decide)

theorem tok_headNot_minus (t : Token) (ht : wfToken t = true)
    (hm : t ≠ Token.minus) (hn : ∀ ds, t ≠ Token.num true ds) :
    headNot '-' (tokText t) := by
  intro x hx hcontra
  subst hcontra
  rcases tokText_head_cases t ht '-' hx with h | h | ⟨-, h2⟩ | ⟨h1, -⟩ |
    ⟨h1, -⟩ | ⟨h1, -⟩ | ⟨h1, -⟩ | ⟨h1, -⟩ | ⟨h1, -⟩
  · exact absurd h (by decide)
  · exact absurd h (by decide)
  · rcases h2 with h3 | ⟨ds, h3⟩
    · exact hm h3
    · exact hn ds h3
  · exact absurd h1 (by decide)
  · exact absurd h1 (by decide)
  · exact absurd h1 (by decide)
  · exact absurd h1 (by decide)
  · exact absurd h1 (by decide)
  · exact absurd h1 (by decide)

theorem l0op_err_case (t : Token) (rest : List Token) (g : List Char)
    (gsr : List (List Char)) (p : Pos) (c : Ctx)
    (hwf : WfRender (t :: rest) (g :: gsr) = true)
    (hplus : headNot '+' (tokText t)) (hminus : headNot '-' (tokText t)) :
    level_0_operator ⟨render (t :: rest) (g :: gsr), p⟩ c =
      (.err ⟨render (t :: rest) (g :: gsr), p⟩ ErrorKind.Tag, c) := by
  obtain ⟨ht, -, -, -⟩ := wfRender_cons _ _ _ _ hwf
  refine level_0_operator_err _ _ _ ?_ ?_
  · rw [render_cons]
    exact headNot_append_left _ _ _ (tokText_ne_nil t ht) hplus
  · rw [render_cons]
    exact headNot_append_left _ _ _ (tokText_ne_nil t ht) hminus

theorem level_0_operator_rel (ts : List Token) (gs : List (List Char))
    (p : Pos) (c : Ctx) (hwf : WfRender ts gs = true) :
    (∃ ws2 gs2 p2 ts2 op,
      level_0_operator ⟨render ts gs, p⟩ c =
        (.ok ⟨ws2 ++ render ts2 gs2, p2⟩ op, c) ∧
      tokLevel0Op ts c = (.ok ts2 op, c) ∧
      allWs ws2 ∧ WfRender ts2 gs2 = true ∧
      (ws2 ++ render ts2 gs2).length < (render ts gs).length ∧
      ts2.length ≤ ts.length) ∨
    (∃ ie k, level_0_operator ⟨render ts gs, p⟩ c = (.err ie k, c) ∧
      tokLevel0Op ts c = (.err, c)) := by
  rcases wfRender_shape ts gs hwf with ⟨h1, h2⟩ | ⟨t, rest, g, gsr, h1, h2⟩
  · subst h1
    subst h2
    exact Or.inr ⟨⟨render [] [], p⟩, ErrorKind.Tag,
      level_0_operator_err (render [] []) p c
        (fun x h => absurd h (by simp [render]))
        (fun x h => absurd h (by simp [render])), rfl⟩
  · subst h1
    subst h2
    obtain ⟨ht, hg, hsep, hrest⟩ := wfRender_cons _ _ _ _ hwf
    cases t with
    | plus =>
      have htagp : tag "+".data
          ⟨'+' :: (g ++ render rest gsr), p⟩ c =
          (.ok ⟨g ++ render rest gsr, ("+".data).foldl Pos.advance p⟩
            "+".data, c) := by
        refine tag_match _ _ _ _ ?_
        show tagLoop ('+' :: []) ⟨('+' :: []) ++ (g ++ render rest gsr), p⟩
          = _
        exact tagLoop_self ('+' :: []) (g ++ render rest gsr) p
      refine Or.inl ⟨g, gsr, ("+".data).foldl Pos.advance p, rest, .Plus,
        ?_, rfl, hg, hrest, ?_, ?_⟩
      · show level_0_operator ⟨'+' :: (g ++ render rest gsr), p⟩ c = _
        unfold level_0_operator
        exact pmap_ok _ _ _ _ _ _ _ (alt2_fst _ _ _ _ _ _ _ htagp)
      · show (g ++ render rest gsr).length <
          ('+' :: (g ++ render rest gsr)).length
        exact Nat.lt_succ_self _
      · exact Nat.le_succ _
    | minus =>
      have htagpE : tag "+".data
          ⟨'-' :: (g ++ render rest gsr), p⟩ c =
          (.err ⟨'-' :: (g ++ render rest gsr), p⟩ ErrorKind.Tag, c) := by
        refine tag_none _ _ _ ?_
        show tagLoop ('+' :: []) ⟨'-' :: (g ++ render rest gsr), p⟩ = none
        exact tagLoop_head_ne '+' [] _ p (headNot_cons _ _ _ (by decide))
      have htagm : tag "-".data
          ⟨'-' :: (g ++ render rest gsr), p⟩ c =
          (.ok ⟨g ++ render rest gsr, ("-".data).foldl Pos.advance p⟩
            "-".data, c) := by
        refine tag_match _ _ _ _ ?_
        show tagLoop ('-' :: []) ⟨('-' :: []) ++ (g ++ render rest gsr), p⟩
          = _
        exact tagLoop_self ('-' :: []) (g ++ render rest gsr) p
      refine Or.inl ⟨g, gsr, ("-".data).foldl Pos.advance p, rest, .Minus,
        ?_, rfl, hg, hrest, ?_, ?_⟩
      · show level_0_operator ⟨'-' :: (g ++ render rest gsr), p⟩ c = _
        unfold level_0_operator
        have halt : alt2 (tag "+".data) (tag "-".data)
            ⟨'-' :: (g ++ render rest gsr), p⟩ c =
            (.ok ⟨g ++ render rest gsr, ("-".data).foldl Pos.advance p⟩
              "-".data, c) := by
          rw [alt2_snd _ _ _ _ _ _ _ htagpE]
          exact htagm
        exact pmap_ok _ _ _ _ _ _ _ halt
      · show (g ++ render rest gsr).length <
          ('-' :: (g ++ render rest gsr)).length
        exact Nat.lt_succ_self _
      · exact Nat.le_succ _
    | num neg ds =>
      cases neg with
      | true =>
        have htagpE : tag "+".data
            ⟨'-' :: (ds ++ (g ++ render rest gsr)), p⟩ c =
            (.err ⟨'-' :: (ds ++ (g ++ render rest gsr)), p⟩
              ErrorKind.Tag, c) := by
          refine tag_none _ _ _ ?_
          show tagLoop ('+' :: [])
            ⟨'-' :: (ds ++ (g ++ render rest gsr)), p⟩ = none
          exact tagLoop_head_ne '+' [] _ p (headNot_cons _ _ _ (by decide))
        have htagm : tag "-".data
            ⟨'-' :: (ds ++ (g ++ render rest gsr)), p⟩ c =
            (.ok ⟨ds ++ (g ++ render rest gsr),
              ("-".data).foldl Pos.advance p⟩ "-".data, c) := by
          refine tag_match _ _ _ _ ?_
          show tagLoop ('-' :: [])
            ⟨('-' :: []) ++ (ds ++ (g ++ render rest gsr)), p⟩ = _
          exact tagLoop_self ('-' :: []) (ds ++ (g ++ render rest gsr)) p
        refine Or.inl ⟨[], g :: gsr, ("-".data).foldl Pos.advance p,
          Token.num false ds :: rest, .Minus, ?_, rfl, allWs_nil,
          wf_sign_strip ds rest g gsr hwf, ?_, ?_⟩
        · show level_0_operator
            ⟨'-' :: (ds ++ (g ++ render rest gsr)), p⟩ c = _
          unfold level_0_operator
          have halt : alt2 (tag "+".data) (tag "-".data)
              ⟨'-' :: (ds ++ (g ++ render rest gsr)), p⟩ c =
              (.ok ⟨ds ++ (g ++ render rest gsr),
                ("-".data).foldl Pos.advance p⟩ "-".data, c) := by
            rw [alt2_snd _ _ _ _ _ _ _ htagpE]
            exact htagm
          exact pmap_ok _ _ _ _ _ _ _ halt
        · show (ds ++ (g ++ render rest gsr)).length <
            ('-' :: (ds ++ (g ++ render rest gsr))).length
          exact Nat.lt_succ_self _
        · exact Nat.le_refl _
      | false =>
        obtain ⟨hne, hdig⟩ := wfNum_parts false ds ht
        exact Or.inr ⟨⟨render (Token.num false ds :: rest) (g :: gsr), p⟩,
          ErrorKind.Tag,
          l0op_err_case _ rest g gsr p c hwf
            (tok_headNot_plus _ ht (by simp))
            (tok_headNot_minus _ ht (by simp) (fun ds2 => by simp)), rfl⟩
    | word s =>
      exact Or.inr ⟨⟨render (Token.word s :: rest) (g :: gsr), p⟩,
        ErrorKind.Tag,
        l0op_err_case _ rest g gsr p c hwf
          (tok_headNot_plus _ ht (by simp))
          (tok_headNot_minus _ ht (by simp) (fun ds2 => by simp)), rfl⟩
    | star =>
      exact Or.inr ⟨⟨render (Token.star :: rest) (g :: gsr), p⟩,
        ErrorKind.Tag,
        l0op_err_case _ rest g gsr p c hwf
          (tok_headNot_plus _ ht (by simp))
          (tok_headNot_minus _ ht (by simp) (fun ds2 => by simp)), rfl⟩
    | eq =>
      exact Or.inr ⟨⟨render (Token.eq :: rest) (g :: gsr), p⟩,
        ErrorKind.Tag,
        l0op_err_case _ rest g gsr p c hwf
          (tok_headNot_plus _ ht (by simp))
          (tok_headNot_minus _ ht (by simp) (fun ds2 => by simp)), rfl⟩
    | semi =>
      exact Or.inr ⟨⟨render (Token.semi :: rest) (g :: gsr), p⟩,
        ErrorKind.Tag,
        l0op_err_case _ rest g gsr p c hwf
          (tok_headNot_plus _ ht (by simp))
          (tok_headNot_minus _ ht (by simp) (fun ds2 => by simp)), rfl⟩
    | lb =>
      exact Or.inr ⟨⟨render (Token.lb :: rest) (g :: gsr), p⟩,
        ErrorKind.Tag,
        l0op_err_case _ rest g gsr p c hwf
          (tok_headNot_plus _ ht (by simp))
          (tok_headNot_minus _ ht (by simp) (fun ds2 => by simp)), rfl⟩
    | rb =>
      exact Or.inr ⟨⟨render (Token.rb :: rest) (g :: gsr), p⟩,
        ErrorKind.Tag,
        l0op_err_case _ rest g gsr p c hwf
          (tok_headNot_plus _ ht (by simp))
          (tok_headNot_minus _ ht (by simp) (fun ds2 => by simp)), rfl⟩

/-! ## Rule-level refinement: helpers -/

theorem wf_word_head_split (ts : List Token) (gs : List (List Char))
    (hwf : WfRender ts gs = true) (s : List Char) (rest : List Token)
    (hts : ts = Token.word s :: rest) :
    keywordSplit "if".data s = false ∧ keywordSplit "let".data s = false ∧
      keywordSplit "else".data s = false := by
  subst hts
  rcases wfRender_shape _ _ hwf with ⟨h1, -⟩ | ⟨t, r2, g, gsr, h1, h2⟩
  · exact absurd h1 (by simp)
  · injection h1 with h1a h1b
    subst h2
    obtain ⟨ht, -, -, -⟩ := wfRender_cons _ _ _ _ (h1a ▸ h1b ▸ hwf)
    rw [← h1a] at ht
    obtain ⟨hd, tl, hs, -, -, -, -, hk1, hk2, hk3⟩ := wfWord_parts s ht
    exact ⟨hk1, hk2, hk3⟩

theorem if_ruleRef (n : Nat) : RuleRef if_ (tokKeyword "if".data) n :=
  fun ts gs ws p c _ hwf hws =>
    keyword_rel "if".data (by decide) (by decide) ts gs ws p c hwf hws
      (fun s rest hts => (wf_word_head_split ts gs hwf s rest hts).1)

theorem else_ruleRef (n : Nat) : RuleRef else_ (tokKeyword "else".data) n :=
  fun ts gs ws p c _ hwf hws =>
    keyword_rel "else".data (by decide) (by decide) ts gs ws p c hwf hws
      (fun s rest hts => (wf_word_head_split ts gs hwf s rest hts).2.2)

theorem let_ruleRef (n : Nat) : RuleRef let_ (tokKeyword "let".data) n :=
  fun ts gs ws p c _ hwf hws =>
    keyword_rel "let".data (by decide) (by decide) ts gs ws p c hwf hws
      (fun s rest hts => (wf_word_head_split ts gs hwf s rest hts).2.1)

theorem ident_ruleRef (n : Nat) : RuleRef ident tokIdent n :=
  fun ts gs ws p c _ hwf hws => ident_rel ts gs ws p c hwf hws

theorem integer_ruleRef (n : Nat) : RuleRef integer tokInteger n :=
  fun ts gs ws p c _ hwf hws => integer_rel ts gs ws p c hwf hws

theorem star_ruleRef (n : Nat) : RuleRef star (tokSingle Token.star) n :=
  fun ts gs ws p c _ hwf hws =>
    symbol_rel '*' Token.star (by decide) rfl tok_headNot_star ts gs ws p c
      hwf hws

theorem equal_ruleRef (n : Nat) : RuleRef equal (tokSingle Token.eq) n :=
  fun ts gs ws p c _ hwf hws =>
    symbol_rel '=' Token.eq (by decide) rfl tok_headNot_eq ts gs ws p c
      hwf hws

theorem semicolon_ruleRef (n : Nat) :
    RuleRef semicolon (tokSingle Token.semi) n :=
  fun ts gs ws p c _ hwf hws =>
    symbol_rel ';' Token.semi (by decide) rfl tok_headNot_semi ts gs ws p c
      hwf hws

theorem left_curly_ruleRef (n : Nat) :
    RuleRef left_curly (tokSingle Token.lb) n :=
  fun ts gs ws p c _ hwf hws =>
    symbol_rel lbrace Token.lb (by decide) rfl tok_headNot_lb ts gs ws p c
      hwf hws

theorem right_curly_ruleRef (n : Nat) :
    RuleRef right_curly (tokSingle Token.rb) n :=
  fun ts gs ws p c _ hwf hws =>
    symbol_rel rbrace Token.rb (by decide) rfl tok_headNot_rb ts gs ws p c
      hwf hws

theorem symbol_head_ok (ch : Char) (l2 : List Char) (p : Pos) (c : Ctx)
    (hchw : isMultispace ch = false) :
    ∃ i2, pmap (space_insignificant (tag [ch])) (fun _ => ())
      ⟨ch :: l2, p⟩ c = (.ok i2 (), c) := by
  have hms1 : multispace0 ⟨ch :: l2, p⟩ c = (.ok ⟨ch :: l2, p⟩ (), c) := by
    rw [ms0_run, skipSpaces_no_ws _ _ (headNotWs_cons _ _ hchw)]
  have htag : tag [ch] ⟨ch :: l2, p⟩ c =
      (.ok ⟨l2, [ch].foldl Pos.advance p⟩ [ch], c) := by
    refine tag_match _ _ _ _ ?_
    show tagLoop (ch :: []) ⟨(ch :: []) ++ l2, p⟩ = _
    exact tagLoop_self (ch :: []) l2 p
  have hsi : space_insignificant (tag [ch]) ⟨ch :: l2, p⟩ c =
      (.ok (skipSpaces l2 ([ch].foldl Pos.advance p)) [ch], c) := by
    unfold space_insignificant delimited
    rw [pbind_ok _ _ _ _ _ _ _ hms1, pbind_ok _ _ _ _ _ _ _ htag]
    exact pmap_ok _ _ _ _ _ _ _ (by rw [ms0_run])
  exact ⟨_, pmap_ok _ _ _ _ _ _ _ hsi⟩

theorem symbol_err_info (ch : Char) (hchw : isMultispace ch = false)
    (ts : List Token) (gs : List (List Char)) (p : Pos) (c c2 : Ctx)
    (hwf : WfRender ts gs = true) (ie : Input) (k : ErrorKind)
    (herr : pmap (space_insignificant (tag [ch])) (fun _ => ())
      ⟨render ts gs, p⟩ c = (.err ie k, c2)) :
    CleanAt ie ts ∧ ie.rem.length ≤ (render ts gs).length := by
  by_cases hh : headNot ch (render ts gs)
  · rw [show (⟨render ts gs, p⟩ : Input) =
      ⟨[] ++ render ts gs, p⟩ from rfl] at herr
    rw [symbol_err ch [] (render ts gs) p c allWs_nil
      (render_headNotWs ts gs hwf) hh] at herr
    injection herr with h1 h2
    injection h1 with hie hk
    refine ⟨⟨gs, ([] : List Char).foldl Pos.advance p, hie.symm, hwf⟩, ?_⟩
    rw [← hie]
  · have hhead : ∃ l2, render ts gs = ch :: l2 := by
      unfold headNot at hh
      push_neg at hh
      obtain ⟨x, hx1, hx2⟩ := hh
      subst hx2
      cases hr : render ts gs with
      | nil =>
        rw [hr] at hx1
        exact absurd hx1 (by simp)
      | cons r0 rt =>
        rw [hr] at hx1
        simp only [List.head?] at hx1
        injection hx1 with hx1
        subst hx1
        exact ⟨rt, rfl⟩
    obtain ⟨l2, hl2⟩ := hhead
    rw [hl2] at herr
    obtain ⟨i2, hok⟩ := symbol_head_ok ch l2 p c hchw
    rw [hok] at herr
    injection herr with h1 h2
    exact PRes.noConfusion h1

theorem many1_rel_ws {α : Type} (p : Parser α) (tp : TParser α)
    (bound : Nat)
    (hbody : ∀ i2 ts2 c2, CleanAt i2 ts2 → ts2.length < bound →
      MRel i2.rem.length ts2.length (p i2 c2) (tp ts2 c2))
    (i : Input) (ts : List Token) (c : Ctx) (iL : Nat)
    (hb : ts.length ≤ bound)
    (hfirst : MRel iL ts.length (p i c) (tp ts c)) :
    MRel iL ts.length (many1 p i c) (tmany1 tp ts c) := by
  obtain ⟨hctx, hcase⟩ := hfirst
  cases hpi : p i c with
  | mk r c2 =>
  cases hti : tp ts c with
  | mk tr tc2 =>
    simp only [hpi, hti] at hctx hcase
    subst hctx
    unfold many1 tmany1
    rw [hpi, hti]
    rcases hcase with ⟨i2, ts2, a, ho, hto, hclean2, hlt1, hlt2⟩ |
      ⟨⟨ie, k, ho⟩, hto⟩ | ⟨ho, hto⟩
    · subst ho
      subst hto
      have hLoop := manyLoop_rel ErrorKind.Many1 p tp bound hbody
        (ts2.length + 1) (i2.rem.length + 1) ts2 i2 [a] c2 hclean2
        (by omega) (Nat.le_refl _) (Nat.le_refl _)
      refine prel_mono _ _ ?_ _ _ hLoop
      intro i3 ts3 h
      exact ⟨Nat.lt_of_le_of_lt h.1 hlt1, Nat.lt_of_le_of_lt h.2 hlt2⟩
    · subst ho
      subst hto
      exact prel_err_intro _ ie k c2
    · subst ho
      subst hto
      exact prel_panic_intro _ c2

/-! ## Rule-level refinement: the nine grammar rules -/

theorem blockStep_rel (R : Rules) (T : TokRules) (m : Nat)
    (hbs : RuleRef R.bindings T.bindings m)
    (hex : RuleRef R.expr T.expr m) :
    RuleRef (blockStep R) (tblockStep T) (m + 1) := by
  intro ts gs ws p c hb hwf hws
  unfold blockStep tblockStep delimited tdelimited
  refine bind_rr _ _ _ _ _ _ _ _ _ ?_ ?_
  · exact left_curly_ruleRef (ts.length + 1) ts gs ws p c
      (Nat.lt_succ_self _) hwf hws
  · intro a i2 ts2 c2 hclean2 hlt1 hlt2
    refine mrel_to_w _ _ _ _ ?_
    refine bind_rr _ _ _ _ _ _ _ _ _ ?_ ?_
    · refine alt_rel _ _ _ _ _ _ _ _ ?_ ?_
      · exact ruleRef_clean _ _ _ hbs i2 ts2 c2 hclean2 (by omega)
      · intro c3
        exact ruleRef_clean _ _ _ hex i2 ts2 c3 hclean2 (by omega)
    · intro b i3 ts3 c3 hclean3 hlt1b hlt2b
      exact map_rel _ _ _ _ _ _ _ (mrel_to_w _ _ _ _
        (ruleRef_clean _ _ _ (right_curly_ruleRef (ts3.length + 1)) i3 ts3
          c3 hclean3 (Nat.lt_succ_self _)))

theorem if_elseStep_rel (R : Rules) (T : TokRules) (m : Nat)
    (hbs : RuleRef R.bindings T.bindings m)
    (hex : RuleRef R.expr T.expr m) :
    RuleRef (if_elseStep R) (tif_elseStep T) (m + 1) := by
  intro ts gs ws p c hb hwf hws
  unfold if_elseStep tif_elseStep
  refine bind_rr _ _ _ _ _ _ _ _ _ ?_ ?_
  · exact if_ruleRef (ts.length + 1) ts gs ws p c (Nat.lt_succ_self _)
      hwf hws
  · intro a i2 ts2 c2 hclean2 hlt1 hlt2
    refine mrel_to_w _ _ _ _ ?_
    refine bind_rr _ _ _ _ _ _ _ _ _ ?_ ?_
    · exact ruleRef_clean _ _ _ hex i2 ts2 c2 hclean2 (by omega)
    · intro cond i3 ts3 c3 hclean3 hlt1b hlt2b
      refine mrel_to_w _ _ _ _ ?_
      refine bind_rr _ _ _ _ _ _ _ _ _ ?_ ?_
      · exact ruleRef_clean _ _ _ (blockStep_rel R T m hbs hex) i3 ts3 c3
          hclean3 (by omega)
      · intro consq i4 ts4 c4 hclean4 hlt1c hlt2c
        refine mrel_to_w _ _ _ _ ?_
        refine bind_rr _ _ _ _ _ _ _ _ _ ?_ ?_
        · exact ruleRef_clean _ _ _ (else_ruleRef (ts4.length + 1)) i4 ts4
            c4 hclean4 (Nat.lt_succ_self _)
        · intro u i5 ts5 c5 hclean5 hlt1d hlt2d
          exact map_rel _ _ _ _ _ _ _ (mrel_to_w _ _ _ _
            (ruleRef_clean _ _ _ (blockStep_rel R T m hbs hex) i5 ts5 c5
              hclean5 (by omega)))

theorem atomic_exprStep_rel (R : Rules) (T : TokRules) (m : Nat)
    (hbs : RuleRef R.bindings T.bindings m)
    (hex : RuleRef R.expr T.expr m) :
    RuleRef (atomic_exprStep R) (tatomic_exprStep T) (m + 1) := by
  intro ts gs ws p c hb hwf hws
  unfold atomic_exprStep tatomic_exprStep
  refine alt_rel _ _ _ _ _ _ _ _ ?_ ?_
  · exact integer_rel ts gs ws p c hwf hws
  · intro c2
    refine alt_rel _ _ _ _ _ _ _ _ ?_ ?_
    · exact if_elseStep_rel R T m hbs hex ts gs ws p c2 hb hwf hws
    · intro c3
      refine alt_rel _ _ _ _ _ _ _ _ ?_ ?_
      · exact blockStep_rel R T m hbs hex ts gs ws p c3 hb hwf hws
      · intro c4
        exact map_rel _ _ _ _ _ _ _ (ident_rel ts gs ws p c4 hwf hws)

theorem level_1_expressionStep_rel (R : Rules) (T : TokRules) (m : Nat)
    (hbs : RuleRef R.bindings T.bindings m)
    (hex : RuleRef R.expr T.expr m) :
    RuleRef (level_1_expressionStep R) (tlevel_1_expressionStep T)
      (m + 1) := by
  intro ts gs ws p c hb hwf hws
  unfold level_1_expressionStep tlevel_1_expressionStep
  refine bind_rr _ _ _ _ _ _ _ _ _ ?_ ?_
  · exact atomic_exprStep_rel R T m hbs hex ts gs ws p c hb hwf hws
  · intro first i2 ts2 c2 hclean2 hlt1 hlt2
    refine mrel_to_w _ _ _ _ ?_
    refine fold_many1_rel _ _ _ _ (m + 1) ?_ i2 ts2 c2 hclean2 (by omega)
    intro i3 ts3 c3 hclean3 hb3
    unfold pairP tpairP
    refine bind_rr _ _ _ _ _ _ _ _ _ ?_ ?_
    · exact ruleRef_clean _ _ _ (star_ruleRef (ts3.length + 1)) i3 ts3 c3
        hclean3 (Nat.lt_succ_self _)
    · intro sv i4 ts4 c4 hclean4 hlt1b hlt2b
      exact map_rel _ _ _ _ _ _ _ (mrel_to_w _ _ _ _
        (ruleRef_clean _ _ _ (atomic_exprStep_rel R T m hbs hex) i4 ts4 c4
          hclean4 (by omega)))

theorem level_0_expressionStep_rel (R : Rules) (T : TokRules) (m : Nat)
    (hbs : RuleRef R.bindings T.bindings m)
    (hex : RuleRef R.expr T.expr m) :
    RuleRef (level_0_expressionStep R) (tlevel_0_expressionStep T)
      (m + 1) := by
  have hoperand : ∀ ts2 gs2 ws2 p2 c2, ts2.length < m + 1 →
      WfRender ts2 gs2 = true → allWs ws2 →
      MRel (ws2 ++ render ts2 gs2).length ts2.length
        (alt2 (level_1_expressionStep R) (atomic_exprStep R)
          ⟨ws2 ++ render ts2 gs2, p2⟩ c2)
        (talt2 (tlevel_1_expressionStep T) (tatomic_exprStep T)
          ts2 c2) := by
    intro ts2 gs2 ws2 p2 c2 hb2 hwf2 hws2
    refine alt_rel _ _ _ _ _ _ _ _ ?_ ?_
    · exact level_1_expressionStep_rel R T m hbs hex ts2 gs2 ws2 p2 c2 hb2
        hwf2 hws2
    · intro c3
      exact atomic_exprStep_rel R T m hbs hex ts2 gs2 ws2 p2 c3 hb2
        hwf2 hws2
  intro ts gs ws p c hb hwf hws
  unfold level_0_expressionStep tlevel_0_expressionStep
  refine bind_rr _ _ _ _ _ _ _ _ _ ?_ ?_
  · exact hoperand ts gs ws p c hb hwf hws
  · intro first i2 ts2 c2 hclean2 hlt1 hlt2
    refine mrel_to_w _ _ _ _ ?_
    refine fold_many1_rel _ _ _ _ (m + 1) ?_ i2 ts2 c2 hclean2 (by omega)
    intro i3 ts3 c3 hclean3 hb3
    obtain ⟨gs3, p3, hi3, hwf3⟩ := hclean3
    subst hi3
    unfold pairP tpairP
    rcases level_0_operator_rel ts3 gs3 p3 c3 hwf3 with
      ⟨ws2, gs2, p2', ts2', op, hok, htok, hws2, hwf2, hlen, hts⟩ |
      ⟨ie, k, herr, htok⟩
    · have hredC := pbind_ok level_0_operator
        (fun a => pmap (alt2 (level_1_expressionStep R)
          (atomic_exprStep R)) fun b => (a, b)) _ _ _ _ _ hok
      have hredT : tbind tokLevel0Op
          (fun a => tmap (talt2 (tlevel_1_expressionStep T)
            (tatomic_exprStep T)) fun b => (a, b)) ts3 c3 =
          tmap (talt2 (tlevel_1_expressionStep T) (tatomic_exprStep T))
            (fun b => (op, b)) ts2' c3 := by
        unfold tbind
        rw [htok]
      rw [hredC, hredT]
      have hcore := hoperand ts2' gs2 ws2 p2' c3 (by omega) hwf2 hws2
      refine prel_mono _ _ ?_ _ _ (map_rel _ _ _ _ _ _ _ hcore)
      intro i4 ts4 h
      exact ⟨Nat.lt_trans h.1 hlen, Nat.lt_of_lt_of_le h.2 hts⟩
    · have hredC := pbind_err level_0_operator
        (fun a => pmap (alt2 (level_1_expressionStep R)
          (atomic_exprStep R)) fun b => (a, b)) _ _ _ _ _ herr
      have hredT : tbind tokLevel0Op
          (fun a => tmap (talt2 (tlevel_1_expressionStep T)
            (tatomic_exprStep T)) fun b => (a, b)) ts3 c3 =
          (.err, c3) := by
        unfold tbind
        rw [htok]
      rw [hredC, hredT]
      exact prel_err_intro _ _ _ _

theorem exprStep_rel (R : Rules) (T : TokRules) (m : Nat)
    (hbs : RuleRef R.bindings T.bindings m)
    (hex : RuleRef R.expr T.expr m) :
    RuleRef (exprStep R) (texprStep T) (m + 1) := by
  intro ts gs ws p c hb hwf hws
  unfold exprStep texprStep
  refine alt_rel _ _ _ _ _ _ _ _ ?_ ?_
  · exact level_0_expressionStep_rel R T m hbs hex ts gs ws p c hb hwf hws
  · intro c2
    refine alt_rel _ _ _ _ _ _ _ _ ?_ ?_
    · exact level_1_expressionStep_rel R T m hbs hex ts gs ws p c2 hb
        hwf hws
    · intro c3
      exact atomic_exprStep_rel R T m hbs hex ts gs ws p c3 hb hwf hws

theorem bindingStep_rel (R : Rules) (T : TokRules) (m : Nat)
    (hbs : RuleRef R.bindings T.bindings m)
    (hex : RuleRef R.expr T.expr m) :
    RuleRef (bindingStep R) (tbindingStep T) (m + 1) := by
  intro ts gs ws p c hb hwf hws
  unfold bindingStep tbindingStep
  refine bind_rr _ _ _ _ _ _ _ _ _ ?_ ?_
  · unfold delimited tdelimited
    refine bind_rr _ _ _ _ _ _ _ _ _ ?_ ?_
    · exact let_ruleRef (ts.length + 1) ts gs ws p c (Nat.lt_succ_self _)
        hwf hws
    · intro u i3 ts3 c3 hclean3 hlt1b hlt2b
      refine mrel_to_w _ _ _ _ ?_
      refine bind_rr _ _ _ _ _ _ _ _ _ ?_ ?_
      · exact ruleRef_clean _ _ _ (ident_ruleRef (ts3.length + 1)) i3 ts3
          c3 hclean3 (Nat.lt_succ_self _)
      · intro name i4 ts4 c4 hclean4 hlt1c hlt2c
        obtain ⟨gs4, p4, hi4, hwf4⟩ := hclean4
        subst hi4
        refine map_rel _ _ _ _ _ _ _ ?_
        refine expect_rel _ _ _ _ _ _ _ (Nat.le_refl _) ?_ ?_
        · exact ruleRef_clean _ _ _ (equal_ruleRef (ts4.length + 1)) _ ts4
            c4 ⟨gs4, p4, rfl, hwf4⟩ (Nat.lt_succ_self _)
        · intro ie k c2' heq
          exact symbol_err_info '=' (by decide) ts4 gs4 p4 c4 c2' hwf4
            ie k heq
  · intro name i2 ts2 c2 hclean2 hlt1 hlt2
    refine map_rel _ _ _ _ _ _ _ ?_
    refine mrel_to_w _ _ _ _ ?_
    unfold terminated tterminated
    refine bind_rr _ _ _ _ _ _ _ _ _ ?_ ?_
    · exact ruleRef_clean _ _ _ (exprStep_rel R T m hbs hex) i2 ts2 c2
        hclean2 (by omega)
    · intro value i5 ts5 c5 hclean5 hlt1d hlt2d
      obtain ⟨gs5, p5, hi5, hwf5⟩ := hclean5
      subst hi5
      refine map_rel _ _ _ _ _ _ _ ?_
      refine expect_rel _ _ _ _ _ _ _ (Nat.le_refl _) ?_ ?_
      · exact ruleRef_clean _ _ _ (semicolon_ruleRef (ts5.length + 1)) _
          ts5 c5 ⟨gs5, p5, rfl, hwf5⟩ (Nat.lt_succ_self _)
      · intro ie k c2' heq
        exact symbol_err_info ';' (by decide) ts5 gs5 p5 c5 c2' hwf5
          ie k heq

theorem bindingsStep_rel (R : Rules) (T : TokRules) (m : Nat)
    (hbs : RuleRef R.bindings T.bindings m)
    (hex : RuleRef R.expr T.expr m) :
    RuleRef (bindingsStep R) (tbindingsStep T) (m + 1) := by
  intro ts gs ws p c hb hwf hws
  unfold bindingsStep tbindingsStep
  refine bind_rr _ _ _ _ _ _ _ _ _ ?_ ?_
  · refine many1_rel_ws _ _ (m + 1) ?_ _ ts c _ (by omega) ?_
    · intro i2 ts2 c2 hcl hlt
      exact ruleRef_clean _ _ _ (bindingStep_rel R T m hbs hex) i2 ts2 c2
        hcl hlt
    · exact bindingStep_rel R T m hbs hex ts gs ws p c hb hwf hws
  · intro bs i2 ts2 c2 hclean2 hlt1 hlt2
    exact map_rel _ _ _ _ _ _ _ (mrel_to_w _ _ _ _
      (ruleRef_clean _ _ _ (exprStep_rel R T m hbs hex) i2 ts2 c2 hclean2
        (by omega)))

theorem programStep_rel (R : Rules) (T : TokRules) (m : Nat)
    (hbs : RuleRef R.bindings T.bindings m)
    (hex : RuleRef R.expr T.expr m) :
    RuleRef (programStep R) (tprogramStep T) (m + 1) := by
  intro ts gs ws p c hb hwf hws
  unfold programStep tprogramStep
  refine alt_rel _ _ _ _ _ _ _ _ ?_ ?_
  · exact bindingsStep_rel R T m hbs hex ts gs ws p c hb hwf hws
  · intro c2
    exact exprStep_rel R T m hbs hex ts gs ws p c2 hb hwf hws

theorem ref_main : ∀ m n j : Nat, m ≤ n → m ≤ j →
    ExprRef m (mkRules n) (mkTokRules j) := by
  intro m
  induction m with
  | zero =>
    intro n j h1 h2
    exact ⟨fun ts gs ws p c hb hwf hws => absurd hb (by omega),
      fun ts gs ws p c hb hwf hws => absurd hb (by omega),
      fun ts gs ws p c hb hwf hws => absurd hb (by omega),
      fun ts gs ws p c hb hwf hws => absurd hb (by omega),
      fun ts gs ws p c hb hwf hws => absurd hb (by omega),
      fun ts gs ws p c hb hwf hws => absurd hb (by omega),
      fun ts gs ws p c hb hwf hws => absurd hb (by omega),
      fun ts gs ws p c hb hwf hws => absurd hb (by omega),
      fun ts gs ws p c hb hwf hws => absurd hb (by omega)⟩
  | succ m ih =>
    intro n j h1 h2
    cases n with
    | zero => exact absurd h1 (by omega)
    | succ n' =>
      cases j with
      | zero => exact absurd h2 (by omega)
      | succ j' =>
        obtain ⟨hprog, hexpr, hl0, hl1, hat, hbl, hif, hbd, hbs⟩ :=
          ih n' j' (by omega) (by omega)
        exact ⟨programStep_rel _ _ m hbs hexpr,
          exprStep_rel _ _ m hbs hexpr,
          level_0_expressionStep_rel _ _ m hbs hexpr,
          level_1_expressionStep_rel _ _ m hbs hexpr,
          atomic_exprStep_rel _ _ m hbs hexpr,
          blockStep_rel _ _ m hbs hexpr,
          if_elseStep_rel _ _ m hbs hexpr,
          bindingStep_rel _ _ m hbs hexpr,
          bindingsStep_rel _ _ m hbs hexpr⟩

/-! ## From the refinement to `parse_input` -/

theorem render_length (ts : List Token) :
    ∀ gs : List (List Char), WfRender ts gs = true →
      ts.length ≤ (render ts gs).length := by
  induction ts with
  | nil =>
    intro gs hwf
    exact Nat.zero_le _
  | cons t rest ih =>
    intro gs hwf
    cases gs with
    | nil =>
      exfalso
      unfold WfRender at hwf
      rw [Bool.and_eq_true] at hwf
      have h2 := hwf.2
      simp [wfGaps] at h2
    | cons g gsr =>
      obtain ⟨ht, -, -, hrest⟩ := wfRender_cons _ _ _ _ hwf
      have h3 := ih gsr hrest
      rw [render_cons]
      simp only [List.length_append, List.length_cons]
      have h4 : 1 ≤ (tokText t).length := by
        cases htt : tokText t with
        | nil => exact absurd htt (tokText_ne_nil t ht)
        | cons a b => simp
      omega

theorem program_render (ts : List Token) (gs : List (List Char))
    (pos : Pos) (c : Ctx) (hwf : WfRender ts gs = true) :
    MRel (render ts gs).length ts.length
      (program ⟨render ts gs, pos⟩ c)
      ((mkTokRules (ts.length + 1)).program ts c) := by
  have hlen := render_length ts gs hwf
  have href := ref_main (ts.length + 1)
    (ruleFuel ⟨render ts gs, pos⟩) (ts.length + 1)
    (by
      show ts.length + 1 ≤ (render ts gs).length + 2
      omega)
    (Nat.le_refl _)
  exact ruleRef_clean _ _ _ href.1 ⟨render ts gs, pos⟩ ts c
    ⟨gs, pos, rfl, hwf⟩ (Nat.lt_succ_self _)

theorem parse_render_ok (ts : List Token) (gs gs2 : List (List Char))
    (e : ExprKind) (c : Ctx) (hwf : WfRender ts gs = true)
    (hwf2 : WfRender ts gs2 = true)
    (hok : parse_input (render ts gs) = .ok e c) :
    parse_input (render ts gs2) = .ok e c := by
  obtain ⟨hctx1, hcase1⟩ := program_render ts gs ⟨0, 1, 1⟩ [] hwf
  unfold parse_input at hok
  cases hp1 : program ⟨render ts gs, ⟨0, 1, 1⟩⟩ [] with
  | mk r1 c1 =>
  cases ht1 : (mkTokRules (ts.length + 1)).program ts [] with
  | mk tr1 tc1 =>
    simp only [hp1, ht1] at hctx1 hcase1
    subst hctx1
    rw [show mkInput (render ts gs) = ⟨render ts gs, ⟨0, 1, 1⟩⟩ from rfl,
      hp1] at hok
    rcases hcase1 with ⟨i2, ts2, a, ho, hto, hclean2, -⟩ |
      ⟨⟨ie, k, ho⟩, hto⟩ | ⟨ho, hto⟩
    · subst ho
      dsimp only at hok
      by_cases hrem : i2.rem = []
      · rw [if_pos hrem] at hok
        injection hok with he hc
        subst he
        subst hc
        obtain ⟨gs2', p2, hi2, hwf2'⟩ := hclean2
        have hts2 : ts2 = [] := by
          rw [hi2] at hrem
          exact (render_nil_iff ts2 gs2' hwf2').mp hrem
        subst hts2
        obtain ⟨hctx2, hcase2⟩ := program_render ts gs2 ⟨0, 1, 1⟩ [] hwf2
        cases hp2 : program ⟨render ts gs2, ⟨0, 1, 1⟩⟩ [] with
        | mk r2 c2' =>
          simp only [hp2, ht1] at hctx2 hcase2
          subst hctx2
          rcases hcase2 with ⟨i3, ts3, a2, ho2, hto2, hclean3, -⟩ |
            ⟨⟨ie2, k2, ho2⟩, hto2⟩ | ⟨ho2, hto2⟩
          · rw [hto] at hto2
            injection hto2 with hts3 ha2
            subst ho2
            unfold parse_input
            rw [show mkInput (render ts gs2) =
              ⟨render ts gs2, ⟨0, 1, 1⟩⟩ from rfl, hp2]
            obtain ⟨gs3', p3, hi3, hwf3'⟩ := hclean3
            have hrem3 : i3.rem = [] := by
              rw [hi3]
              rw [← hts3]
              rfl
            dsimp only
            rw [if_pos hrem3]
            rw [← ha2]
          · rw [hto] at hto2
            exact TRes.noConfusion hto2
          · rw [hto] at hto2
            exact TRes.noConfusion hto2
      · rw [if_neg hrem] at hok
        exact ParseOutcome.noConfusion hok
    · subst ho
      exact ParseOutcome.noConfusion hok
    · subst ho
      exact ParseOutcome.noConfusion hok

/-! ## Claim C9: whitespace insensitivity -/

/-- C9: parsing is insensitive to inter-token whitespace.  First, the
universal form: for every well-formed token sequence (words are
identifiers that no keyword splits, number literals are digit strings
with an optional sign, and adjacent tokens that would fuse are
separated), any two whitespace renderings — which differ exactly by the
whitespace inserted between tokens, never inside identifiers or integer
literals — yield the same successful AST and the same diagnostics.
Second, for the designated conditional program, arbitrary whitespace in
all eight inter-token gaps leaves the AST unchanged; in particular
`"if 0 { 1 } else { 42 }"` and `"if0{1}else{42}"` parse to the identical
conditional AST (condition 0, consequent 1, alternative 42). -/
theorem whitespace_insensitive :
    (∀ (toks : List Token) (gaps gaps2 : List (List Char)) (e : ExprKind)
      (c : Ctx), WfRender toks gaps = true → WfRender toks gaps2 = true →
      parse_input (render toks gaps) = .ok e c →
      parse_input (render toks gaps2) = .ok e c) ∧
    (∀ w1 w2 w3 w4 w5 w6 w7 w8 : List Char,
      allWs w1 → allWs w2 → allWs w3 → allWs w4 → allWs w5 → allWs w6 →
      allWs w7 → allWs w8 →
      parse_input (conditionalSkeleton w1 w2 w3 w4 w5 w6 w7 w8) =
        .ok (.if_ (.integer 0) (.integer 1) (.integer 42)) []) ∧
    parse_input "if 0 \x7b 1 \x7d else \x7b 42 \x7d".data =
      .ok (.if_ (.integer 0) (.integer 1) (.integer 42)) [] ∧
    parse_input "if0\x7b1\x7delse\x7b42\x7d".data =
      .ok (.if_ (.integer 0) (.integer 1) (.integer 42)) [] := by
  refine ⟨parse_render_ok, ?_, rfl, rfl⟩
  intro w1 w2 w3 w4 w5 w6 w7 w8 h1 h2 h3 h4 h5 h6 h7 h8
  obtain ⟨p2, hexpr⟩ := expr_ws_conditional
    (conditionalSkeleton w1 w2 w3 w4 w5 w6 w7 w8).length
    w1 w2 w3 w4 w5 w6 w7 w8 h1 h2 h3 h4 h5 h6 h7 h8 ⟨0, 1, 1⟩ []
  have hbnds : bindingsStep
      (mkRules ((conditionalSkeleton w1 w2 w3 w4 w5 w6 w7 w8).length + 1))
      ⟨conditionalSkeleton w1 w2 w3 w4 w5 w6 w7 w8, ⟨0, 1, 1⟩⟩ [] =
      (.err ⟨conditionalSkeleton w1 w2 w3 w4 w5 w6 w7 w8, ⟨0, 1, 1⟩⟩
        ErrorKind.Tag, []) := by
    refine bindings_err_head _ _ _ _ ?_ ?_
    · exact headNotWs_cons _ _ (by decide)
    · show tagLoop ('l' :: 'e' :: 't' :: []) _ = none
      exact tagLoop_head_ne 'l' _ _ _ (headNot_cons _ _ _ (by decide))
  have hprog : program
      (mkInput (conditionalSkeleton w1 w2 w3 w4 w5 w6 w7 w8)) [] =
      (.ok ⟨[], p2⟩ (.if_ (.integer 0) (.integer 1) (.integer 42)), []) := by
    show (mkRules (ruleFuel
      (mkInput (conditionalSkeleton w1 w2 w3 w4 w5 w6 w7 w8)))).program _ [] = _
    rw [show ruleFuel (mkInput (conditionalSkeleton w1 w2 w3 w4 w5 w6 w7 w8)) =
      (conditionalSkeleton w1 w2 w3 w4 w5 w6 w7 w8).length + 1 + 1 from rfl,
      mkRules_succ]
    show programStep _ ⟨conditionalSkeleton w1 w2 w3 w4 w5 w6 w7 w8,
      ⟨0, 1, 1⟩⟩ [] = _
    unfold programStep
    rw [alt2_snd _ _ _ _ _ _ _ hbnds]
    exact hexpr
  unfold parse_input
  rw [hprog]
  rfl

set_option maxHeartbeats 1600000 in
/-- Witness for C9: the binding program `let a = 40; let b = 2; a + b`,
rendered once with single spaces in every gap and once with only the two
keyword-separating spaces (`let a=40;let b=2;a+b`), parses to the same
bindings AST. -/
theorem whitespace_insensitive_witness :
    WfRender
      [Token.word ['l', 'e', 't'], Token.word ['a'], Token.eq,
        Token.num false ['4', '0'], Token.semi,
        Token.word ['l', 'e', 't'], Token.word ['b'], Token.eq,
        Token.num false ['2'], Token.semi, Token.word ['a'], Token.plus,
        Token.word ['b']]
      [[' '], [' '], [' '], [], [' '], [' '], [' '], [' '], [], [' '],
        [' '], [' '], []] = true ∧
    WfRender
      [Token.word ['l', 'e', 't'], Token.word ['a'], Token.eq,
        Token.num false ['4', '0'], Token.semi,
        Token.word ['l', 'e', 't'], Token.word ['b'], Token.eq,
        Token.num false ['2'], Token.semi, Token.word ['a'], Token.plus,
        Token.word ['b']]
      [[' '], [], [], [], [], [' '], [], [], [], [], [], [], []] = true ∧
    parse_input (render
      [Token.word ['l', 'e', 't'], Token.word ['a'], Token.eq,
        Token.num false ['4', '0'], Token.semi,
        Token.word ['l', 'e', 't'], Token.word ['b'], Token.eq,
        Token.num false ['2'], Token.semi, Token.word ['a'], Token.plus,
        Token.word ['b']]
      [[' '], [], [], [], [], [' '], [], [], [], [], [], [], []]) =
      .ok (ExprKind.bindings
        [("a", ExprKind.integer 40), ("b", ExprKind.integer 2)]
        (ExprKind.addition (ExprKind.ident "a") (ExprKind.ident "b"))) [] :=
  ⟨by decide, by decide,
    whitespace_insensitive.1
      [Token.word ['l', 'e', 't'], Token.word ['a'], Token.eq,
        Token.num false ['4', '0'], Token.semi,
        Token.word ['l', 'e', 't'], Token.word ['b'], Token.eq,
        Token.num false ['2'], Token.semi, Token.word ['a'], Token.plus,
        Token.word ['b']]
      [[' '], [' '], [' '], [], [' '], [' '], [' '], [' '], [], [' '],
        [' '], [' '], []]
      [[' '], [], [], [], [], [' '], [], [], [], [], [], [], []]
      (ExprKind.bindings
        [("a", ExprKind.integer 40), ("b", ExprKind.integer 2)]
        (ExprKind.addition (ExprKind.ident "a") (ExprKind.ident "b"))) []
      (by decide) (by decide) (by rfl)⟩

/-! ## Claim C10: keywords are not reserved as identifiers -/

/-- C10: a program consisting solely of the keyword `"if"`, `"let"` or
`"else"` parses successfully as an identifier reference bearing that
name, because the atomic alternation falls through to the identifier
rule. -/
theorem keywords_parse_as_identifiers :
    parse_input "if".data = .ok (.ident "if") [] ∧
    parse_input "let".data = .ok (.ident "let") [] ∧
    parse_input "else".data = .ok (.ident "else") [] :=
  ⟨rfl, rfl, rfl⟩

end Dyl
